import Mathlib

/-!
# libtrade: the hybrid reader/writer/upgrade spin lock and the ring buffers

A shallow embedding of `src/concurrent.h` (`folly::RWSpinLock` and the guard
structs of `trade::concurrent`) and of `src/container.h` (the ring buffers of
`trade::container`).

Conventions of the embedding.

* `int32_t` and `long` values are mathematical integers (`Int`).  The atomic
  read-modify-write operations on the 32-bit lock word wrap around
  (`wrap32`), and so does the conversion of a `long` to the `int` that
  `Size()` returns; `&` and `|` are `Int.land` and `Int.lor`, the bitwise
  operations on integers in complement representation.  The 64-bit cursors
  of the rings go up by one per call and are not reduced.
* An object is its record of fields; a member function takes the record and
  returns the new record together with the value it returns.
* A callback handed to a drain is an observer: the drain returns the list of
  the records it passed to the callback, in call order.
* A pointer to a lock is an address (`none` for `nullptr`), and the lock
  objects are kept in a memory indexed by address.
* Producers that run `Enqueue` at the same time are a sequence of steps of a
  state that holds the ring and the calls in flight.
-/

/-! ## Machine integers -/

/-- Reduction of an integer to the range of `int32_t`, modulo `2^32`. -/
def wrap32 (x : Int) : Int := (x + 2147483648) % 4294967296 - 2147483648

/-- The values an `int32_t` can hold. -/
def isInt32 (x : Int) : Prop := -2147483648 ≤ x ∧ x < 2147483648

instance (x : Int) : Decidable (isInt32 x) := by
  unfold isInt32; exact inferInstance

/-! ## `folly::RWSpinLock` (src/concurrent.h, lines 45-393) -/

namespace folly

/-- The lock object: its only data member is `std::atomic<int32_t> bits_`. -/
structure RWSpinLock where
  bits_ : Int
  deriving DecidableEq

namespace RWSpinLock

/-- The constant `READER = 4` of the anonymous enum. -/
def READER : Int := 4
/-- The constant `UPGRADED = 2` of the anonymous enum. -/
def UPGRADED : Int := 2
/-- The constant `WRITER = 1` of the anonymous enum. -/
def WRITER : Int := 1

/-- The constructor `RWSpinLock() : bits_(0)`. -/
def fresh : RWSpinLock := ⟨0⟩

/-- The atomic `bits_.fetch_add(d)`: the old value and the new object. -/
def fetch_add (l : RWSpinLock) (d : Int) : Int × RWSpinLock :=
  (l.bits_, ⟨wrap32 (l.bits_ + d)⟩)

/-- The atomic `bits_.fetch_or(m)`: the old value and the new object. -/
def fetch_or (l : RWSpinLock) (m : Int) : Int × RWSpinLock :=
  (l.bits_, ⟨Int.lor l.bits_ m⟩)

/-- The atomic `bits_.compare_exchange_strong(expect, desired)`. -/
def compare_exchange_strong (l : RWSpinLock) (expect desired : Int) :
    Bool × RWSpinLock :=
  if l.bits_ = expect then (true, ⟨desired⟩) else (false, l)

/-- The member `lock()`: its body is a comment, so it returns at once and
leaves the word alone. -/
def lock (l : RWSpinLock) : RWSpinLock := l

/-- The member `unlock()`: its body is a comment, so the word is left alone. -/
def unlock (l : RWSpinLock) : RWSpinLock := l

/-- The member `unlock_shared()`: `bits_.fetch_add(-READER)`. -/
def unlock_shared (l : RWSpinLock) : RWSpinLock := (l.fetch_add (-READER)).2

/-- The member `unlock_and_lock_shared()`: `bits_.fetch_add(READER)` followed
by `unlock()`. -/
def unlock_and_lock_shared (l : RWSpinLock) : RWSpinLock :=
  unlock (l.fetch_add READER).2

/-- The member `unlock_upgrade()`: `bits_.fetch_add(-UPGRADED)`. -/
def unlock_upgrade (l : RWSpinLock) : RWSpinLock := (l.fetch_add (-UPGRADED)).2

/-- The member `unlock_upgrade_and_lock_shared()`:
`bits_.fetch_add(READER - UPGRADED)`. -/
def unlock_upgrade_and_lock_shared (l : RWSpinLock) : RWSpinLock :=
  (l.fetch_add (READER - UPGRADED)).2

/-- The first statement of `unlock_and_lock_upgrade()`:
`bits_.fetch_or(UPGRADED)`. -/
def unlock_and_lock_upgrade_step1 (l : RWSpinLock) : RWSpinLock :=
  (l.fetch_or UPGRADED).2

/-- The member `unlock_and_lock_upgrade()`: `bits_.fetch_or(UPGRADED)` followed
by `bits_.fetch_add(-WRITER)`. -/
def unlock_and_lock_upgrade (l : RWSpinLock) : RWSpinLock :=
  ((unlock_and_lock_upgrade_step1 l).fetch_add (-WRITER)).2

/-- The member `try_lock()`: compare-and-swap of the word from `0` to
`WRITER`. -/
def try_lock (l : RWSpinLock) : Bool × RWSpinLock :=
  l.compare_exchange_strong 0 WRITER

/-- The member `try_lock_shared()`: add `READER`; when the old value has the
`WRITER` or the `UPGRADED` bit, subtract `READER` again and return `false`. -/
def try_lock_shared (l : RWSpinLock) : Bool × RWSpinLock :=
  let (value, l1) := l.fetch_add READER
  if Int.land value (Int.lor WRITER UPGRADED) ≠ 0 then
    (false, (l1.fetch_add (-READER)).2)
  else
    (true, l1)

/-- The member `try_unlock_upgrade_and_lock()`: compare-and-swap of the word
from `UPGRADED` to `WRITER`. -/
def try_unlock_upgrade_and_lock (l : RWSpinLock) : Bool × RWSpinLock :=
  l.compare_exchange_strong UPGRADED WRITER

/-- The member `try_lock_upgrade()`: OR the `UPGRADED` bit in; the result says
whether the old value had neither the `UPGRADED` nor the `WRITER` bit. -/
def try_lock_upgrade (l : RWSpinLock) : Bool × RWSpinLock :=
  let (value, l1) := l.fetch_or UPGRADED
  (decide (Int.land value (Int.lor UPGRADED WRITER) = 0), l1)

/-- The member `bits()`. -/
def bits (l : RWSpinLock) : Int := l.bits_

/-! ### The three bit-fields of the word -/

/-- The writer bit of the word (bit 0). -/
def writerBit (l : RWSpinLock) : Bool := decide (Int.land l.bits_ WRITER ≠ 0)

/-- The upgraded bit of the word (bit 1). -/
def upgradedBit (l : RWSpinLock) : Bool := decide (Int.land l.bits_ UPGRADED ≠ 0)

/-- The reader field of the word: the bits above the two flag bits, that is
the word divided by `READER`, rounding down. -/
def readerCount (l : RWSpinLock) : Int := l.bits_ / READER

end RWSpinLock
end folly


/-! ## The guard structs of `trade::concurrent` (src/concurrent.h, lines 445-537) -/

namespace trade
namespace concurrent

open folly

/-- The struct `Locker`: it holds a reference to the lock and nothing else. -/
structure Locker where
  deriving DecidableEq

/-- The constructor `Locker(l)`: `locker.lock()`. -/
def Locker.ctor (l : RWSpinLock) : Locker × RWSpinLock := (⟨⟩, l.lock)

/-- The destructor `~Locker()`: `locker.unlock()`. -/
def Locker.dtor (_g : Locker) (l : RWSpinLock) : RWSpinLock := l.unlock

/-- The struct `TryLocker`: a reference to the lock and the flag `success`. -/
structure TryLocker where
  success : Bool
  deriving DecidableEq

/-- The constructor `TryLocker(l)`: `success = locker.try_lock()`. -/
def TryLocker.ctor (l : RWSpinLock) : TryLocker × RWSpinLock :=
  let (ok, l1) := l.try_lock
  (⟨ok⟩, l1)

/-- The member `Success()`. -/
def TryLocker.Success (g : TryLocker) : Bool := g.success

/-- The destructor `~TryLocker()`: `if (success) locker.unlock()`. -/
def TryLocker.dtor (g : TryLocker) (l : RWSpinLock) : RWSpinLock :=
  if g.success then l.unlock else l

end concurrent
end trade

/-! ## Callers of one lock

The operations of one lock run one after the other, each to completion, by
any number of callers.  Beside the lock word the state counts the callers
that hold each mode: a caller holds a mode from the return of the operation
that gives it (a `try_` form that returned `true`, or a blocking form that
returned) to its call of the operation that releases or converts it. -/

namespace folly
namespace RWSpinLock

/-- The member functions of the lock that a caller can run to completion
in one step. -/
inductive Op
  | lock
  | unlock
  | unlock_shared
  | unlock_and_lock_shared
  | unlock_upgrade
  | unlock_upgrade_and_lock_shared
  | unlock_and_lock_upgrade
  | try_lock
  | try_lock_shared
  | try_unlock_upgrade_and_lock
  | try_lock_upgrade
  deriving DecidableEq

/-- The operations that are, or that call, a member function whose body is a
comment in the source: `lock()`, `unlock()`, and `unlock_and_lock_shared()`,
which ends with a call of `unlock()`. -/
def Op.callsEmptyBody : Op → Bool
  | .lock => true
  | .unlock => true
  | .unlock_and_lock_shared => true
  | _ => false

/-- The lock word together with the number of callers holding each mode. -/
structure Holders where
  word : RWSpinLock
  readers : Nat
  upgraders : Nat
  writers : Nat
  deriving DecidableEq

/-- A fresh lock that nobody holds. -/
def Holders.init : Holders := ⟨fresh, 0, 0, 0⟩

/-- One completed operation.  The word changes as the member function says;
the counts follow who holds what.  A release or a conversion by a caller that
does not hold the matching mode is not a step (`none`). -/
def Holders.step (s : Holders) : Op → Option Holders
  | .lock => some { s with word := s.word.lock, writers := s.writers + 1 }
  | .unlock =>
    if 0 < s.writers then
      some { s with word := s.word.unlock, writers := s.writers - 1 }
    else none
  | .unlock_shared =>
    if 0 < s.readers then
      some { s with word := s.word.unlock_shared, readers := s.readers - 1 }
    else none
  | .unlock_and_lock_shared =>
    if 0 < s.writers then
      some { s with word := s.word.unlock_and_lock_shared
                    writers := s.writers - 1, readers := s.readers + 1 }
    else none
  | .unlock_upgrade =>
    if 0 < s.upgraders then
      some { s with word := s.word.unlock_upgrade, upgraders := s.upgraders - 1 }
    else none
  | .unlock_upgrade_and_lock_shared =>
    if 0 < s.upgraders then
      some { s with word := s.word.unlock_upgrade_and_lock_shared
                    upgraders := s.upgraders - 1, readers := s.readers + 1 }
    else none
  | .unlock_and_lock_upgrade =>
    if 0 < s.writers then
      some { s with word := s.word.unlock_and_lock_upgrade
                    writers := s.writers - 1, upgraders := s.upgraders + 1 }
    else none
  | .try_lock =>
    let res := s.word.try_lock
    some { s with word := res.2
                  writers := if res.1 then s.writers + 1 else s.writers }
  | .try_lock_shared =>
    let res := s.word.try_lock_shared
    some { s with word := res.2
                  readers := if res.1 then s.readers + 1 else s.readers }
  | .try_unlock_upgrade_and_lock =>
    if 0 < s.upgraders then
      let res := s.word.try_unlock_upgrade_and_lock
      some { s with word := res.2
                    upgraders := if res.1 then s.upgraders - 1 else s.upgraders
                    writers := if res.1 then s.writers + 1 else s.writers }
    else none
  | .try_lock_upgrade =>
    let res := s.word.try_lock_upgrade
    some { s with word := res.2
                  upgraders := if res.1 then s.upgraders + 1 else s.upgraders }

/-- A sequence of completed operations, first to last. -/
def Holders.run (s : Holders) : List Op → Option Holders
  | [] => some s
  | op :: ops => (s.step op).bind fun s1 => s1.run ops

/-- The relation between the word and the holders that every completed
operation with a body keeps, `n` bounding the number of shared holders: the
word is `4 * readers + 2 * u + writers` with `u` the upgraded bit; there is at
most one writer and one upgrader; an upgrader has the upgraded bit; a writer
excludes readers and an upgrader; the upgraded bit is set only while somebody
holds the upgrade or the write mode. -/
def Holders.Inv (s : Holders) (n : Nat) : Prop :=
  ∃ u : Int, (u = 0 ∨ u = 1) ∧
    s.word.bits_ = 4 * (s.readers : Int) + 2 * u + (s.writers : Int) ∧
    s.writers ≤ 1 ∧ s.upgraders ≤ 1 ∧ (s.upgraders = 1 → u = 1) ∧
    (s.writers = 1 → s.readers = 0 ∧ s.upgraders = 0) ∧
    (u = 1 → s.upgraders = 1 ∨ s.writers = 1) ∧ s.readers ≤ n

end RWSpinLock
end folly

/-! ## The ring buffers of `trade::container` (src/container.h) -/

namespace trade
namespace container

/-- The class template `SPSCRingBuffer<T, N>`: the storage array `buffer`
(indexed by a `long`), and the cursors `head` and `tail`.  The member `mask`
is the constant `N - 1` and is given by `SPSCRingBuffer.mask`. -/
structure SPSCRingBuffer (T : Type) (N : Int) where
  buffer : Int → T
  head : Int
  tail : Int

namespace SPSCRingBuffer

variable {T : Type} {N : Int}

/-- The data member `long mask = N - 1`. -/
def mask (_r : SPSCRingBuffer T N) : Int := N - 1

/-- A freshly constructed ring: `head = 0`, `tail = 0`; `init` is what the
storage array holds after construction. -/
def fresh (init : Int → T) : SPSCRingBuffer T N := ⟨init, 0, 0⟩

/-- The member `Enqueue(t)`: `buffer[head & mask] = t; head++`. -/
def Enqueue (r : SPSCRingBuffer T N) (t : T) : SPSCRingBuffer T N :=
  { r with buffer := Function.update r.buffer (Int.land r.head r.mask) t
           head := r.head + 1 }

/-- The member `GetLatestEntryIndex()`: `head - 1`. -/
def GetLatestEntryIndex (r : SPSCRingBuffer T N) : Int := r.head - 1

/-- The indexed read `operator[](i)`: `buffer[i & mask]`. -/
def get (r : SPSCRingBuffer T N) (i : Int) : T := r.buffer (Int.land i r.mask)

/-- The member `GetLatestEntryToRead()`. -/
def GetLatestEntryToRead (r : SPSCRingBuffer T N) : T := r.get r.GetLatestEntryIndex

/-- The loop of the cursor form `Dequeue(cursor, action)`, run for at most
`fuel` evaluations of the loop condition: while `cursor < head`, take
`buffer[cursor & mask]`, advance the cursor and pass the record to the
callback.  The result is the final cursor and the records passed, in order;
`none` when the fuel ends before the loop does. -/
def DequeueFromLoop (r : SPSCRingBuffer T N) : Nat → Int → Option (Int × List T)
  | 0, _ => none
  | fuel + 1, cursor =>
    if cursor < r.head then
      let t := r.buffer (Int.land cursor r.mask)
      (DequeueFromLoop r fuel (cursor + 1)).map fun res => (res.1, t :: res.2)
    else
      some (cursor, [])

/-- The cursor form `Dequeue(cursor, action)`: the loop makes `head - cursor`
passes (none when the cursor is not behind the head), so that many steps and
one more for the last test are allowed. -/
def DequeueFrom (r : SPSCRingBuffer T N) (cursor : Int) : Option (Int × List T) :=
  DequeueFromLoop r ((r.head - cursor).toNat + 1) cursor

/-- The member `Size()`: `head - tail`, returned as an `int`. -/
def Size (r : SPSCRingBuffer T N) : Int := wrap32 (r.head - r.tail)

/-- The member `Clear()`: `head = 0; tail = 0`. -/
def Clear (r : SPSCRingBuffer T N) : SPSCRingBuffer T N :=
  { r with head := 0, tail := 0 }

end SPSCRingBuffer

/-- The class template `MPSCRingBuffer<T, N>`: the storage array `buffer`, the
cursors `head` and `tail`, and the per-slot flag `buffer_status[i].seq`. -/
structure MPSCRingBuffer (T : Type) (N : Int) where
  buffer : Int → T
  head : Int
  tail : Int
  buffer_status : Int → Bool

namespace MPSCRingBuffer

variable {T : Type} {N : Int}

/-- The data member `long mask = N - 1`. -/
def mask (_r : MPSCRingBuffer T N) : Int := N - 1

/-- A freshly constructed ring: `head(0)`, `tail = 0`, every `seq = false`;
`init` is what the storage array holds after construction. -/
def fresh (init : Int → T) : MPSCRingBuffer T N := ⟨init, 0, 0, fun _ => false⟩

/-- The member `Enqueue(t)`: `pos = head++ & mask; buffer[pos] = t;
buffer_status[pos].seq = true`. -/
def Enqueue (r : MPSCRingBuffer T N) (t : T) : MPSCRingBuffer T N :=
  let pos := Int.land r.head r.mask
  { r with head := r.head + 1
           buffer := Function.update r.buffer pos t
           buffer_status := Function.update r.buffer_status pos true }

/-- The loop of the stateful `Dequeue(action)`, run for at most `fuel`
evaluations of the loop condition: with `pos = tail & mask`, while
`buffer_status[pos].seq` holds take `buffer[pos]`, clear the flag when
`head - (tail++) < N`, and pass the record to the callback.  The result is the
final ring and the records passed, in order; `none` when the fuel ends before
the loop does. -/
def DequeueLoop : Nat → MPSCRingBuffer T N → Option (MPSCRingBuffer T N × List T)
  | 0, _ => none
  | fuel + 1, r =>
    let pos := Int.land r.tail r.mask
    if r.buffer_status pos = true then
      let t := r.buffer pos
      let r1 : MPSCRingBuffer T N :=
        if r.head - r.tail < N then
          { r with tail := r.tail + 1
                   buffer_status := Function.update r.buffer_status pos false }
        else
          { r with tail := r.tail + 1 }
      (DequeueLoop fuel r1).map fun res => (res.1, t :: res.2)
    else
      some (r, [])

/-- The stateful `Dequeue(action)`.  A pass that does not clear a flag lowers
`head - tail`, which is at least `N` then, and a pass that clears one lowers
the number of set flags, of which there are at most `N`: the loop is given
that many steps and one more for the last test. -/
def Dequeue (r : MPSCRingBuffer T N) : Option (MPSCRingBuffer T N × List T) :=
  DequeueLoop ((r.head - r.tail - N + 1).toNat + N.toNat + 1) r

/-- The member `Size()`: `head - tail`, returned as an `int`. -/
def Size (r : MPSCRingBuffer T N) : Int := wrap32 (r.head - r.tail)

/-- The member `Clear()`: `head = 0; tail = 0`. -/
def Clear (r : MPSCRingBuffer T N) : MPSCRingBuffer T N :=
  { r with head := 0, tail := 0 }

end MPSCRingBuffer

end container
end trade

/-! ## The other members and the other containers of `trade::container`

A callback that may write the record it is handed (`Emplace`, and the drains
whose name ends in `With`) is a function from the record to the record it
leaves in the slot. -/

namespace trade
namespace container

open folly trade.concurrent

namespace SPSCRingBuffer

variable {T : Type} {N : Int}

/-- The member `Emplace(action)`: `action(buffer[head & mask]); head++`. -/
def Emplace (r : SPSCRingBuffer T N) (action : T → T) : SPSCRingBuffer T N :=
  let pos := Int.land r.head r.mask
  { r with buffer := Function.update r.buffer pos (action (r.buffer pos))
           head := r.head + 1 }

/-- The loop of the stateful `Dequeue(action)`, run for at most `fuel`
evaluations of the loop condition: while `tail < head`, take
`buffer[tail & mask]`, advance the tail and pass the record to the callback. -/
def DequeueLoop : Nat → SPSCRingBuffer T N → Option (SPSCRingBuffer T N × List T)
  | 0, _ => none
  | fuel + 1, r =>
    if r.tail < r.head then
      let t := r.buffer (Int.land r.tail r.mask)
      (DequeueLoop fuel { r with tail := r.tail + 1 }).map fun res => (res.1, t :: res.2)
    else
      some (r, [])

/-- The stateful `Dequeue(action)`: the loop makes `head - tail` passes, so
that many steps and one more for the last test are allowed. -/
def Dequeue (r : SPSCRingBuffer T N) : Option (SPSCRingBuffer T N × List T) :=
  DequeueLoop ((r.head - r.tail).toNat + 1) r

/-- The loop of the cursor form `Dequeue(cursor, action)` with a callback that
may write the record: the result is the ring after the call, the final cursor
and the records passed. -/
def DequeueFromWithLoop (action : T → T) :
    Nat → SPSCRingBuffer T N → Int → Option (SPSCRingBuffer T N × Int × List T)
  | 0, _, _ => none
  | fuel + 1, r, cursor =>
    if cursor < r.head then
      let pos := Int.land cursor r.mask
      let t := r.buffer pos
      (DequeueFromWithLoop action fuel
          { r with buffer := Function.update r.buffer pos (action t) } (cursor + 1)).map
        fun res => (res.1, res.2.1, t :: res.2.2)
    else
      some (r, cursor, [])

/-- The cursor form `Dequeue(cursor, action)` with a callback that may write
the record. -/
def DequeueFromWith (action : T → T) (r : SPSCRingBuffer T N) (cursor : Int) :
    Option (SPSCRingBuffer T N × Int × List T) :=
  DequeueFromWithLoop action ((r.head - cursor).toNat + 1) r cursor

/-- The member `Capacity()`. -/
def Capacity (_r : SPSCRingBuffer T N) : Int := N

end SPSCRingBuffer

/-- The class template `SyncRingBuffer<T, N>`: the storage array, the cursors
and the two locks `headlocker` and `taillocker`. -/
structure SyncRingBuffer (T : Type) (N : Int) where
  buffer : Int → T
  head : Int
  tail : Int
  headlocker : RWSpinLock
  taillocker : RWSpinLock

namespace SyncRingBuffer

variable {T : Type} {N : Int}

/-- The data member `long mask = N - 1`. -/
def mask (_r : SyncRingBuffer T N) : Int := N - 1

/-- A freshly constructed ring: `head = 0`, `tail = 0`, two fresh locks. -/
def fresh (init : Int → T) : SyncRingBuffer T N :=
  ⟨init, 0, 0, RWSpinLock.fresh, RWSpinLock.fresh⟩

/-- The member `Enqueue(t)`: under `Locker lk(headlocker)`,
`buffer[head & mask] = t; head++`. -/
def Enqueue (r : SyncRingBuffer T N) (t : T) : SyncRingBuffer T N :=
  let (lk, hl) := Locker.ctor r.headlocker
  let r1 : SyncRingBuffer T N :=
    { r with headlocker := hl
             buffer := Function.update r.buffer (Int.land r.head r.mask) t
             head := r.head + 1 }
  { r1 with headlocker := lk.dtor r1.headlocker }

/-- The member `Emplace(action)`: under `Locker lk(headlocker)`,
`action(buffer[head & mask]); head++`. -/
def Emplace (r : SyncRingBuffer T N) (action : T → T) : SyncRingBuffer T N :=
  let (lk, hl) := Locker.ctor r.headlocker
  let pos := Int.land r.head r.mask
  let r1 : SyncRingBuffer T N :=
    { r with headlocker := hl
             buffer := Function.update r.buffer pos (action (r.buffer pos))
             head := r.head + 1 }
  { r1 with headlocker := lk.dtor r1.headlocker }

/-- The member `GetLatestEntryIndex()`: `head - 1`. -/
def GetLatestEntryIndex (r : SyncRingBuffer T N) : Int := r.head - 1

/-- The member `GetEndIndex()`: `head`. -/
def GetEndIndex (r : SyncRingBuffer T N) : Int := r.head

/-- The indexed read `operator[](i)`: `buffer[i & mask]`. -/
def get (r : SyncRingBuffer T N) (i : Int) : T := r.buffer (Int.land i r.mask)

/-- The member `GetLatestEntryToRead()`. -/
def GetLatestEntryToRead (r : SyncRingBuffer T N) : T := r.get r.GetLatestEntryIndex

/-- The loop of the stateful `Dequeue(action)`: each pass tests `tail < head`
and advances the tail under `Locker lk(taillocker)`, whose destructor runs
before the callback and also when the loop is left. -/
def DequeueLoop : Nat → SyncRingBuffer T N → Option (SyncRingBuffer T N × List T)
  | 0, _ => none
  | fuel + 1, r =>
    let (lk, tl) := Locker.ctor r.taillocker
    let r1 : SyncRingBuffer T N := { r with taillocker := tl }
    if r1.tail < r1.head then
      let t := r1.buffer (Int.land r1.tail r1.mask)
      let r2 : SyncRingBuffer T N := { r1 with tail := r1.tail + 1 }
      let r3 : SyncRingBuffer T N := { r2 with taillocker := lk.dtor r2.taillocker }
      (DequeueLoop fuel r3).map fun res => (res.1, t :: res.2)
    else
      some ({ r1 with taillocker := lk.dtor r1.taillocker }, [])

/-- The stateful `Dequeue(action)`. -/
def Dequeue (r : SyncRingBuffer T N) : Option (SyncRingBuffer T N × List T) :=
  DequeueLoop ((r.head - r.tail).toNat + 1) r

/-- The loop of `Dequeue0(action)`: the stateful drain without the lock. -/
def Dequeue0Loop : Nat → SyncRingBuffer T N → Option (SyncRingBuffer T N × List T)
  | 0, _ => none
  | fuel + 1, r =>
    if r.tail < r.head then
      let t := r.buffer (Int.land r.tail r.mask)
      (Dequeue0Loop fuel { r with tail := r.tail + 1 }).map fun res => (res.1, t :: res.2)
    else
      some (r, [])

/-- The member `Dequeue0(action)`. -/
def Dequeue0 (r : SyncRingBuffer T N) : Option (SyncRingBuffer T N × List T) :=
  Dequeue0Loop ((r.head - r.tail).toNat + 1) r

/-- The loop of the cursor form `Dequeue(cursor, action)`. -/
def DequeueFromLoop (r : SyncRingBuffer T N) : Nat → Int → Option (Int × List T)
  | 0, _ => none
  | fuel + 1, cursor =>
    if cursor < r.head then
      let t := r.buffer (Int.land cursor r.mask)
      (DequeueFromLoop r fuel (cursor + 1)).map fun res => (res.1, t :: res.2)
    else
      some (cursor, [])

/-- The cursor form `Dequeue(cursor, action)`. -/
def DequeueFrom (r : SyncRingBuffer T N) (cursor : Int) : Option (Int × List T) :=
  DequeueFromLoop r ((r.head - cursor).toNat + 1) cursor

/-- The loop of the cursor form with a callback that may write the record. -/
def DequeueFromWithLoop (action : T → T) :
    Nat → SyncRingBuffer T N → Int → Option (SyncRingBuffer T N × Int × List T)
  | 0, _, _ => none
  | fuel + 1, r, cursor =>
    if cursor < r.head then
      let pos := Int.land cursor r.mask
      let t := r.buffer pos
      (DequeueFromWithLoop action fuel
          { r with buffer := Function.update r.buffer pos (action t) } (cursor + 1)).map
        fun res => (res.1, res.2.1, t :: res.2.2)
    else
      some (r, cursor, [])

/-- The cursor form `Dequeue(cursor, action)` with a callback that may write
the record. -/
def DequeueFromWith (action : T → T) (r : SyncRingBuffer T N) (cursor : Int) :
    Option (SyncRingBuffer T N × Int × List T) :=
  DequeueFromWithLoop action ((r.head - cursor).toNat + 1) r cursor

/-- The member `Size()`: `head - tail`, returned as an `int`. -/
def Size (r : SyncRingBuffer T N) : Int := wrap32 (r.head - r.tail)

/-- The member `Clear()`: `head = 0; tail = 0`. -/
def Clear (r : SyncRingBuffer T N) : SyncRingBuffer T N :=
  { r with head := 0, tail := 0 }

/-- The member `Capacity()`. -/
def Capacity (_r : SyncRingBuffer T N) : Int := N

end SyncRingBuffer

/-- The class template `CircularArray<T, N>`: the storage array, the cursors
and the two locks `headlocker` and `taillocker`. -/
structure CircularArray (T : Type) (N : Int) where
  buffer : Int → T
  head : Int
  tail : Int
  headlocker : RWSpinLock
  taillocker : RWSpinLock

namespace CircularArray

variable {T : Type} {N : Int}

/-- The data member `long mask = N - 1`. -/
def mask (_r : CircularArray T N) : Int := N - 1

/-- A freshly constructed ring: `head = 0`, `tail = 0`, two fresh locks. -/
def fresh (init : Int → T) : CircularArray T N :=
  ⟨init, 0, 0, RWSpinLock.fresh, RWSpinLock.fresh⟩

/-- The member `Enqueue(t)`: under `Locker lk(headlocker)`,
`buffer[head & mask] = t; head++`. -/
def Enqueue (r : CircularArray T N) (t : T) : CircularArray T N :=
  let (lk, hl) := Locker.ctor r.headlocker
  let r1 : CircularArray T N :=
    { r with headlocker := hl
             buffer := Function.update r.buffer (Int.land r.head r.mask) t
             head := r.head + 1 }
  { r1 with headlocker := lk.dtor r1.headlocker }

/-- The member `Emplace(action)`: under `Locker lk(headlocker)`,
`action(buffer[head & mask]); head++`. -/
def Emplace (r : CircularArray T N) (action : T → T) : CircularArray T N :=
  let (lk, hl) := Locker.ctor r.headlocker
  let pos := Int.land r.head r.mask
  let r1 : CircularArray T N :=
    { r with headlocker := hl
             buffer := Function.update r.buffer pos (action (r.buffer pos))
             head := r.head + 1 }
  { r1 with headlocker := lk.dtor r1.headlocker }

/-- The member `GetLatestEntryIndex()`: `head - 1`. -/
def GetLatestEntryIndex (r : CircularArray T N) : Int := r.head - 1

/-- The indexed read `operator[](i)`: `buffer[i & mask]`. -/
def get (r : CircularArray T N) (i : Int) : T := r.buffer (Int.land i r.mask)

/-- The member `GetLatestEntryToRead()`. -/
def GetLatestEntryToRead (r : CircularArray T N) : T := r.get r.GetLatestEntryIndex

/-- The loop of the stateful `Dequeue(action)`: each pass tests `tail < head`
and advances the tail under `Locker lk(taillocker)`, whose destructor runs
before the callback and also when the loop is left. -/
def DequeueLoop : Nat → CircularArray T N → Option (CircularArray T N × List T)
  | 0, _ => none
  | fuel + 1, r =>
    let (lk, tl) := Locker.ctor r.taillocker
    let r1 : CircularArray T N := { r with taillocker := tl }
    if r1.tail < r1.head then
      let t := r1.buffer (Int.land r1.tail r1.mask)
      let r2 : CircularArray T N := { r1 with tail := r1.tail + 1 }
      let r3 : CircularArray T N := { r2 with taillocker := lk.dtor r2.taillocker }
      (DequeueLoop fuel r3).map fun res => (res.1, t :: res.2)
    else
      some ({ r1 with taillocker := lk.dtor r1.taillocker }, [])

/-- The stateful `Dequeue(action)`. -/
def Dequeue (r : CircularArray T N) : Option (CircularArray T N × List T) :=
  DequeueLoop ((r.head - r.tail).toNat + 1) r

/-- The loop of `Dequeue0(action)`: the stateful drain without the lock. -/
def Dequeue0Loop : Nat → CircularArray T N → Option (CircularArray T N × List T)
  | 0, _ => none
  | fuel + 1, r =>
    if r.tail < r.head then
      let t := r.buffer (Int.land r.tail r.mask)
      (Dequeue0Loop fuel { r with tail := r.tail + 1 }).map fun res => (res.1, t :: res.2)
    else
      some (r, [])

/-- The member `Dequeue0(action)`. -/
def Dequeue0 (r : CircularArray T N) : Option (CircularArray T N × List T) :=
  Dequeue0Loop ((r.head - r.tail).toNat + 1) r

/-- The loop of the cursor form `Dequeue(cursor, action)`. -/
def DequeueFromLoop (r : CircularArray T N) : Nat → Int → Option (Int × List T)
  | 0, _ => none
  | fuel + 1, cursor =>
    if cursor < r.head then
      let t := r.buffer (Int.land cursor r.mask)
      (DequeueFromLoop r fuel (cursor + 1)).map fun res => (res.1, t :: res.2)
    else
      some (cursor, [])

/-- The cursor form `Dequeue(cursor, action)`. -/
def DequeueFrom (r : CircularArray T N) (cursor : Int) : Option (Int × List T) :=
  DequeueFromLoop r ((r.head - cursor).toNat + 1) cursor

/-- The loop of the cursor form with a callback that may write the record. -/
def DequeueFromWithLoop (action : T → T) :
    Nat → CircularArray T N → Int → Option (CircularArray T N × Int × List T)
  | 0, _, _ => none
  | fuel + 1, r, cursor =>
    if cursor < r.head then
      let pos := Int.land cursor r.mask
      let t := r.buffer pos
      (DequeueFromWithLoop action fuel
          { r with buffer := Function.update r.buffer pos (action t) } (cursor + 1)).map
        fun res => (res.1, res.2.1, t :: res.2.2)
    else
      some (r, cursor, [])

/-- The cursor form `Dequeue(cursor, action)` with a callback that may write
the record. -/
def DequeueFromWith (action : T → T) (r : CircularArray T N) (cursor : Int) :
    Option (CircularArray T N × Int × List T) :=
  DequeueFromWithLoop action ((r.head - cursor).toNat + 1) r cursor

/-- The member `Size()`: `head - tail`, returned as an `int`. -/
def Size (r : CircularArray T N) : Int := wrap32 (r.head - r.tail)

/-- The member `Clear()`: `head = 0; tail = 0`. -/
def Clear (r : CircularArray T N) : CircularArray T N :=
  { r with head := 0, tail := 0 }

/-- The member `Capacity()`. -/
def Capacity (_r : CircularArray T N) : Int := N

end CircularArray

namespace MPSCRingBuffer

variable {T : Type} {N : Int}

/-- The member `Emplace(action)`: `pos = head++ & mask; action(buffer[pos]);
buffer_status[pos].seq = true`. -/
def Emplace (r : MPSCRingBuffer T N) (action : T → T) : MPSCRingBuffer T N :=
  let pos := Int.land r.head r.mask
  { r with head := r.head + 1
           buffer := Function.update r.buffer pos (action (r.buffer pos))
           buffer_status := Function.update r.buffer_status pos true }

/-- The member `GetLatestEntryIndex()`: `head - 1`. -/
def GetLatestEntryIndex (r : MPSCRingBuffer T N) : Int := r.head - 1

/-- The indexed read `operator[](i)`: `buffer[i & mask]`. -/
def get (r : MPSCRingBuffer T N) (i : Int) : T := r.buffer (Int.land i r.mask)

/-- The member `GetLatestEntryToRead()`. -/
def GetLatestEntryToRead (r : MPSCRingBuffer T N) : T := r.get r.GetLatestEntryIndex

/-- The member `Capacity()`. -/
def Capacity (_r : MPSCRingBuffer T N) : Int := N

end MPSCRingBuffer

/-- The class template `MPMCRingBuffer<T, N>`: the storage array `buffer`, the
cursors `head` and `tail`, and the per-slot sequence number
`buffer_status[i].seq`.  The member `shift`, which the constructor sets and
nothing reads, is left out. -/
structure MPMCRingBuffer (T : Type) (N : Int) where
  buffer : Int → T
  head : Int
  tail : Int
  buffer_status : Int → Int

namespace MPMCRingBuffer

variable {T : Type} {N : Int}

/-- The data member `long mask = N - 1`. -/
def mask (_r : MPMCRingBuffer T N) : Int := N - 1

/-- The loop `for (int i = 0; i < N; i++) buffer_status[i].seq = i` of the
constructor and of `Clear()`. -/
def resetSeq (N : Int) (seq : Int → Int) : Int → Int :=
  (List.range N.toNat).foldl
    (fun (s : Int → Int) (i : Nat) => Function.update s (i : Int) (i : Int)) seq

/-- A freshly constructed ring: `head(0)`, `tail = 0`, every `seq` is `0` by
its member initialiser and is then set to the index of its slot. -/
def fresh (init : Int → T) : MPMCRingBuffer T N :=
  ⟨init, 0, 0, resetSeq N (fun _ => 0)⟩

/-- The member `Enqueue(t)`: `current_head = head++; pos = current_head & mask;
buffer[pos] = t; buffer_status[pos].seq = current_head + N`. -/
def Enqueue (r : MPMCRingBuffer T N) (t : T) : MPMCRingBuffer T N :=
  let current_head := r.head
  let pos := Int.land current_head r.mask
  { r with head := r.head + 1
           buffer := Function.update r.buffer pos t
           buffer_status := Function.update r.buffer_status pos (current_head + N) }

/-- The member `Emplace(action)`: as `Enqueue`, with `action(buffer[pos])` for
the assignment. -/
def Emplace (r : MPMCRingBuffer T N) (action : T → T) : MPMCRingBuffer T N :=
  let current_head := r.head
  let pos := Int.land current_head r.mask
  { r with head := r.head + 1
           buffer := Function.update r.buffer pos (action (r.buffer pos))
           buffer_status := Function.update r.buffer_status pos (current_head + N) }

/-- The member `GetLatestEntryIndex()`: `head - 1`. -/
def GetLatestEntryIndex (r : MPMCRingBuffer T N) : Int := r.head - 1

/-- The indexed read `operator[](i)`: `buffer[i & mask]`. -/
def get (r : MPMCRingBuffer T N) (i : Int) : T := r.buffer (Int.land i r.mask)

/-- The member `GetLatestEntryToRead()`. -/
def GetLatestEntryToRead (r : MPMCRingBuffer T N) : T := r.get r.GetLatestEntryIndex

/-- The largest sequence number of the `N` slots (and at least `0`). -/
def maxSeq (r : MPMCRingBuffer T N) : Int :=
  ((List.range N.toNat).map fun (i : Nat) => r.buffer_status (i : Int)).foldl max 0

/-- The loop of `Dequeue0(action)`, run for at most `fuel` evaluations of the
loop condition: with `pos = tail & mask`, while `tail < buffer_status[pos].seq`
take `buffer[pos]`, advance the tail and pass the record to the callback. -/
def Dequeue0Loop : Nat → MPMCRingBuffer T N → Option (MPMCRingBuffer T N × List T)
  | 0, _ => none
  | fuel + 1, r =>
    let pos := Int.land r.tail r.mask
    if r.tail < r.buffer_status pos then
      let t := r.buffer pos
      (Dequeue0Loop fuel { r with tail := r.tail + 1 }).map fun res => (res.1, t :: res.2)
    else
      some (r, [])

/-- The member `Dequeue0(action)`.  The tail goes up by one per pass and a pass
needs a sequence number above the tail, so the loop is given `maxSeq - tail`
steps and one more for the last test. -/
def Dequeue0 (r : MPMCRingBuffer T N) : Option (MPMCRingBuffer T N × List T) :=
  Dequeue0Loop ((r.maxSeq - r.tail).toNat + 1) r

/-- The loop of the cursor form `Dequeue(cursor, action)`: with
`pos = cursor & mask`, while `cursor < buffer_status[pos].seq` take
`buffer[pos]`, advance the cursor and pass the record to the callback. -/
def DequeueFromLoop (r : MPMCRingBuffer T N) : Nat → Int → Option (Int × List T)
  | 0, _ => none
  | fuel + 1, cursor =>
    let pos := Int.land cursor r.mask
    if cursor < r.buffer_status pos then
      let t := r.buffer pos
      (DequeueFromLoop r fuel (cursor + 1)).map fun res => (res.1, t :: res.2)
    else
      some (cursor, [])

/-- The cursor form `Dequeue(cursor, action)`, with `maxSeq - cursor` steps
and one more for the last test. -/
def DequeueFrom (r : MPMCRingBuffer T N) (cursor : Int) : Option (Int × List T) :=
  DequeueFromLoop r ((r.maxSeq - cursor).toNat + 1) cursor

/-- The loop of the cursor form with a callback that may write the record. -/
def DequeueFromWithLoop (action : T → T) :
    Nat → MPMCRingBuffer T N → Int → Option (MPMCRingBuffer T N × Int × List T)
  | 0, _, _ => none
  | fuel + 1, r, cursor =>
    let pos := Int.land cursor r.mask
    if cursor < r.buffer_status pos then
      let t := r.buffer pos
      (DequeueFromWithLoop action fuel
          { r with buffer := Function.update r.buffer pos (action t) } (cursor + 1)).map
        fun res => (res.1, res.2.1, t :: res.2.2)
    else
      some (r, cursor, [])

/-- The cursor form `Dequeue(cursor, action)` with a callback that may write
the record. -/
def DequeueFromWith (action : T → T) (r : MPMCRingBuffer T N) (cursor : Int) :
    Option (MPMCRingBuffer T N × Int × List T) :=
  DequeueFromWithLoop action ((r.maxSeq - cursor).toNat + 1) r cursor

/-- The member `Size()`: `head - tail`, returned as an `int`. -/
def Size (r : MPMCRingBuffer T N) : Int := wrap32 (r.head - r.tail)

/-- The member `Clear()`: `head = 0; tail = 0`, and every `seq` is set to the
index of its slot. -/
def Clear (r : MPMCRingBuffer T N) : MPMCRingBuffer T N :=
  { r with head := 0, tail := 0, buffer_status := resetSeq N r.buffer_status }

/-- The member `Capacity()`. -/
def Capacity (_r : MPMCRingBuffer T N) : Int := N

end MPMCRingBuffer

/-- The class template `SyncList<T, N>`: the vector `buffer`, the record `t`
that a read at a negative index returns, and the lock. -/
structure SyncList (T : Type) (N : Int) where
  buffer : List T
  t : T
  locker : RWSpinLock

namespace SyncList

variable {T : Type} {N : Int}

/-- The member `Enqueue(t)`: under `Locker lk(locker)`, `buffer.push_back(t)`. -/
def Enqueue (r : SyncList T N) (t : T) : SyncList T N :=
  let (lk, l1) := Locker.ctor r.locker
  let r1 : SyncList T N := { r with locker := l1, buffer := r.buffer ++ [t] }
  { r1 with locker := lk.dtor r1.locker }

/-- The loop of the cursor form `Dequeue(cursor, action)` with a callback that
may write the record: while `cursor < buffer.size()`, a comparison of the
`long` cursor as an unsigned number, so that a negative cursor is not below
the size; take `buffer[cursor]`, advance the cursor and pass the record to
the callback. -/
def DequeueFromWithLoop (action : T → T) :
    Nat → SyncList T N → Int → Option (SyncList T N × Int × List T)
  | 0, _, _ => none
  | fuel + 1, r, cursor =>
    if 0 ≤ cursor ∧ cursor < (r.buffer.length : Int) then
      match r.buffer[cursor.toNat]? with
      | some t =>
        (DequeueFromWithLoop action fuel
            { r with buffer := r.buffer.set cursor.toNat (action t) } (cursor + 1)).map
          fun res => (res.1, res.2.1, t :: res.2.2)
      | none => none
    else
      some (r, cursor, [])

/-- The cursor form `Dequeue(cursor, action)` with a callback that may write
the record. -/
def DequeueFromWith (action : T → T) (r : SyncList T N) (cursor : Int) :
    Option (SyncList T N × Int × List T) :=
  DequeueFromWithLoop action (((r.buffer.length : Int) - cursor).toNat + 1) r cursor

/-- The member `Size()`: `buffer.size()`, returned as an `int`. -/
def Size (r : SyncList T N) : Int := wrap32 (r.buffer.length : Int)

end SyncList

end container
end trade

/-! ## Shared acquisitions of one lock -/

namespace folly
namespace RWSpinLock

/-- The loop of the member `lock_shared()`, run for at most `fuel` calls of
`try_lock_shared()`: it returns when a call succeeds.  The counter and the
call of `YieldProcessor()` do not touch the lock.  `none` when the fuel ends
before a call succeeds. -/
def lock_shared_loop : Nat → RWSpinLock → Option RWSpinLock
  | 0, _ => none
  | fuel + 1, l =>
    if (try_lock_shared l).1 = true then some (try_lock_shared l).2
    else lock_shared_loop fuel (try_lock_shared l).2

/-- The three operations of the shared mode. -/
inductive SharedOp
  | try_lock_shared
  | lock_shared
  | unlock_shared
  deriving DecidableEq

/-- The lock word and the number of shared acquisitions not yet released. -/
structure SharedHolders where
  word : RWSpinLock
  outstanding : Nat
  deriving DecidableEq

/-- A fresh lock with no shared acquisition. -/
def SharedHolders.init : SharedHolders := ⟨fresh, 0⟩

/-- One completed operation of the shared mode; `lock_shared()` may make
`fuel` attempts.  A `try_lock_shared()` counts when it returns true, a
`lock_shared()` that returns counts, and `unlock_shared()` is a step only when
it releases an acquisition that is still outstanding. -/
def SharedHolders.step (fuel : Nat) (s : SharedHolders) : SharedOp → Option SharedHolders
  | .try_lock_shared =>
    some ⟨(try_lock_shared s.word).2,
      if (try_lock_shared s.word).1 = true then s.outstanding + 1 else s.outstanding⟩
  | .lock_shared =>
    (lock_shared_loop fuel s.word).map fun l => ⟨l, s.outstanding + 1⟩
  | .unlock_shared =>
    if 0 < s.outstanding then some ⟨unlock_shared s.word, s.outstanding - 1⟩ else none

/-- A sequence of completed operations of the shared mode, first to last. -/
def SharedHolders.run (fuel : Nat) (s : SharedHolders) : List SharedOp → Option SharedHolders
  | [] => some s
  | op :: ops => (s.step fuel op).bind fun s1 => s1.run fuel ops

end RWSpinLock
end folly

/-! ## Sequential runs of a ring -/

namespace trade
namespace container

/-- A call in a sequential run of a ring: `Enqueue(v)` or the stateful drain. -/
inductive RingOp (T : Type)
  | enqueue (v : T)
  | drain

/-- The records that a run enqueues, in order: the record enqueued at
position `p` is the entry `p` of this list. -/
def enqueued {T : Type} : List (RingOp T) → List T
  | [] => []
  | RingOp.enqueue v :: ops => v :: enqueued ops
  | RingOp.drain :: ops => enqueued ops

/-- A ring seen through its `Enqueue` and its stateful drain. -/
structure RingCalls (R T : Type) where
  Enqueue : R → T → R
  Drain : R → Option (R × List T)

namespace RingCalls

variable {R T : Type}

/-- A sequential run, each call made after the one before has returned: the
ring at the end and the records passed to the callbacks of all the drains, in
order.  `none` when a drain does not return. -/
def run (I : RingCalls R T) : R → List (RingOp T) → Option (R × List T)
  | r, [] => some (r, [])
  | r, RingOp.enqueue v :: ops => I.run (I.Enqueue r v) ops
  | r, RingOp.drain :: ops =>
    (I.Drain r).bind fun res => (I.run res.1 ops).map fun fin => (fin.1, res.2 ++ fin.2)

/-- Whether `ok` holds of the ring each time the run enters the drain. -/
def drainsWhen (I : RingCalls R T) (ok : R → Bool) : R → List (RingOp T) → Bool
  | _, [] => true
  | r, RingOp.enqueue v :: ops => I.drainsWhen ok (I.Enqueue r v) ops
  | r, RingOp.drain :: ops =>
    ok r && match I.Drain r with
      | some res => I.drainsWhen ok res.1 ops
      | none => false

/-- Whether `ok` holds of the ring at the start of the run and after each of
its calls. -/
def alwaysWhen (I : RingCalls R T) (ok : R → Bool) : R → List (RingOp T) → Bool
  | r, [] => ok r
  | r, RingOp.enqueue v :: ops => ok r && I.alwaysWhen ok (I.Enqueue r v) ops
  | r, RingOp.drain :: ops =>
    ok r && match I.Drain r with
      | some res => I.alwaysWhen ok res.1 ops
      | none => false

end RingCalls

/-- The fields that `SyncRingBuffer` has in common with `SPSCRingBuffer`. -/
def SyncRingBuffer.toSPSC {T : Type} {N : Int} (r : SyncRingBuffer T N) :
    SPSCRingBuffer T N := ⟨r.buffer, r.head, r.tail⟩

/-- The fields that `CircularArray` has in common with `SPSCRingBuffer`. -/
def CircularArray.toSPSC {T : Type} {N : Int} (r : CircularArray T N) :
    SPSCRingBuffer T N := ⟨r.buffer, r.head, r.tail⟩

/-- `Enqueue` and the stateful `Dequeue` of the SPSC ring. -/
def SPSCRingBuffer.calls (T : Type) (N : Int) : RingCalls (SPSCRingBuffer T N) T :=
  ⟨SPSCRingBuffer.Enqueue, SPSCRingBuffer.Dequeue⟩

/-- `Enqueue` and the stateful `Dequeue` of `SyncRingBuffer`. -/
def SyncRingBuffer.calls (T : Type) (N : Int) : RingCalls (SyncRingBuffer T N) T :=
  ⟨SyncRingBuffer.Enqueue, SyncRingBuffer.Dequeue⟩

/-- `Enqueue` and the stateful `Dequeue` of `CircularArray`. -/
def CircularArray.calls (T : Type) (N : Int) : RingCalls (CircularArray T N) T :=
  ⟨CircularArray.Enqueue, CircularArray.Dequeue⟩

/-- `Enqueue` and the stateful `Dequeue` of the MPSC ring. -/
def MPSCRingBuffer.calls (T : Type) (N : Int) : RingCalls (MPSCRingBuffer T N) T :=
  ⟨MPSCRingBuffer.Enqueue, MPSCRingBuffer.Dequeue⟩

/-- `Enqueue` and the stateful `Dequeue0` of the MPMC ring. -/
def MPMCRingBuffer.calls (T : Type) (N : Int) : RingCalls (MPMCRingBuffer T N) T :=
  ⟨MPMCRingBuffer.Enqueue, MPMCRingBuffer.Dequeue0⟩

/-- What a run that has enqueued the records `h` keeps true of the SPSC ring:
the head is their number, the tail is between 0 and the head, and each of the
last `N` records is in the slot of its position. -/
def SPSCRingBuffer.Hist {T : Type} {N : Int} (r : SPSCRingBuffer T N) (h : List T) : Prop :=
  r.head = (h.length : Int) ∧ 0 ≤ r.tail ∧ r.tail ≤ r.head ∧
  ∀ n : Nat, n < h.length → (h.length : Int) ≤ (n : Int) + N →
    h[n]? = some (r.buffer ((n : Int) % N))

/-- What a run that has enqueued the records `h` keeps true of the MPMC ring:
the head is their number, the tail is between 0 and the head, each of the last
`N` records is in the slot of its position with the sequence number of that
position plus `N`, and a slot not yet written has its index as sequence
number. -/
def MPMCRingBuffer.Hist {T : Type} {N : Int} (r : MPMCRingBuffer T N) (h : List T) : Prop :=
  r.head = (h.length : Int) ∧ 0 ≤ r.tail ∧ r.tail ≤ r.head ∧
  (∀ n : Nat, n < h.length → (h.length : Int) ≤ (n : Int) + N →
    h[n]? = some (r.buffer ((n : Int) % N)) ∧
    r.buffer_status ((n : Int) % N) = (n : Int) + N) ∧
  (∀ j : Int, r.head ≤ j → j < N → r.buffer_status j = j)

/-- What a run that has enqueued the records `h`, and whose drains were all
entered with fewer than `N` records outstanding, keeps true of the MPSC ring:
the head is their number, the tail is between 0 and the head, each of the last
`N` records is in the slot of its position, and the slots whose ready flag is
set are the slots of the positions from the tail to the head. -/
def MPSCRingBuffer.Hist {T : Type} {N : Int} (r : MPSCRingBuffer T N) (h : List T) : Prop :=
  r.head = (h.length : Int) ∧ 0 ≤ r.tail ∧ r.tail ≤ r.head ∧
  (∀ n : Nat, n < h.length → (h.length : Int) ≤ (n : Int) + N →
    h[n]? = some (r.buffer ((n : Int) % N))) ∧
  (∀ j : Int, 0 ≤ j → j < N →
    (r.buffer_status j = true ↔ ∃ p : Int, r.tail ≤ p ∧ p < r.head ∧ p % N = j))

end container
end trade


/-! ## The capacity check of the bounded rings (src/container.h, lines 140, 290, 407, 518, 653) -/

namespace trade
namespace container

open folly trade.concurrent

/-- The condition of the `static_assert` of the five bounded rings,
`(N > 0) && ((N & (~N + 1)) == N)`, on the template argument `int N`.  The
complement `~N` is `Int.lnot N`, the sum `~N + 1` is an `int`, and the right
operand of `&&` counts only when the left one holds. -/
def static_assert_N (N : Int) : Bool :=
  decide (N > 0) && decide (Int.land N (wrap32 (Int.lnot N + 1)) = N)

/-! ## The remaining members of `SyncList` (src/container.h, lines 44-130) -/

namespace SyncList

variable {T : Type} {N : Int}

/-- The constructor `SyncList()`: an empty vector, the default-constructed
record `t0` in the member `t`, and a free lock. -/
def fresh (t0 : T) : SyncList T N := ⟨[], t0, RWSpinLock.fresh⟩

/-- The member `GetLatestEntryIndex()`: `buffer.size() - 1` as a `long`; for an
empty vector the unsigned difference converts to `-1`. -/
def GetLatestEntryIndex (r : SyncList T N) : Int := (r.buffer.length : Int) - 1

/-- The member `GetEndIndex()`: `buffer.size()`. -/
def GetEndIndex (r : SyncList T N) : Int := (r.buffer.length : Int)

/-- The indexed read `operator[](i)`: `i < 0 ? t : buffer[i]`.  The vector is
read only when `i` is not negative; `none` stands for a read past its end. -/
def get (r : SyncList T N) (i : Int) : Option T :=
  if i < 0 then some r.t else r.buffer[i.toNat]?

/-- The member `GetLatestEntryToRead()`. -/
def GetLatestEntryToRead (r : SyncList T N) : Option T := r.get r.GetLatestEntryIndex

/-- The cursor form `Dequeue(cursor, action)` with a callback that only looks
at the record: the cursor it returns and the records it passed on. -/
def DequeueFrom (r : SyncList T N) (cursor : Int) : Option (Int × List T) :=
  (DequeueFromWith (fun t => t) r cursor).map fun res => (res.2.1, res.2.2)

/-- The member `Clear()`: `buffer.clear()`. -/
def Clear (r : SyncList T N) : SyncList T N := { r with buffer := [] }

end SyncList

end container
end trade

/-! ## The guards `ReadHolder`, `UpgradedHolder`, `WriteHolder` (src/concurrent.h, lines 183-371) -/

namespace folly
namespace RWSpinLock

/-- The loop of the member `lock_upgrade()`, run for at most `fuel` calls of
`try_lock_upgrade()`: it returns when a call succeeds. -/
def lock_upgrade_loop : Nat → RWSpinLock → Option RWSpinLock
  | 0, _ => none
  | fuel + 1, l =>
    if (try_lock_upgrade l).1 = true then some (try_lock_upgrade l).2
    else lock_upgrade_loop fuel (try_lock_upgrade l).2

/-- The loop of the member `unlock_upgrade_and_lock()`, run for at most `fuel`
calls of `try_unlock_upgrade_and_lock()`: it returns when a call succeeds. -/
def unlock_upgrade_and_lock_loop : Nat → RWSpinLock → Option RWSpinLock
  | 0, _ => none
  | fuel + 1, l =>
    if (try_unlock_upgrade_and_lock l).1 = true then some (try_unlock_upgrade_and_lock l).2
    else unlock_upgrade_and_lock_loop fuel (try_unlock_upgrade_and_lock l).2

/-- The statement `if (lock_) lock_->f()`: the lock objects are kept by
address, a null pointer is `none`, and only the object at the address of a
pointer that is not null changes. -/
def call (lock_ : Option Nat) (f : RWSpinLock → RWSpinLock) (mem : Nat → RWSpinLock) :
    Nat → RWSpinLock :=
  match lock_ with
  | none => mem
  | some a => Function.update mem a (f (mem a))

/-- The statement `if (lock_) lock_->f()` for a member `f` that spins: `none`
when the fuel ends before `f` returns. -/
def callLoop (lock_ : Option Nat) (f : RWSpinLock → Option RWSpinLock)
    (mem : Nat → RWSpinLock) : Option (Nat → RWSpinLock) :=
  match lock_ with
  | none => some mem
  | some a => (f (mem a)).map fun l => Function.update mem a l

/-- The class `ReadHolder`: its only data member is `RWSpinLock* lock_`. -/
structure ReadHolder where
  lock_ : Option Nat
  deriving DecidableEq

/-- The class `UpgradedHolder`: its only data member is `RWSpinLock* lock_`. -/
structure UpgradedHolder where
  lock_ : Option Nat
  deriving DecidableEq

/-- The class `WriteHolder`: its only data member is `RWSpinLock* lock_`. -/
structure WriteHolder where
  lock_ : Option Nat
  deriving DecidableEq

/-- The constructor `ReadHolder(RWSpinLock* lock)`:
`lock_(lock)`, then `if (lock_) lock_->lock_shared()`. -/
def ReadHolder.ctor (fuel : Nat) (lock : Option Nat) (mem : Nat → RWSpinLock) :
    Option (ReadHolder × (Nat → RWSpinLock)) :=
  (callLoop lock (lock_shared_loop fuel) mem).map fun m => (⟨lock⟩, m)

/-- The constructor `ReadHolder(UpgradedHolder&& upgraded)`:
`lock_(upgraded.lock_)`, then `upgraded.lock_ = nullptr` and
`if (lock_) lock_->unlock_upgrade_and_lock_shared()`.  The result is the new
guard, the source guard and the memory. -/
def ReadHolder.ctorUpgraded (upgraded : UpgradedHolder) (mem : Nat → RWSpinLock) :
    ReadHolder × UpgradedHolder × (Nat → RWSpinLock) :=
  let g : ReadHolder := ⟨upgraded.lock_⟩
  let upgraded1 : UpgradedHolder := { upgraded with lock_ := none }
  (g, upgraded1, call g.lock_ unlock_upgrade_and_lock_shared mem)

/-- The constructor `ReadHolder(WriteHolder&& writer)`: `lock_(writer.lock_)`,
then `writer.lock_ = nullptr` and `if (lock_) lock_->unlock_and_lock_shared()`. -/
def ReadHolder.ctorWriter (writer : WriteHolder) (mem : Nat → RWSpinLock) :
    ReadHolder × WriteHolder × (Nat → RWSpinLock) :=
  let g : ReadHolder := ⟨writer.lock_⟩
  let writer1 : WriteHolder := { writer with lock_ := none }
  (g, writer1, call g.lock_ unlock_and_lock_shared mem)

/-- The destructor `~ReadHolder()`: `if (lock_) lock_->unlock_shared()`. -/
def ReadHolder.dtor (g : ReadHolder) (mem : Nat → RWSpinLock) : Nat → RWSpinLock :=
  call g.lock_ unlock_shared mem

/-- The constructor `UpgradedHolder(RWSpinLock* lock)`:
`lock_(lock)`, then `if (lock_) lock_->lock_upgrade()`. -/
def UpgradedHolder.ctor (fuel : Nat) (lock : Option Nat) (mem : Nat → RWSpinLock) :
    Option (UpgradedHolder × (Nat → RWSpinLock)) :=
  (callLoop lock (lock_upgrade_loop fuel) mem).map fun m => (⟨lock⟩, m)

/-- The constructor `UpgradedHolder(WriteHolder&& writer)`:
`lock_ = writer.lock_; writer.lock_ = nullptr;`
`if (lock_) lock_->unlock_and_lock_upgrade()`. -/
def UpgradedHolder.ctorWriter (writer : WriteHolder) (mem : Nat → RWSpinLock) :
    UpgradedHolder × WriteHolder × (Nat → RWSpinLock) :=
  let g : UpgradedHolder := ⟨writer.lock_⟩
  let writer1 : WriteHolder := { writer with lock_ := none }
  (g, writer1, call g.lock_ unlock_and_lock_upgrade mem)

/-- The destructor `~UpgradedHolder()`: `if (lock_) lock_->unlock_upgrade()`. -/
def UpgradedHolder.dtor (g : UpgradedHolder) (mem : Nat → RWSpinLock) : Nat → RWSpinLock :=
  call g.lock_ unlock_upgrade mem

/-- The constructor `WriteHolder(RWSpinLock* lock)`:
`lock_(lock)`, then `if (lock_) lock_->lock()`. -/
def WriteHolder.ctor (lock : Option Nat) (mem : Nat → RWSpinLock) :
    WriteHolder × (Nat → RWSpinLock) :=
  (⟨lock⟩, call lock RWSpinLock.lock mem)

/-- The constructor `WriteHolder(UpgradedHolder&& upgraded)`:
`lock_ = upgraded.lock_; upgraded.lock_ = nullptr;`
`if (lock_) lock_->unlock_upgrade_and_lock()`, a member that spins. -/
def WriteHolder.ctorUpgraded (fuel : Nat) (upgraded : UpgradedHolder)
    (mem : Nat → RWSpinLock) : Option (WriteHolder × UpgradedHolder × (Nat → RWSpinLock)) :=
  let g : WriteHolder := ⟨upgraded.lock_⟩
  let upgraded1 : UpgradedHolder := { upgraded with lock_ := none }
  (callLoop g.lock_ (unlock_upgrade_and_lock_loop fuel) mem).map fun m => (g, upgraded1, m)

/-- The destructor `~WriteHolder()`: `if (lock_) lock_->unlock()`. -/
def WriteHolder.dtor (g : WriteHolder) (mem : Nat → RWSpinLock) : Nat → RWSpinLock :=
  call g.lock_ RWSpinLock.unlock mem

end RWSpinLock
end folly

/-! ## Producers inside `MPMCRingBuffer::Enqueue` (src/container.h, lines 521-529) -/

namespace trade
namespace container

namespace MPMCRingBuffer

variable {T : Type} {N : Int}

/-- The first statement of `Enqueue(t)`, `long current_head = head++`: the
position the caller claims, and the ring. -/
def claim (r : MPMCRingBuffer T N) : Int × MPMCRingBuffer T N :=
  (r.head, { r with head := r.head + 1 })

/-- The rest of `Enqueue(t)` for the claimed position `current_head`:
`pos = current_head & mask; buffer[pos] = t;`
`buffer_status[pos].seq = current_head + N`. -/
def commit (r : MPMCRingBuffer T N) (current_head : Int) (t : T) : MPMCRingBuffer T N :=
  let pos := Int.land current_head r.mask
  { r with buffer := Function.update r.buffer pos t
           buffer_status := Function.update r.buffer_status pos (current_head + N) }

end MPMCRingBuffer

/-- One ring and the producers that are inside a call of `Enqueue`: `inflight`
holds, for each call that has claimed its position and not yet written it, the
local `current_head` and the argument `t`.  The list `records` is not part of
the program: it keeps the argument of the call that claimed each position,
position 0 first. -/
structure Producers (T : Type) (N : Int) where
  ring : MPMCRingBuffer T N
  inflight : List (Int × T)
  records : List T

/-- A step of one producer: it enters `Enqueue(t)` and claims a position, or
the producer that claimed position `p` runs the rest of its call. -/
inductive ProducerStep (T : Type)
  | claim (t : T)
  | commit (p : Int)

namespace Producers

variable {T : Type} {N : Int}

/-- A new ring, no producer inside `Enqueue`. -/
def init (init : Int → T) : Producers T N := ⟨MPMCRingBuffer.fresh init, [], []⟩

/-- The effect of one step; `none` when no call in flight has claimed the
position the step names. -/
def step (s : Producers T N) : ProducerStep T → Option (Producers T N)
  | .claim t =>
    some ⟨s.ring.claim.2, s.inflight ++ [(s.ring.claim.1, t)], s.records ++ [t]⟩
  | .commit p =>
    match s.inflight.find? (fun e => decide (e.1 = p)) with
    | some e =>
      some ⟨s.ring.commit e.1 e.2, s.inflight.filter (fun e => decide (e.1 ≠ p)), s.records⟩
    | none => none

/-- A sequence of steps, first to last. -/
def run (s : Producers T N) : List (ProducerStep T) → Option (Producers T N)
  | [] => some s
  | st :: rest => (s.step st).bind fun s1 => s1.run rest

/-- Position `p` is committed: it has been claimed and no call in flight holds
it. -/
def committed (s : Producers T N) (p : Int) : Bool :=
  decide (0 ≤ p) && decide (p < s.ring.head) && s.inflight.all (fun e => decide (e.1 ≠ p))

/-- The step keeps the claimed and not yet committed positions within one lap:
a claim is taken only when every position `q` in flight has `head < q + N`, so
that the new position is below `q + N`. -/
def stepOk (s : Producers T N) : ProducerStep T → Bool
  | .claim _ => s.inflight.all (fun e => decide (s.ring.head < e.1 + N))
  | .commit _ => true

/-- Every claim of the sequence of steps is taken within one lap of the
positions in flight. -/
def noLap (s : Producers T N) : List (ProducerStep T) → Bool
  | [] => true
  | st :: rest =>
    s.stepOk st &&
      match s.step st with
      | some s1 => s1.noLap rest
      | none => true

/-- What holds after any sequence of steps: `head` is the number of claimed
positions; a call in flight holds a claimed position and the record claimed
for it; and a slot has either its index as sequence number, or the sequence
number `p + N` and the record of a committed position `p` of that slot. -/
def Inv (s : Producers T N) : Prop :=
  s.ring.head = (s.records.length : Int) ∧
  (∀ e ∈ s.inflight, 0 ≤ e.1 ∧ e.1 < s.ring.head ∧ s.records[e.1.toNat]? = some e.2) ∧
  (∀ j : Int, 0 ≤ j → j < N →
    s.ring.buffer_status j = j ∨
    ∃ p : Int, p % N = j ∧ s.committed p = true ∧ s.ring.buffer_status j = p + N ∧
      s.records[p.toNat]? = some (s.ring.buffer j))

/-- What holds in addition when every claim was taken within one lap: the
positions in flight are among the last `N`, and each committed position among
the last `N` still has its sequence number in its slot. -/
def Window (s : Producers T N) : Prop :=
  (∀ e ∈ s.inflight, s.ring.head ≤ e.1 + N) ∧
  (∀ p : Int, s.committed p = true → s.ring.head ≤ p + N →
    s.ring.buffer_status (p % N) = p + N)

end Producers

end container
end trade

/-! ## The number of shared holders along a sequence of operations -/

namespace folly
namespace RWSpinLock

/-- Every state that the sequence of operations passes through, from `s` to
the last one, has fewer than `bound` callers holding the shared mode. -/
def Holders.readersBelow (bound : Nat) (s : Holders) : List Op → Bool
  | [] => decide (s.readers < bound)
  | op :: ops =>
    decide (s.readers < bound) &&
      match s.step op with
      | some s1 => s1.readersBelow bound ops
      | none => true

/-- Every state that the sequence of operations passes through, from `s` to
the last one, has fewer than `bound` shared acquisitions outstanding. -/
def SharedHolders.heldBelow (fuel bound : Nat) (s : SharedHolders) : List SharedOp → Bool
  | [] => decide (s.outstanding < bound)
  | op :: ops =>
    decide (s.outstanding < bound) &&
      match s.step fuel op with
      | some s1 => s1.heldBelow fuel bound ops
      | none => true

end RWSpinLock
end folly
/-! # Theorems -/

/-! ## Bit arithmetic on `Int` -/

theorem int_land_zero (q : Int) : Int.land q 0 = 0 := by
  cases q with
  | ofNat m => show ((m &&& 0 : Nat) : Int) = 0; simp
  | negSucc m => show ((Nat.ldiff 0 m : Nat) : Int) = 0; simp [Nat.ldiff]

theorem int_lor_zero (q : Int) : Int.lor q 0 = q := by
  cases q with
  | ofNat m => show ((m ||| 0 : Nat) : Int) = m; simp
  | negSucc m => show Int.negSucc (Nat.ldiff m 0) = Int.negSucc m; simp [Nat.ldiff]

theorem int_two_bits (w : Int) :
    ∃ (b0 b1 : Bool) (q : Int), w = Int.bit b0 (Int.bit b1 q) :=
  ⟨Int.bodd w, Int.bodd (Int.div2 w), Int.div2 (Int.div2 w),
    by rw [Int.bit_decomp, Int.bit_decomp]⟩

theorem int_land_three (w : Int) : Int.land w 3 = w % 4 := by
  obtain ⟨b0, b1, q, rfl⟩ := int_two_bits w
  have h3 : (3 : Int) = Int.bit true (Int.bit true 0) := by decide
  rw [h3, Int.land_bit, Int.land_bit, int_land_zero]
  simp only [Int.bit_val]
  cases b0 <;> cases b1 <;> simp <;> omega

theorem int_land_one (w : Int) : Int.land w 1 = w % 2 := by
  obtain ⟨b0, b1, q, rfl⟩ := int_two_bits w
  have h1 : (1 : Int) = Int.bit true 0 := by decide
  rw [h1, Int.land_bit, int_land_zero]
  simp only [Int.bit_val]
  cases b0 <;> cases b1 <;> simp <;> omega

theorem int_land_two (w : Int) : Int.land w 2 = w % 4 - w % 2 := by
  obtain ⟨b0, b1, q, rfl⟩ := int_two_bits w
  have h2 : (2 : Int) = Int.bit false (Int.bit true 0) := by decide
  rw [h2, Int.land_bit, Int.land_bit, int_land_zero]
  simp only [Int.bit_val]
  cases b0 <;> cases b1 <;> simp <;> omega

theorem int_lor_two (w : Int) : Int.lor w 2 = w + 2 - (w % 4 - w % 2) := by
  obtain ⟨b0, b1, q, rfl⟩ := int_two_bits w
  have h2 : (2 : Int) = Int.bit false (Int.bit true 0) := by decide
  rw [h2, Int.lor_bit, Int.lor_bit, int_lor_zero]
  simp only [Int.bit_val]
  cases b0 <;> cases b1 <;> simp <;> omega

/-! ## The lock word -/

namespace folly
namespace RWSpinLock

theorem flags_eq : Int.lor 1 2 = 3 ∧ Int.lor 2 1 = 3 := by
  constructor <;> decide

theorem writerBit_iff (l : RWSpinLock) : writerBit l = true ↔ l.bits_ % 2 = 1 := by
  unfold writerBit WRITER
  rw [int_land_one]
  simp only [decide_eq_true_eq]
  omega

theorem upgradedBit_iff (l : RWSpinLock) :
    upgradedBit l = true ↔ l.bits_ % 4 - l.bits_ % 2 = 2 := by
  unfold upgradedBit UPGRADED
  rw [int_land_two]
  simp only [decide_eq_true_eq]
  omega

theorem writerBit_false_iff (l : RWSpinLock) : writerBit l = false ↔ l.bits_ % 2 = 0 := by
  rw [← Bool.not_eq_true, writerBit_iff]; omega

theorem upgradedBit_false_iff (l : RWSpinLock) :
    upgradedBit l = false ↔ l.bits_ % 4 - l.bits_ % 2 = 0 := by
  rw [← Bool.not_eq_true, upgradedBit_iff]; omega

theorem try_lock_shared_eq (l : RWSpinLock) :
    try_lock_shared l =
      if l.bits_ % 4 ≠ 0 then (false, ⟨wrap32 (wrap32 (l.bits_ + 4) + -4)⟩)
      else (true, ⟨wrap32 (l.bits_ + 4)⟩) := by
  simp only [try_lock_shared, fetch_add, WRITER, UPGRADED, flags_eq.1, int_land_three, READER]

theorem try_lock_upgrade_eq (l : RWSpinLock) :
    try_lock_upgrade l =
      (decide (l.bits_ % 4 = 0), ⟨l.bits_ + 2 - (l.bits_ % 4 - l.bits_ % 2)⟩) := by
  simp only [try_lock_upgrade, fetch_or, WRITER, UPGRADED, flags_eq.2, int_land_three, int_lor_two]

/-- C4: `try_lock()` returns true exactly when the word is all-clear (reader
field 0, upgraded bit clear, writer bit clear); when it returns true the word
becomes exactly `WRITER`, and when it returns false the word is unchanged. -/
theorem try_lock_spec (l : RWSpinLock) :
    ((try_lock l).1 = true ↔
      (readerCount l = 0 ∧ upgradedBit l = false ∧ writerBit l = false)) ∧
    ((try_lock l).1 = true ↔ l.bits_ = 0) ∧
    ((try_lock l).1 = true → (try_lock l).2.bits_ = WRITER) ∧
    ((try_lock l).1 = false → (try_lock l).2 = l) := by
  rw [upgradedBit_false_iff, writerBit_false_iff]
  unfold try_lock compare_exchange_strong readerCount READER
  by_cases h : l.bits_ = 0
  · simp [h]
  · simp only [h, if_false, Bool.false_eq_true, false_iff, false_implies, true_implies,
      and_true, not_and, not_false_eq_true]
    omega

/-- C5: for a word that is an `int32_t` value with room for one more reader,
`try_lock_shared()` returns false exactly when the writer bit or the upgraded
bit is set; when it returns false the word is what it was before the call, and
when it returns true the reader field is one higher and the writer and
upgraded bits are what they were. -/
theorem try_lock_shared_spec (l : RWSpinLock) (hr : isInt32 l.bits_)
    (hroom : l.bits_ + READER < 2147483648) :
    ((try_lock_shared l).1 = false ↔ (writerBit l = true ∨ upgradedBit l = true)) ∧
    ((try_lock_shared l).1 = false → (try_lock_shared l).2 = l) ∧
    ((try_lock_shared l).1 = true →
      readerCount (try_lock_shared l).2 = readerCount l + 1 ∧
      writerBit (try_lock_shared l).2 = writerBit l ∧
      upgradedBit (try_lock_shared l).2 = upgradedBit l) := by
  obtain ⟨hlo, hhi⟩ := hr
  unfold READER at hroom
  have hw : wrap32 (l.bits_ + 4) = l.bits_ + 4 := by unfold wrap32; omega
  have hw2 : wrap32 (l.bits_ + 4 + -4) = l.bits_ := by unfold wrap32; omega
  rw [try_lock_shared_eq, hw, hw2, writerBit_iff, upgradedBit_iff]
  by_cases h : l.bits_ % 4 = 0
  · simp only [h, ne_eq, not_true_eq_false, if_false, Bool.true_eq_false, false_iff,
      false_implies, true_implies, true_and]
    refine ⟨by omega, ?_, ?_, ?_⟩
    · unfold readerCount READER; show (l.bits_ + 4) / 4 = l.bits_ / 4 + 1; omega
    · rw [Bool.eq_iff_iff, writerBit_iff, writerBit_iff]
      show (l.bits_ + 4) % 2 = 1 ↔ l.bits_ % 2 = 1; omega
    · rw [Bool.eq_iff_iff, upgradedBit_iff, upgradedBit_iff]
      show (l.bits_ + 4) % 4 - (l.bits_ + 4) % 2 = 2 ↔ l.bits_ % 4 - l.bits_ % 2 = 2
      omega
  · simp only [h, ne_eq, not_false_eq_true, if_true, true_iff, true_implies,
      Bool.false_eq_true, false_implies, and_true]
    omega

/-- Witness of C5 at the word with one reader and no flag. -/
theorem try_lock_shared_spec_witness :
    isInt32 (4 : Int) ∧
    (try_lock_shared ⟨4⟩).1 = true ∧ readerCount (try_lock_shared ⟨4⟩).2 = 2 :=
  ⟨by decide,
    by decide,
    (((try_lock_shared_spec ⟨4⟩ (by decide) (by decide)).2.2) (by decide)).1⟩

/-- C6: `try_lock_upgrade()` returns true exactly when neither the upgraded
bit nor the writer bit was set before the call; after the call the upgraded
bit is set whatever the result, and the reader field and the writer bit are
what they were. -/
theorem try_lock_upgrade_spec (l : RWSpinLock) :
    ((try_lock_upgrade l).1 = true ↔ (upgradedBit l = false ∧ writerBit l = false)) ∧
    upgradedBit (try_lock_upgrade l).2 = true ∧
    readerCount (try_lock_upgrade l).2 = readerCount l ∧
    writerBit (try_lock_upgrade l).2 = writerBit l := by
  rw [try_lock_upgrade_eq, upgradedBit_false_iff, writerBit_false_iff, upgradedBit_iff]
  refine ⟨?_, ?_, ?_, ?_⟩
  · simp only [decide_eq_true_eq]; omega
  · show (l.bits_ + 2 - (l.bits_ % 4 - l.bits_ % 2)) % 4
      - (l.bits_ + 2 - (l.bits_ % 4 - l.bits_ % 2)) % 2 = 2
    omega
  · show (l.bits_ + 2 - (l.bits_ % 4 - l.bits_ % 2)) / 4 = l.bits_ / 4
    omega
  · rw [Bool.eq_iff_iff, writerBit_iff, writerBit_iff]
    show (l.bits_ + 2 - (l.bits_ % 4 - l.bits_ % 2)) % 2 = 1 ↔ l.bits_ % 2 = 1
    omega

/-- C7: `try_unlock_upgrade_and_lock()` returns true exactly when the word is
`UPGRADED` and nothing else, and then the word becomes exactly `WRITER`;
otherwise it returns false and the word is unchanged.  From a fresh lock,
after `try_lock_upgrade` (true) and `try_lock_shared` (false) the promotion
returns true; with a reader admitted before the upgrade and still holding, it
returns false. -/
theorem try_unlock_upgrade_and_lock_spec :
    (∀ l : RWSpinLock,
      ((try_unlock_upgrade_and_lock l).1 = true ↔
        (upgradedBit l = true ∧ readerCount l = 0 ∧ writerBit l = false)) ∧
      ((try_unlock_upgrade_and_lock l).1 = true ↔ l.bits_ = UPGRADED) ∧
      ((try_unlock_upgrade_and_lock l).1 = true →
        (try_unlock_upgrade_and_lock l).2.bits_ = WRITER) ∧
      ((try_unlock_upgrade_and_lock l).1 = false →
        (try_unlock_upgrade_and_lock l).2 = l)) ∧
    ((try_lock_upgrade fresh).1 = true ∧
      (try_lock_shared (try_lock_upgrade fresh).2).1 = false ∧
      try_unlock_upgrade_and_lock (try_lock_shared (try_lock_upgrade fresh).2).2
        = (true, ⟨WRITER⟩)) ∧
    ((try_lock_shared fresh).1 = true ∧
      (try_lock_upgrade (try_lock_shared fresh).2).1 = true ∧
      try_unlock_upgrade_and_lock (try_lock_upgrade (try_lock_shared fresh).2).2
        = (false, (try_lock_upgrade (try_lock_shared fresh).2).2)) := by
  refine ⟨?_, by decide, by decide⟩
  intro l
  rw [upgradedBit_iff, writerBit_false_iff]
  unfold try_unlock_upgrade_and_lock compare_exchange_strong readerCount READER UPGRADED
  by_cases h : l.bits_ = 2
  · simp [h]
  · simp only [h, if_false, Bool.false_eq_true, false_iff, false_implies, true_implies,
      and_true, not_and, not_false_eq_true]
    omega

end RWSpinLock
end folly

namespace folly
namespace RWSpinLock

theorem Holders.step_inv (s s1 : Holders) (n : Nat) (op : Op)
    (hinv : s.Inv n) (hn : n < 536870912) (h1 : s1.readers ≤ n)
    (hop : op.callsEmptyBody = false)
    (hstep : s.step op = some s1) : s1.Inv n := by
  obtain ⟨⟨b⟩, r, p, w⟩ := s
  obtain ⟨u, hu, hb, hw, hp, hpu, hwr, hup, hrn⟩ := hinv
  simp only at hb hw hp hpu hwr hup hrn
  cases op
  case lock => simp [Op.callsEmptyBody] at hop
  case unlock => simp [Op.callsEmptyBody] at hop
  case unlock_and_lock_shared => simp [Op.callsEmptyBody] at hop
  case unlock_shared =>
    simp only [Holders.step] at hstep
    split at hstep
    · rename_i hpos
      simp only [Option.some.injEq] at hstep
      subst hstep
      refine ⟨u, hu, ?_⟩
      simp only [unlock_shared, fetch_add, READER, wrap32]
      omega
    · simp at hstep
  case unlock_upgrade =>
    simp only [Holders.step] at hstep
    split at hstep
    · rename_i hpos
      simp only [Option.some.injEq] at hstep
      subst hstep
      refine ⟨0, Or.inl rfl, ?_⟩
      simp only [unlock_upgrade, fetch_add, UPGRADED, wrap32]
      omega
    · simp at hstep
  case unlock_upgrade_and_lock_shared =>
    simp only [Holders.step] at hstep
    split at hstep
    · rename_i hpos
      simp only [Option.some.injEq] at hstep
      subst hstep
      have h1b : r + 1 ≤ n := h1
      refine ⟨0, Or.inl rfl, ?_⟩
      simp only [unlock_upgrade_and_lock_shared, fetch_add, UPGRADED, READER, wrap32]
      omega
    · simp at hstep
  case unlock_and_lock_upgrade =>
    simp only [Holders.step] at hstep
    split at hstep
    · rename_i hpos
      simp only [Option.some.injEq] at hstep
      subst hstep
      obtain ⟨u1, hu1⟩ : ∃ u1 : Int, u1 = 1 := ⟨1, rfl⟩
      refine ⟨u1, Or.inr hu1, ?_⟩
      simp only [unlock_and_lock_upgrade, unlock_and_lock_upgrade_step1, fetch_or, fetch_add,
        UPGRADED, WRITER, wrap32, int_lor_two]
      omega
    · simp at hstep
  case try_lock =>
    simp only [Holders.step, try_lock, compare_exchange_strong, Option.some.injEq] at hstep
    subst hstep
    by_cases h0 : b = 0
    · refine ⟨0, Or.inl rfl, ?_⟩
      simp only [h0, if_true, WRITER]
      omega
    · refine ⟨u, hu, ?_⟩
      simp only [h0, if_false, Bool.false_eq_true]
      omega
  case try_lock_shared =>
    simp only [Holders.step, try_lock_shared_eq, Option.some.injEq] at hstep
    subst hstep
    refine ⟨u, hu, ?_⟩
    by_cases h0 : b % 4 = 0
    · simp only [h0, ne_eq, not_true_eq_false, if_false, if_true, wrap32] at h1 ⊢
      omega
    · simp only [h0, ne_eq, not_false_eq_true, if_true, Bool.false_eq_true, if_false, wrap32]
      omega
  case try_unlock_upgrade_and_lock =>
    simp only [Holders.step, try_unlock_upgrade_and_lock, compare_exchange_strong] at hstep
    split at hstep
    · rename_i hpos
      simp only [Option.some.injEq] at hstep
      subst hstep
      by_cases h0 : b = UPGRADED
      · refine ⟨0, Or.inl rfl, ?_⟩
        simp only [h0, if_true, WRITER]
        unfold UPGRADED at h0
        omega
      · refine ⟨u, hu, ?_⟩
        simp only [h0, if_false, Bool.false_eq_true]
        omega
    · simp at hstep
  case try_lock_upgrade =>
    simp only [Holders.step, try_lock_upgrade_eq, Option.some.injEq] at hstep
    subst hstep
    obtain ⟨u1, hu1⟩ : ∃ u1 : Int, u1 = 1 := ⟨1, rfl⟩
    refine ⟨u1, Or.inr hu1, ?_⟩
    by_cases h0 : b % 4 = 0
    · simp only [h0, decide_True, if_true]
      omega
    · simp only [h0, decide_False, Bool.false_eq_true, if_false]
      omega

theorem Holders.readersBelow_head (bound : Nat) (s : Holders) (ops : List Op)
    (h : s.readersBelow bound ops = true) : s.readers < bound := by
  cases ops with
  | nil => simpa [Holders.readersBelow] using h
  | cons op ops =>
    simp only [Holders.readersBelow, Bool.and_eq_true, decide_eq_true_eq] at h
    exact h.1

theorem Holders.run_inv (ops : List Op) : ∀ (s s1 : Holders),
    s.Inv 536870911 → (∀ op ∈ ops, op.callsEmptyBody = false) →
    s.readersBelow 536870912 ops = true →
    s.run ops = some s1 → s1.Inv 536870911 := by
  induction ops with
  | nil =>
    intro s s1 hinv _ _ hrun
    simp only [Holders.run, Option.some.injEq] at hrun
    subst hrun
    exact hinv
  | cons op ops ih =>
    intro s s1 hinv hops hb hrun
    simp only [Holders.run] at hrun
    cases hs : s.step op with
    | none => simp [hs] at hrun
    | some s2 =>
      simp only [hs, Option.some_bind] at hrun
      simp only [Holders.readersBelow, hs, Bool.and_eq_true, decide_eq_true_eq] at hb
      have hr2 := Holders.readersBelow_head 536870912 s2 ops hb.2
      have h2 : s2.Inv 536870911 :=
        Holders.step_inv s s2 536870911 op hinv (by omega) (by omega)
          (hops op (List.mem_cons_self _ _)) hs
      exact ih s2 s1 h2 (fun o ho => hops o (List.mem_cons_of_mem _ ho)) hb.2 hrun

theorem Holders.init_inv : Holders.init.Inv 536870911 :=
  ⟨0, Or.inl rfl, by decide, by decide, by decide, by decide, by decide, by decide, by decide⟩

end RWSpinLock
end folly

namespace folly
namespace RWSpinLock

open trade.concurrent

/-- C3 (the code at the failing input): `lock()` has no body, so on a fresh
lock a second `lock()` returns while the first caller still holds the lock and
the word stays all-clear; two callers then hold exclusive access at once, a
`try_lock()` after a returned `lock()` also returns true, and two `Locker`
guards are alive on one lock. -/
theorem lock_returns_while_held :
    lock (lock fresh) = fresh ∧
    (Holders.init.run [Op.lock, Op.lock]).map Holders.writers = some 2 ∧
    (try_lock (lock fresh)).1 = true ∧
    (Holders.init.run [Op.lock, Op.try_lock]).map Holders.writers = some 2 ∧
    (Locker.ctor (Locker.ctor fresh).2).2 = fresh := by
  refine ⟨rfl, by decide, by decide, by decide, rfl⟩

/-- C8 (the code at the failing input): `unlock()` has no body, so on the word
`WRITER` it leaves the writer bit set; on a fresh lock the sequence
`try_lock()`, `unlock()`, `try_lock()` returns true and then false, and a
second `TryLocker` built after the first one was destroyed does not succeed. -/
theorem unlock_keeps_writer_bit :
    unlock ⟨WRITER⟩ = ⟨WRITER⟩ ∧
    writerBit (unlock ⟨WRITER⟩) = true ∧
    (try_lock fresh).1 = true ∧
    (try_lock (unlock (try_lock fresh).2)).1 = false ∧
    (TryLocker.ctor fresh).1.Success = true ∧
    (TryLocker.ctor
      ((TryLocker.ctor fresh).1.dtor (TryLocker.ctor fresh).2)).1.Success = false := by
  refine ⟨rfl, by decide, by decide, by decide, by decide, by decide⟩

/-- C9 (the code at the failing input): on the word `WRITER`,
`unlock_and_lock_shared()` adds a reader and then calls the empty `unlock()`,
so the word ends as `READER + WRITER`: the reader field is 1 but the writer
bit is still set, and a following `try_lock_shared()` returns false (as does
a following `try_lock()`). -/
theorem downgrade_keeps_writer_bit :
    unlock_and_lock_shared ⟨WRITER⟩ = ⟨READER + WRITER⟩ ∧
    writerBit (unlock_and_lock_shared ⟨WRITER⟩) = true ∧
    readerCount (unlock_and_lock_shared ⟨WRITER⟩) = 1 ∧
    (try_lock_shared (unlock_and_lock_shared ⟨WRITER⟩)).1 = false ∧
    (try_lock (unlock_and_lock_shared ⟨WRITER⟩)).1 = false := by
  refine ⟨by decide, by decide, by decide, by decide, by decide⟩

/-- C10 (the claim as stated fails): after `try_lock()` (true) and
`try_lock_upgrade()` (false) on a fresh lock, one caller holds the write mode
and the word has both the writer bit and the upgraded bit set; so it is not
true that in every reachable state a set writer bit comes with a clear
upgraded bit. -/
theorem writer_bit_with_upgraded_bit :
    Holders.init.run [Op.try_lock, Op.try_lock_upgrade] = some ⟨⟨3⟩, 0, 0, 1⟩ ∧
    writerBit ⟨3⟩ = true ∧ upgradedBit ⟨3⟩ = true ∧
    ¬ (∀ (ops : List Op) (s : Holders), Holders.init.run ops = some s →
        writerBit s.word = true → readerCount s.word = 0 ∧ upgradedBit s.word = false) := by
  refine ⟨by decide, by decide, by decide, ?_⟩
  intro h
  have h3 := h [Op.try_lock, Op.try_lock_upgrade] ⟨⟨3⟩, 0, 0, 1⟩ (by decide) (by decide)
  exact absurd h3.2 (by decide)

/-- C10 (amended): in every state reached from a fresh lock by completed
operations among `try_lock`, `try_lock_shared`, `try_lock_upgrade`,
`unlock_shared`, `unlock_upgrade`, `unlock_upgrade_and_lock_shared`,
`try_unlock_upgrade_and_lock` and `unlock_and_lock_upgrade`, however many,
each release or conversion run by a holder of the matching mode and fewer
than 2^29 callers holding the shared mode at every boundary of an operation,
a set writer bit comes with a reader field of 0. -/
theorem writer_bit_excludes_readers (ops : List Op) (s : Holders)
    (hops : ∀ op ∈ ops, op.callsEmptyBody = false)
    (hheld : Holders.init.readersBelow 536870912 ops = true)
    (hrun : Holders.init.run ops = some s)
    (hw : writerBit s.word = true) : readerCount s.word = 0 := by
  have hinv := Holders.run_inv ops Holders.init s Holders.init_inv hops hheld hrun
  obtain ⟨u, hu, hb, hw1, hp, hpu, hwr, hup, hrn⟩ := hinv
  rw [writerBit_iff] at hw
  unfold readerCount READER
  omega

/-- Witness of C10 (amended): a reader comes, an upgrader comes, the reader
leaves and the upgrader is promoted; the word is then exactly `WRITER`. -/
theorem writer_bit_excludes_readers_witness :
    Holders.init.readersBelow 536870912
      [Op.try_lock_shared, Op.try_lock_upgrade, Op.unlock_shared,
        Op.try_unlock_upgrade_and_lock] = true ∧
    Holders.init.run [Op.try_lock_shared, Op.try_lock_upgrade, Op.unlock_shared,
      Op.try_unlock_upgrade_and_lock] = some ⟨⟨1⟩, 0, 0, 1⟩ ∧
    writerBit ⟨1⟩ = true ∧ readerCount ⟨1⟩ = 0 :=
  ⟨by decide, by decide, by decide,
    writer_bit_excludes_readers
      [Op.try_lock_shared, Op.try_lock_upgrade, Op.unlock_shared,
        Op.try_unlock_upgrade_and_lock]
      ⟨⟨1⟩, 0, 0, 1⟩ (by decide) (by decide) (by decide) (by decide)⟩

end RWSpinLock
end folly

/-! ## The ring buffers -/

namespace trade
namespace container

/-- C1 (the code at the failing input): on a fresh MPSC ring with `N = 8`,
after the eight calls `Enqueue(1)`, ..., `Enqueue(8)` the stateful `Dequeue`
returns after passing nine records to the callback, `1, 2, ..., 8` and then
`1` again; it ends with `head = 8`, `tail = 9`, and `Size()` is `-1`. -/
theorem MPSC_full_ring_drain :
    (([1, 2, 3, 4, 5, 6, 7, 8].foldl MPSCRingBuffer.Enqueue
        (MPSCRingBuffer.fresh (fun _ => 0) : MPSCRingBuffer Nat 8)).Dequeue).map
      (fun res => (res.2, res.1.head, res.1.tail, res.1.Size))
      = some ([1, 2, 3, 4, 5, 6, 7, 8, 1], 8, 9, -1) := by
  decide

/-- C2 (the claim as stated fails): with the records `10, 11, 12, 13, 14` for
A, B, C, D, E, the cursor form `Dequeue(0, callback)` on the SPSC ring with
`N = 4` passes `14, 11, 12, 13, 14` to the callback, not `11, 12, 13, 14`. -/
theorem SPSC_cursor_zero_reads_five :
    (([10, 11, 12, 13, 14].foldl SPSCRingBuffer.Enqueue
        (SPSCRingBuffer.fresh (fun _ => 0) : SPSCRingBuffer Nat 4)).DequeueFrom 0)
      = some (5, [14, 11, 12, 13, 14]) ∧
    (([10, 11, 12, 13, 14].foldl SPSCRingBuffer.Enqueue
        (SPSCRingBuffer.fresh (fun _ => 0) : SPSCRingBuffer Nat 4)).DequeueFrom 0).map
      Prod.snd ≠ some [11, 12, 13, 14] := by
  constructor <;> decide

/-- C2 (amended): on a fresh SPSC ring with `N = 4`, whatever the storage
holds at first, after `Enqueue` of A, B, C, D, E in that order the cursor form
`Dequeue(0, callback)` returns the cursor 5 after passing exactly the five
records E, B, C, D, E to the callback, in that order: position 0 is read from
slot 0, which holds E. -/
theorem SPSC_overwritten_slot_replayed (T : Type) (init : Int → T) (A B C D E : T) :
    ([A, B, C, D, E].foldl SPSCRingBuffer.Enqueue
        (SPSCRingBuffer.fresh init : SPSCRingBuffer T 4)).DequeueFrom 0
      = some (5, [E, B, C, D, E]) := by
  rfl

end container
end trade

/-! ### Why the number of shared holders is bounded -/

namespace folly
namespace RWSpinLock

theorem Holders.Holders_run_append (a b : List Op) (s : Holders) :
    s.run (a ++ b) = (s.run a).bind fun s1 => s1.run b := by
  induction a generalizing s with
  | nil => simp [Holders.run]
  | cons op a ih =>
    simp only [List.cons_append, Holders.run]
    cases hs : s.step op with
    | none => simp
    | some s2 => simp [ih]

theorem Holders.run_replicate_shared (n : Nat) :
    ∀ k : Nat,
      Holders.run ⟨⟨wrap32 (4 * (k : Int))⟩, k, 0, 0⟩ (List.replicate n Op.try_lock_shared)
        = some ⟨⟨wrap32 (4 * ((k + n : Nat) : Int))⟩, k + n, 0, 0⟩ := by
  induction n with
  | zero => intro k; simp [Holders.run]
  | succ n ih =>
    intro k
    have hmod : wrap32 (4 * (k : Int)) % 4 = 0 := by unfold wrap32; omega
    have hw : wrap32 (wrap32 (4 * (k : Int)) + 4) = wrap32 (4 * ((k + 1 : Nat) : Int)) := by
      unfold wrap32
      push_cast
      omega
    have htry : try_lock_shared ⟨wrap32 (4 * (k : Int))⟩
        = (true, ⟨wrap32 (4 * ((k + 1 : Nat) : Int))⟩) := by
      rw [try_lock_shared_eq]
      simp [hmod, hw]
    simp only [List.replicate_succ, Holders.run, Holders.step, htry, if_true, Option.some_bind]
    rw [ih (k + 1)]
    have e2 : k + 1 + n = k + (n + 1) := by omega
    rw [e2]

/-- Without a bound on the callers that hold the shared mode the reader half
of the invariant fails as well: after 2^30 successful calls of
`try_lock_shared()` the 32-bit word has wrapped to 0, `try_lock()` then
returns true, and the `unlock_shared()` of one of the shared holders leaves
the word `-3`, with the writer bit set and the reader field `-1`. -/
theorem readers_wrap_under_writer_bit :
    (Holders.init.run
        (List.replicate 1073741824 Op.try_lock_shared ++ [Op.try_lock, Op.unlock_shared])).map
      (fun s => (s.word.bits_, s.readers, s.writers)) = some (-3, 1073741823, 1) ∧
    writerBit ⟨-3⟩ = true ∧ readerCount ⟨-3⟩ = -1 := by
  have h0 := Holders.run_replicate_shared 1073741824 0
  have hinit : Holders.init = ⟨⟨wrap32 (4 * ((0 : Nat) : Int))⟩, 0, 0, 0⟩ := rfl
  refine ⟨?_, ?_, by decide⟩
  · rw [Holders.Holders_run_append, hinit, h0]
    decide
  · rw [writerBit_iff]
    decide

end RWSpinLock
end folly

/-! ## Shared acquisitions -/

namespace folly
namespace RWSpinLock

theorem SharedHolders.step_word (fuel : Nat) (s s1 : SharedHolders) (op : SharedOp)
    (hf : 0 < fuel) (hw : s.word.bits_ = 4 * (s.outstanding : Int))
    (hn : s.outstanding < 536870912) (hn1 : s1.outstanding < 536870912)
    (hstep : s.step fuel op = some s1) :
    s1.word.bits_ = 4 * (s1.outstanding : Int) := by
  obtain ⟨⟨b⟩, n⟩ := s
  simp only at hw hn
  have hmod : b % 4 = 0 := by omega
  have htry : try_lock_shared ⟨b⟩ = (true, ⟨wrap32 (b + 4)⟩) := by
    rw [try_lock_shared_eq]
    simp [hmod]
  cases op with
  | try_lock_shared =>
    simp only [SharedHolders.step, htry, if_true, Option.some.injEq] at hstep
    subst hstep
    have hn1b : n + 1 < 536870912 := hn1
    show wrap32 (b + 4) = 4 * ((n + 1 : Nat) : Int)
    unfold wrap32
    omega
  | lock_shared =>
    obtain ⟨f, rfl⟩ : ∃ f, fuel = f + 1 := ⟨fuel - 1, by omega⟩
    simp only [SharedHolders.step, lock_shared_loop, htry, if_true, Option.map_some',
      Option.some.injEq] at hstep
    subst hstep
    have hn1b : n + 1 < 536870912 := hn1
    show wrap32 (b + 4) = 4 * ((n + 1 : Nat) : Int)
    unfold wrap32
    omega
  | unlock_shared =>
    simp only [SharedHolders.step] at hstep
    split at hstep
    · rename_i hpos
      simp only [Option.some.injEq] at hstep
      subst hstep
      show wrap32 (b + -READER) = 4 * ((n - 1 : Nat) : Int)
      unfold wrap32 READER; omega
    · simp at hstep

theorem SharedHolders.heldBelow_head (fuel bound : Nat) (s : SharedHolders)
    (ops : List SharedOp) (h : s.heldBelow fuel bound ops = true) :
    s.outstanding < bound := by
  cases ops with
  | nil => simpa [SharedHolders.heldBelow] using h
  | cons op ops =>
    simp only [SharedHolders.heldBelow, Bool.and_eq_true, decide_eq_true_eq] at h
    exact h.1

theorem SharedHolders.run_word (fuel : Nat) (hf : 0 < fuel) (ops : List SharedOp) :
    ∀ (s s1 : SharedHolders), s.word.bits_ = 4 * (s.outstanding : Int) →
      s.heldBelow fuel 536870912 ops = true → s.run fuel ops = some s1 →
      s1.word.bits_ = 4 * (s1.outstanding : Int) ∧ s1.outstanding < 536870912 := by
  induction ops with
  | nil =>
    intro s s1 hw hb hrun
    simp only [SharedHolders.run, Option.some.injEq] at hrun
    subst hrun
    exact ⟨hw, SharedHolders.heldBelow_head fuel _ s [] hb⟩
  | cons op ops ih =>
    intro s s1 hw hb hrun
    simp only [SharedHolders.run] at hrun
    cases hs : s.step fuel op with
    | none => simp [hs] at hrun
    | some s2 =>
      simp only [hs, Option.some_bind] at hrun
      simp only [SharedHolders.heldBelow, hs, Bool.and_eq_true, decide_eq_true_eq] at hb
      have hr2 := SharedHolders.heldBelow_head fuel 536870912 s2 ops hb.2
      have h2 := SharedHolders.step_word fuel s s2 op hf hw hb.1 hr2 hs
      exact ih s2 s1 h2 hb.2 hrun

theorem SharedHolders.run_append (fuel : Nat) (a b : List SharedOp) (s : SharedHolders) :
    s.run fuel (a ++ b) = (s.run fuel a).bind fun s1 => s1.run fuel b := by
  induction a generalizing s with
  | nil => simp [SharedHolders.run]
  | cons op a ih =>
    simp only [List.cons_append, SharedHolders.run]
    cases hs : s.step fuel op with
    | none => simp
    | some s2 => simp [ih]

theorem SharedHolders.run_replicate (fuel : Nat) (n : Nat) :
    ∀ k : Nat, k + n < 536870912 →
      SharedHolders.run fuel ⟨⟨4 * (k : Int)⟩, k⟩ (List.replicate n SharedOp.try_lock_shared)
        = some ⟨⟨4 * ((k + n : Nat) : Int)⟩, k + n⟩ := by
  induction n with
  | zero => intro k _; simp [SharedHolders.run]
  | succ n ih =>
    intro k hk
    have htry : try_lock_shared ⟨4 * (k : Int)⟩ = (true, ⟨4 * (k : Int) + 4⟩) := by
      rw [try_lock_shared_eq]
      have hw4 : wrap32 (4 * (k : Int) + 4) = 4 * (k : Int) + 4 := by unfold wrap32; omega
      have hmod : (4 * (k : Int)) % 4 = 0 := by omega
      simp [hmod, hw4]
    simp only [List.replicate_succ, SharedHolders.run, SharedHolders.step, htry, if_true,
      Option.some_bind]
    have e : (4 * (k : Int) + 4) = 4 * ((k + 1 : Nat) : Int) := by push_cast; ring
    rw [e, ih (k + 1) (by omega)]
    have e2 : k + 1 + n = k + (n + 1) := by omega
    rw [e2]

/-- C11 (the claim as stated fails): after 2^29 calls of `try_lock_shared()` on
a fresh lock, each of which returns true and none of which is released, the
word has wrapped to the least `int32_t` value and its reader field is
`-2^29`, not the 2^29 acquisitions that are outstanding. -/
theorem reader_field_wraps_negative :
    (SharedHolders.run 1 SharedHolders.init
        (List.replicate 536870912 SharedOp.try_lock_shared)).map
      (fun s => (s.word.bits_, readerCount s.word, s.outstanding))
      = some (-2147483648, -536870912, 536870912) := by
  have hsplit : List.replicate 536870912 SharedOp.try_lock_shared
      = List.replicate 536870911 SharedOp.try_lock_shared ++ [SharedOp.try_lock_shared] := by
    rw [← List.replicate_succ']
  have h0 := SharedHolders.run_replicate 1 536870911 0 (by omega)
  have hinit : SharedHolders.init = ⟨⟨4 * ((0 : Nat) : Int)⟩, 0⟩ := rfl
  rw [hsplit, SharedHolders.run_append, hinit, h0]
  decide

/-- C11 (amended): in every state reached from a fresh lock by completed calls
of `try_lock_shared()`, `lock_shared()` and `unlock_shared()`, however many,
`unlock_shared()` being called only to release an acquisition that is still
outstanding and fewer than 2^29 acquisitions being outstanding at every
boundary of a call, the word is four times the number of shared acquisitions
not yet released: the reader field equals that number, so it is not negative,
and both flag bits are clear.  In any state whose word is an `int32_t`, a
`try_lock_shared()` that returns false leaves the word and the number as they
were. -/
theorem reader_field_counts_holders (fuel : Nat) (ops : List SharedOp) (s : SharedHolders)
    (hf : 0 < fuel) (hheld : SharedHolders.init.heldBelow fuel 536870912 ops = true)
    (hrun : SharedHolders.init.run fuel ops = some s) :
    readerCount s.word = (s.outstanding : Int) ∧ 0 ≤ readerCount s.word ∧
    writerBit s.word = false ∧ upgradedBit s.word = false ∧
    (∀ s0 : SharedHolders, isInt32 s0.word.bits_ → (try_lock_shared s0.word).1 = false →
      s0.step fuel SharedOp.try_lock_shared = some s0) := by
  obtain ⟨hw, _⟩ := SharedHolders.run_word fuel hf ops SharedHolders.init s rfl hheld hrun
  rw [writerBit_false_iff, upgradedBit_false_iff]
  unfold readerCount READER
  refine ⟨by omega, by omega, by omega, by omega, ?_⟩
  intro s0 hr hfail
  obtain ⟨⟨b⟩, n⟩ := s0
  obtain ⟨hlo, hhi⟩ := hr
  simp only at hlo hhi hfail
  rw [try_lock_shared_eq] at hfail
  simp only [SharedHolders.step, try_lock_shared_eq]
  by_cases h : b % 4 = 0
  · simp [h] at hfail
  · have hw2 : wrap32 (wrap32 (b + 4) + -4) = b := by unfold wrap32; omega
    simp [h, hw2]

/-- Witness of C11 (amended): two acquisitions and one release leave one
outstanding acquisition and the word `READER`. -/
theorem reader_field_counts_holders_witness :
    (0 < 1) ∧
    SharedHolders.init.heldBelow 1 536870912
      [SharedOp.try_lock_shared, SharedOp.lock_shared, SharedOp.unlock_shared] = true ∧
    SharedHolders.init.run 1
      [SharedOp.try_lock_shared, SharedOp.lock_shared, SharedOp.unlock_shared]
      = some ⟨⟨4⟩, 1⟩ ∧ readerCount ⟨4⟩ = 1 :=
  ⟨by decide, by decide, by decide,
    (reader_field_counts_holders 1
      [SharedOp.try_lock_shared, SharedOp.lock_shared, SharedOp.unlock_shared]
      ⟨⟨4⟩, 1⟩ (by decide) (by decide) (by decide)).1⟩

end RWSpinLock
end folly

/-! ## Single operations of the rings -/

theorem int_zero_land (m : Int) : Int.land 0 m = 0 := by
  cases m with
  | ofNat m => show ((0 &&& m : Nat) : Int) = 0; simp
  | negSucc m => show ((Nat.ldiff 0 m : Nat) : Int) = 0; simp [Nat.ldiff]

namespace trade
namespace container

open folly trade.concurrent

theorem MPMCRingBuffer.resetSeq_range (n : Nat) (seq : Int → Int) (j : Int) :
    (List.range n).foldl (fun (s : Int → Int) (i : Nat) => Function.update s (i : Int) (i : Int))
        seq j
      = if 0 ≤ j ∧ j < (n : Int) then j else seq j := by
  induction n with
  | zero =>
    have h : ¬ (0 ≤ j ∧ j < ((0 : Nat) : Int)) := by omega
    rw [if_neg h]
    rfl
  | succ n ih =>
    rw [List.range_succ, List.foldl_append]
    simp only [List.foldl_cons, List.foldl_nil]
    by_cases hj : j = (n : Int)
    · subst hj
      have h : (0 : Int) ≤ (n : Int) ∧ (n : Int) < ((n + 1 : Nat) : Int) := by omega
      rw [if_pos h, Function.update_same]
    · rw [Function.update_noteq hj, ih]
      by_cases h1 : 0 ≤ j ∧ j < (n : Int)
      · have h : 0 ≤ j ∧ j < ((n + 1 : Nat) : Int) := by omega
        rw [if_pos h1, if_pos h]
      · have h : ¬ (0 ≤ j ∧ j < ((n + 1 : Nat) : Int)) := by omega
        rw [if_neg h1, if_neg h]

theorem MPMCRingBuffer.resetSeq_apply (N : Int) (seq : Int → Int) (j : Int) :
    MPMCRingBuffer.resetSeq N seq j = if 0 ≤ j ∧ j < N then j else seq j := by
  unfold MPMCRingBuffer.resetSeq
  rw [MPMCRingBuffer.resetSeq_range]
  by_cases h : 0 ≤ j ∧ j < N
  · have h2 : 0 ≤ j ∧ j < (N.toNat : Int) := by omega
    rw [if_pos h, if_pos h2]
  · have h2 : ¬ (0 ≤ j ∧ j < (N.toNat : Int)) := by omega
    rw [if_neg h, if_neg h2]

/-- C12: for each of the five bounded rings, every ring state, every capacity
parameter and every record `v`: right after `Enqueue(v)` the indexed read at
`GetLatestEntryIndex()` returns `v`, `GetLatestEntryToRead()` returns `v`,
and `GetLatestEntryIndex()` is the head before the call. -/
theorem enqueue_then_latest_reads_back (T : Type) (N : Int) (v : T) :
    (∀ r : SyncRingBuffer T N,
      (r.Enqueue v).get (r.Enqueue v).GetLatestEntryIndex = v ∧
      (r.Enqueue v).GetLatestEntryToRead = v ∧
      (r.Enqueue v).GetLatestEntryIndex = r.head) ∧
    (∀ r : CircularArray T N,
      (r.Enqueue v).get (r.Enqueue v).GetLatestEntryIndex = v ∧
      (r.Enqueue v).GetLatestEntryToRead = v ∧
      (r.Enqueue v).GetLatestEntryIndex = r.head) ∧
    (∀ r : SPSCRingBuffer T N,
      (r.Enqueue v).get (r.Enqueue v).GetLatestEntryIndex = v ∧
      (r.Enqueue v).GetLatestEntryToRead = v ∧
      (r.Enqueue v).GetLatestEntryIndex = r.head) ∧
    (∀ r : MPSCRingBuffer T N,
      (r.Enqueue v).get (r.Enqueue v).GetLatestEntryIndex = v ∧
      (r.Enqueue v).GetLatestEntryToRead = v ∧
      (r.Enqueue v).GetLatestEntryIndex = r.head) ∧
    (∀ r : MPMCRingBuffer T N,
      (r.Enqueue v).get (r.Enqueue v).GetLatestEntryIndex = v ∧
      (r.Enqueue v).GetLatestEntryToRead = v ∧
      (r.Enqueue v).GetLatestEntryIndex = r.head) := by
  refine ⟨?_, ?_, ?_, ?_, ?_⟩
  · intro r
    simp [SyncRingBuffer.Enqueue, SyncRingBuffer.get, SyncRingBuffer.GetLatestEntryToRead,
      SyncRingBuffer.GetLatestEntryIndex, SyncRingBuffer.mask, Locker.ctor]
  · intro r
    simp [CircularArray.Enqueue, CircularArray.get, CircularArray.GetLatestEntryToRead,
      CircularArray.GetLatestEntryIndex, CircularArray.mask, Locker.ctor]
  · intro r
    simp [SPSCRingBuffer.Enqueue, SPSCRingBuffer.get, SPSCRingBuffer.GetLatestEntryToRead,
      SPSCRingBuffer.GetLatestEntryIndex, SPSCRingBuffer.mask]
  · intro r
    simp [MPSCRingBuffer.Enqueue, MPSCRingBuffer.get, MPSCRingBuffer.GetLatestEntryToRead,
      MPSCRingBuffer.GetLatestEntryIndex, MPSCRingBuffer.mask]
  · intro r
    simp [MPMCRingBuffer.Enqueue, MPMCRingBuffer.get, MPMCRingBuffer.GetLatestEntryToRead,
      MPMCRingBuffer.GetLatestEntryIndex, MPMCRingBuffer.mask]

/-- C13: for each of the five bounded rings, every ring state, every capacity
parameter and every record `v`: after `Clear()`, `Size()` is 0, and the next
`Enqueue(v)` puts `v` in slot 0 of the storage array, leaves the other slots
as they were, and makes `GetLatestEntryIndex()` equal to 0. -/
theorem clear_then_enqueue_uses_slot_zero (T : Type) (N : Int) (v : T) :
    (∀ r : SyncRingBuffer T N,
      r.Clear.Size = 0 ∧ (r.Clear.Enqueue v).buffer = Function.update r.buffer 0 v ∧
      (r.Clear.Enqueue v).buffer 0 = v ∧ (r.Clear.Enqueue v).GetLatestEntryIndex = 0) ∧
    (∀ r : CircularArray T N,
      r.Clear.Size = 0 ∧ (r.Clear.Enqueue v).buffer = Function.update r.buffer 0 v ∧
      (r.Clear.Enqueue v).buffer 0 = v ∧ (r.Clear.Enqueue v).GetLatestEntryIndex = 0) ∧
    (∀ r : SPSCRingBuffer T N,
      r.Clear.Size = 0 ∧ (r.Clear.Enqueue v).buffer = Function.update r.buffer 0 v ∧
      (r.Clear.Enqueue v).buffer 0 = v ∧ (r.Clear.Enqueue v).GetLatestEntryIndex = 0) ∧
    (∀ r : MPSCRingBuffer T N,
      r.Clear.Size = 0 ∧ (r.Clear.Enqueue v).buffer = Function.update r.buffer 0 v ∧
      (r.Clear.Enqueue v).buffer 0 = v ∧ (r.Clear.Enqueue v).GetLatestEntryIndex = 0) ∧
    (∀ r : MPMCRingBuffer T N,
      r.Clear.Size = 0 ∧ (r.Clear.Enqueue v).buffer = Function.update r.buffer 0 v ∧
      (r.Clear.Enqueue v).buffer 0 = v ∧ (r.Clear.Enqueue v).GetLatestEntryIndex = 0) := by
  have hs : wrap32 0 = 0 := by decide
  refine ⟨?_, ?_, ?_, ?_, ?_⟩
  · intro r
    simp [SyncRingBuffer.Enqueue, SyncRingBuffer.Clear, SyncRingBuffer.Size,
      SyncRingBuffer.GetLatestEntryIndex, SyncRingBuffer.mask, Locker.ctor, int_zero_land, hs]
  · intro r
    simp [CircularArray.Enqueue, CircularArray.Clear, CircularArray.Size,
      CircularArray.GetLatestEntryIndex, CircularArray.mask, Locker.ctor, int_zero_land, hs]
  · intro r
    simp [SPSCRingBuffer.Enqueue, SPSCRingBuffer.Clear, SPSCRingBuffer.Size,
      SPSCRingBuffer.GetLatestEntryIndex, SPSCRingBuffer.mask, int_zero_land, hs]
  · intro r
    simp [MPSCRingBuffer.Enqueue, MPSCRingBuffer.Clear, MPSCRingBuffer.Size,
      MPSCRingBuffer.GetLatestEntryIndex, MPSCRingBuffer.mask, int_zero_land, hs]
  · intro r
    simp [MPMCRingBuffer.Enqueue, MPMCRingBuffer.Clear, MPMCRingBuffer.Size,
      MPMCRingBuffer.GetLatestEntryIndex, MPMCRingBuffer.mask, int_zero_land, hs]

/-- C14 (the code at the failing input): `MPSCRingBuffer::Clear()` resets the
cursors and leaves the ready flags.  On an MPSC ring with `N = 8`, after
`Enqueue(1)` and `Clear()` the flag of slot 0 is still set, and the stateful
`Dequeue` passes the record 1 to the callback and ends with `tail = 1`,
`head = 0` and `Size() = -1`.  The MPMC half of the claim holds: for every
`N > 0` and every state, after `Clear()` every slot has its own index as
sequence number, `Dequeue0` passes nothing and `Size()` stays 0. -/
theorem MPSC_clear_keeps_ready_flags :
    (((MPSCRingBuffer.fresh (fun _ => 0) : MPSCRingBuffer Nat 8).Enqueue 1).Clear
        ).buffer_status 0 = true ∧
    (((MPSCRingBuffer.fresh (fun _ => 0) : MPSCRingBuffer Nat 8).Enqueue 1).Clear.Dequeue).map
      (fun res => (res.2, res.1.head, res.1.tail, res.1.Size)) = some ([1], 0, 1, -1) ∧
    (∀ (T : Type) (N : Int) (r : MPMCRingBuffer T N), 0 < N →
      (∀ i : Int, 0 ≤ i → i < N → r.Clear.buffer_status i = i) ∧
      r.Clear.Dequeue0 = some (r.Clear, []) ∧ r.Clear.Size = 0) := by
  refine ⟨by decide, by decide, ?_⟩
  intro T N r hN
  refine ⟨?_, ?_, by simp [MPMCRingBuffer.Clear, MPMCRingBuffer.Size]; decide⟩
  · intro i h0 h1
    simp [MPMCRingBuffer.Clear, MPMCRingBuffer.resetSeq_apply, h0, h1]
  · have h00 : r.Clear.buffer_status 0 = 0 := by
      simp [MPMCRingBuffer.Clear, MPMCRingBuffer.resetSeq_apply, hN]
    have ht : r.Clear.tail = 0 := rfl
    unfold MPMCRingBuffer.Dequeue0
    simp [MPMCRingBuffer.Dequeue0Loop, ht, int_zero_land, h00]

/-- C15 (the code at the failing input): on a fresh MPSC ring with `N = 4`,
after four calls of `Enqueue` the stateful `Dequeue` returns with `tail = 5`
and `head = 4`, so `tail <= head` does not hold and `Size()` is `-1`; the
same happens after `Enqueue`, `Clear`, `Dequeue`, which ends with `tail = 1`
and `head = 0`. -/
theorem MPSC_tail_passes_head :
    (([1, 2, 3, 4].foldl MPSCRingBuffer.Enqueue
        (MPSCRingBuffer.fresh (fun _ => 0) : MPSCRingBuffer Nat 4)).Dequeue).map
      (fun res => (res.1.tail, res.1.head, decide (res.1.tail ≤ res.1.head), res.1.Size))
      = some (5, 4, false, -1) ∧
    (((MPSCRingBuffer.fresh (fun _ => 0) : MPSCRingBuffer Nat 4).Enqueue 1).Clear.Dequeue).map
      (fun res => (res.1.tail, res.1.head, decide (res.1.tail ≤ res.1.head), res.1.Size))
      = some (1, 0, false, -1) := by
  constructor <;> decide

end container
end trade

/-! ## The mask -/

theorem int_land_pow_two_sub_one (k : Nat) : ∀ i : Int, Int.land i (2 ^ k - 1) = i % 2 ^ k := by
  induction k with
  | zero =>
    intro i
    have h : (2 : Int) ^ 0 - 1 = 0 := by norm_num
    rw [h, int_land_zero]
    simp
  | succ k ih =>
    intro i
    have hi : i = Int.bit (Int.bodd i) (Int.div2 i) := (Int.bit_decomp i).symm
    have hm : (2 : Int) ^ (k + 1) - 1 = Int.bit true (2 ^ k - 1) := by
      rw [Int.bit_val]; simp only [cond_true]; ring
    have hpos : (0 : Int) < 2 ^ k := by positivity
    rw [hm]
    conv_lhs => rw [hi]
    rw [Int.land_bit, ih, Bool.and_true, Int.bit_val]
    have hd : Int.div2 i = i / 2 := Int.div2_val i
    have hb : (cond (Int.bodd i) 1 0 : Int) = i % 2 := by
      have := Int.bodd_add_div2 i
      rw [hd] at this
      cases hbo : Int.bodd i <;> simp only [hbo, cond_true, cond_false] at this ⊢ <;> omega
    rw [hb, hd]
    have h2 : (2 : Int) ^ (k + 1) = 2 * 2 ^ k := by ring
    rw [h2]
    -- i = 2 * (i / 2) + i % 2 and i / 2 = 2^k * q + r
    have e1 : i / 2 = 2 ^ k * (i / 2 / 2 ^ k) + i / 2 % 2 ^ k := (Int.ediv_add_emod _ _).symm
    have hr0 : 0 ≤ i / 2 % 2 ^ k := Int.emod_nonneg _ (ne_of_gt hpos)
    have hr1 : i / 2 % 2 ^ k < 2 ^ k := Int.emod_lt_of_pos _ hpos
    have hi2 : i = 2 * (i / 2) + i % 2 := (Int.ediv_add_emod _ _).symm
    have hb0 : 0 ≤ i % 2 := by omega
    have hb1 : i % 2 < 2 := by omega
    symm
    have key : i = (2 * (i / 2 % 2 ^ k) + i % 2) + (2 * 2 ^ k) * (i / 2 / 2 ^ k) := by
      conv_lhs => rw [hi2, e1]
      ring
    conv_lhs => rw [key]
    rw [Int.add_mul_emod_self_left]
    apply Int.emod_eq_of_lt
    · omega
    · nlinarith

theorem int_emod_eq_imp_eq (N p q : Int) (h : p % N = q % N) (hpq : q ≤ p)
    (hlt : p - q < N) : p = q := by
  have hd : N ∣ p - q := Int.ModEq.dvd (show q ≡ p [ZMOD N] from h.symm)
  obtain ⟨c, hc⟩ := hd
  have hN : 0 < N := by omega
  have hc0 : 0 ≤ c := by
    by_contra hneg
    have : c ≤ -1 := by omega
    nlinarith
  have hc1 : c < 1 := by
    by_contra hge
    have : 1 ≤ c := by omega
    nlinarith
  have : c = 0 := by omega
  subst this
  omega

theorem int_land_mask (N : Int) (k : Nat) (hN : N = 2 ^ k) (i : Int) :
    Int.land i (N - 1) = i % N := by
  subst hN
  exact int_land_pow_two_sub_one k i

theorem pow_two_pos (N : Int) (k : Nat) (hN : N = 2 ^ k) : 0 < N := by
  subst hN
  positivity

/-! ## Sequential runs -/

namespace trade
namespace container

theorem enqueued_append {T : Type} (a b : List (RingOp T)) :
    enqueued (a ++ b) = enqueued a ++ enqueued b := by
  induction a with
  | nil => rfl
  | cons op a ih => cases op <;> simp [enqueued, ih]

theorem RingCalls.run_hist {R T : Type} (I : RingCalls R T) (Inv : R → List T → Prop)
    (ok : R → Bool) (tail : R → Int)
    (henq : ∀ r h v, Inv r h → Inv (I.Enqueue r v) (h ++ [v]) ∧ tail (I.Enqueue r v) = tail r)
    (hdrain : ∀ r h, Inv r h → ok r = true →
      ∃ r1, I.Drain r = some (r1, h.drop (tail r).toNat) ∧ Inv r1 h ∧
        tail r1 = (h.length : Int))
    (htail : ∀ r h, Inv r h → 0 ≤ tail r ∧ tail r ≤ (h.length : Int)) :
    ∀ (ops : List (RingOp T)) (r : R) (h : List T), Inv r h → I.drainsWhen ok r ops = true →
      ∃ r1 seen, I.run r ops = some (r1, seen) ∧ Inv r1 (h ++ enqueued ops) ∧
        h.take (tail r).toNat ++ seen = (h ++ enqueued ops).take (tail r1).toNat := by
  intro ops
  induction ops with
  | nil =>
    intro r h hinv _
    exact ⟨r, [], rfl, by simpa [enqueued] using hinv, by simp [enqueued]⟩
  | cons op ops ih =>
    intro r h hinv hok
    cases op with
    | enqueue v =>
      simp only [RingCalls.drainsWhen] at hok
      obtain ⟨hi2, ht2⟩ := henq r h v hinv
      obtain ⟨r1, seen, hrun, hinv1, hseen⟩ := ih (I.Enqueue r v) (h ++ [v]) hi2 hok
      refine ⟨r1, seen, by simpa [RingCalls.run] using hrun, ?_, ?_⟩
      · simpa [enqueued, List.append_assoc] using hinv1
      · have hle := (htail r h hinv).2
        have h0 := (htail r h hinv).1
        rw [ht2] at hseen
        have htake : (h ++ [v]).take (tail r).toNat = h.take (tail r).toNat := by
          apply List.take_append_of_le_length
          omega
        rw [htake] at hseen
        simpa [enqueued, List.append_assoc] using hseen
    | drain =>
      simp only [RingCalls.drainsWhen, Bool.and_eq_true] at hok
      obtain ⟨hok1, hok2⟩ := hok
      obtain ⟨r2, hd, hinv2, ht2⟩ := hdrain r h hinv hok1
      rw [hd] at hok2
      simp only at hok2
      obtain ⟨r1, seen, hrun, hinv1, hseen⟩ := ih r2 h hinv2 hok2
      refine ⟨r1, h.drop (tail r).toNat ++ seen, ?_, ?_, ?_⟩
      · simp [RingCalls.run, hd, hrun]
      · simpa [enqueued] using hinv1
      · rw [ht2] at hseen
        simp only [Int.toNat_ofNat, List.take_length] at hseen
        rw [← List.append_assoc, List.take_append_drop]
        simpa [enqueued] using hseen

theorem RingCalls.alwaysWhen_drainsWhen {R T : Type} (I : RingCalls R T) (ok : R → Bool) :
    ∀ (ops : List (RingOp T)) (r : R), I.alwaysWhen ok r ops = true →
      I.drainsWhen ok r ops = true := by
  intro ops
  induction ops with
  | nil => intro r _; rfl
  | cons op ops ih =>
    intro r h
    cases op with
    | enqueue v =>
      simp only [RingCalls.alwaysWhen, Bool.and_eq_true] at h
      simpa [RingCalls.drainsWhen] using ih _ h.2
    | drain =>
      simp only [RingCalls.alwaysWhen, Bool.and_eq_true] at h
      simp only [RingCalls.drainsWhen, Bool.and_eq_true]
      refine ⟨h.1, ?_⟩
      cases hd : I.Drain r with
      | none => simp [hd] at h
      | some res =>
        simp only [hd] at h
        exact ih _ h.2

theorem RingCalls.alwaysWhen_final {R T : Type} (I : RingCalls R T) (ok : R → Bool) :
    ∀ (ops : List (RingOp T)) (r r1 : R) (seen : List T), I.alwaysWhen ok r ops = true →
      I.run r ops = some (r1, seen) → ok r1 = true := by
  intro ops
  induction ops with
  | nil =>
    intro r r1 seen h hrun
    simp only [RingCalls.run, Option.some.injEq, Prod.mk.injEq] at hrun
    rw [← hrun.1]
    simpa [RingCalls.alwaysWhen] using h
  | cons op ops ih =>
    intro r r1 seen h hrun
    cases op with
    | enqueue v =>
      simp only [RingCalls.alwaysWhen, Bool.and_eq_true] at h
      exact ih _ r1 seen h.2 (by simpa [RingCalls.run] using hrun)
    | drain =>
      simp only [RingCalls.alwaysWhen, Bool.and_eq_true] at h
      cases hd : I.Drain r with
      | none => simp [hd] at h
      | some res =>
        simp only [hd] at h
        simp only [RingCalls.run, hd, Option.some_bind, Option.map_eq_some'] at hrun
        obtain ⟨fin, hfin, hfe⟩ := hrun
        simp only [Prod.mk.injEq] at hfe
        exact ih _ r1 fin.2 h.2 (by rw [hfin, ← hfe.1])

end container
end trade

/-! ## The head-compared rings: SPSC, SyncRingBuffer, CircularArray -/

namespace trade
namespace container

open folly trade.concurrent

theorem SPSCRingBuffer.SPSC_DequeueFromLoop_eq {T : Type} {N : Int} (r : SPSCRingBuffer T N) :
    ∀ (m fuel : Nat) (c : Int), (r.head - c).toNat = m → m < fuel →
      r.DequeueFromLoop fuel c = some (max c r.head,
        (List.range m).map fun k : Nat => r.buffer (Int.land (c + (k : Int)) (N - 1))) := by
  intro m
  induction m with
  | zero =>
    intro fuel c hm hf
    obtain ⟨f, rfl⟩ : ∃ f, fuel = f + 1 := ⟨fuel - 1, by omega⟩
    have hc : ¬ c < r.head := by omega
    have hmax : max c r.head = c := max_eq_left (by omega)
    simp [SPSCRingBuffer.DequeueFromLoop, hc, hmax]
  | succ m ih =>
    intro fuel c hm hf
    obtain ⟨f, rfl⟩ : ∃ f, fuel = f + 1 := ⟨fuel - 1, by omega⟩
    have hc : c < r.head := by omega
    have hmax : max c r.head = r.head := max_eq_right (by omega)
    have hmax1 : max (c + 1) r.head = r.head := max_eq_right (by omega)
    have hrec := ih f (c + 1) (by omega) (by omega)
    simp only [SPSCRingBuffer.DequeueFromLoop, hc, if_true, hrec, Option.map_some', hmax,
      hmax1, SPSCRingBuffer.mask, List.range_succ_eq_map, List.map_cons, List.map_map]
    congr 3
    · simp
    · apply List.map_congr_left
      intro k _
      simp only [Function.comp, Nat.succ_eq_add_one, Nat.cast_add, Nat.cast_one]
      congr 2
      ring

theorem SPSCRingBuffer.DequeueLoop_eq {T : Type} {N : Int} :
    ∀ (m fuel : Nat) (r : SPSCRingBuffer T N), (r.head - r.tail).toNat = m → m < fuel →
      SPSCRingBuffer.DequeueLoop fuel r = some ({ r with tail := max r.tail r.head },
        (List.range m).map fun k : Nat => r.buffer (Int.land (r.tail + (k : Int)) (N - 1))) := by
  intro m
  induction m with
  | zero =>
    intro fuel r hm hf
    obtain ⟨f, rfl⟩ : ∃ f, fuel = f + 1 := ⟨fuel - 1, by omega⟩
    have hc : ¬ r.tail < r.head := by omega
    have hmax : max r.tail r.head = r.tail := max_eq_left (by omega)
    simp [SPSCRingBuffer.DequeueLoop, hc, hmax]
  | succ m ih =>
    intro fuel r hm hf
    obtain ⟨f, rfl⟩ : ∃ f, fuel = f + 1 := ⟨fuel - 1, by omega⟩
    have hc : r.tail < r.head := by omega
    have hmax : max r.tail r.head = r.head := max_eq_right (by omega)
    have hmax1 : max (r.tail + 1) r.head = r.head := max_eq_right (by omega)
    have hrec := ih f { r with tail := r.tail + 1 } (by simpa using (by omega)) (by omega)
    simp only [SPSCRingBuffer.DequeueLoop, hc, if_true, hrec, Option.map_some', hmax,
      hmax1, SPSCRingBuffer.mask, List.range_succ_eq_map, List.map_cons, List.map_map]
    congr 3
    · simp
    · apply List.map_congr_left
      intro k _
      simp only [Function.comp, Nat.succ_eq_add_one, Nat.cast_add, Nat.cast_one]
      congr 2
      ring

theorem window_eq_drop {T : Type} (N : Int) (k : Nat) (hN : N = 2 ^ k) (buffer : Int → T)
    (h : List T) (c : Int) (hc : 0 ≤ c) (hwin : (h.length : Int) - c ≤ N)
    (hbuf : ∀ n : Nat, n < h.length → (h.length : Int) ≤ (n : Int) + N →
      h[n]? = some (buffer ((n : Int) % N))) :
    ((List.range ((h.length : Int) - c).toNat).map
        fun i : Nat => buffer (Int.land (c + (i : Int)) (N - 1)))
      = h.drop c.toNat := by
  apply List.ext_getElem?
  intro i
  rw [List.getElem?_drop, List.getElem?_map]
  by_cases hi : i < ((h.length : Int) - c).toNat
  · rw [List.getElem?_range hi]
    have hn : c.toNat + i < h.length := by omega
    have hb := hbuf (c.toNat + i) hn (by omega)
    simp only [Option.map_some']
    rw [hb, hN, int_land_pow_two_sub_one]
    congr 3
    omega
  · have h1 : (List.range ((h.length : Int) - c).toNat)[i]? = none := by
      apply List.getElem?_eq_none
      simp only [List.length_range]
      omega
    have h2 : h[c.toNat + i]? = none := by
      apply List.getElem?_eq_none
      omega
    rw [h1, h2]
    rfl

theorem SPSCRingBuffer.SPSC_Hist_fresh {T : Type} {N : Int} (init : Int → T) :
    (SPSCRingBuffer.fresh init : SPSCRingBuffer T N).Hist [] := by
  refine ⟨rfl, le_refl _, le_refl _, ?_⟩
  intro n hn
  simp at hn

theorem hist_buffer_enqueue {T : Type} (N : Int) (k : Nat) (hN : N = 2 ^ k) (buffer : Int → T)
    (h : List T) (v : T)
    (hbuf : ∀ n : Nat, n < h.length → (h.length : Int) ≤ (n : Int) + N →
      h[n]? = some (buffer ((n : Int) % N))) :
    ∀ n : Nat, n < (h ++ [v]).length → ((h ++ [v]).length : Int) ≤ (n : Int) + N →
      (h ++ [v])[n]? =
        some (Function.update buffer (Int.land (h.length : Int) (N - 1)) v ((n : Int) % N)) := by
  intro n hn hw
  simp only [List.length_append, List.length_singleton] at hn hw
  rw [hN, int_land_pow_two_sub_one, ← hN]
  by_cases hlast : n = h.length
  · subst hlast
    rw [List.getElem?_concat_length, Function.update_same]
  · have hlt : n < h.length := by omega
    have hne : (n : Int) % N ≠ (h.length : Int) % N := by
      intro heq
      have := int_emod_eq_imp_eq N (h.length : Int) (n : Int) heq.symm (by omega)
        (by push_cast at hw; omega)
      omega
    rw [Function.update_noteq hne, List.getElem?_append_left hlt]
    exact hbuf n hlt (by push_cast at hw; omega)

theorem SPSCRingBuffer.SPSC_Hist_enqueue {T : Type} {N : Int} (k : Nat) (hN : N = 2 ^ k)
    (r : SPSCRingBuffer T N) (h : List T) (v : T) (hinv : r.Hist h) :
    (r.Enqueue v).Hist (h ++ [v]) ∧ (r.Enqueue v).tail = r.tail := by
  obtain ⟨hh, ht0, ht1, hbuf⟩ := hinv
  refine ⟨⟨?_, ht0, ?_, ?_⟩, rfl⟩
  · show r.head + 1 = ((h ++ [v]).length : Int)
    simp [hh]
  · show r.tail ≤ r.head + 1
    omega
  · show ∀ n : Nat, n < (h ++ [v]).length → ((h ++ [v]).length : Int) ≤ (n : Int) + N →
      (h ++ [v])[n]? = some (Function.update r.buffer (Int.land r.head (N - 1)) v ((n : Int) % N))
    rw [hh]
    exact hist_buffer_enqueue N k hN r.buffer h v hbuf

theorem SPSCRingBuffer.SPSC_Hist_drain {T : Type} {N : Int} (k : Nat) (hN : N = 2 ^ k)
    (r : SPSCRingBuffer T N) (h : List T) (hinv : r.Hist h) (hok : r.head - r.tail ≤ N) :
    r.Dequeue = some ({ r with tail := r.head }, h.drop r.tail.toNat) ∧
    ({ r with tail := r.head } : SPSCRingBuffer T N).Hist h := by
  obtain ⟨hh, ht0, ht1, hbuf⟩ := hinv
  have hmax : max r.tail r.head = r.head := max_eq_right ht1
  constructor
  · unfold SPSCRingBuffer.Dequeue
    rw [SPSCRingBuffer.DequeueLoop_eq (r.head - r.tail).toNat _ r rfl (by omega), hmax, hh,
      window_eq_drop N k hN r.buffer h r.tail ht0 (by omega) hbuf]
  · exact ⟨hh, by show 0 ≤ r.head; omega, le_refl _, hbuf⟩

end container
end trade

namespace trade
namespace container

open folly trade.concurrent

theorem SyncRingBuffer.Sync_DequeueFromLoop_toSPSC {T : Type} {N : Int} (r : SyncRingBuffer T N) :
    ∀ (fuel : Nat) (c : Int), r.DequeueFromLoop fuel c = r.toSPSC.DequeueFromLoop fuel c := by
  intro fuel
  induction fuel with
  | zero => intro c; rfl
  | succ f ih =>
    intro c
    simp only [SyncRingBuffer.DequeueFromLoop, SPSCRingBuffer.DequeueFromLoop, ih]
    rfl

theorem CircularArray.Circ_DequeueFromLoop_toSPSC {T : Type} {N : Int} (r : CircularArray T N) :
    ∀ (fuel : Nat) (c : Int), r.DequeueFromLoop fuel c = r.toSPSC.DequeueFromLoop fuel c := by
  intro fuel
  induction fuel with
  | zero => intro c; rfl
  | succ f ih =>
    intro c
    simp only [CircularArray.DequeueFromLoop, SPSCRingBuffer.DequeueFromLoop, ih]
    rfl

theorem SyncRingBuffer.Sync_DequeueLoop_toSPSC {T : Type} {N : Int} :
    ∀ (fuel : Nat) (r : SyncRingBuffer T N),
      SyncRingBuffer.DequeueLoop fuel r =
        (SPSCRingBuffer.DequeueLoop fuel r.toSPSC).map
          fun res => ({ r with tail := res.1.tail }, res.2) := by
  intro fuel
  induction fuel with
  | zero => intro r; rfl
  | succ f ih =>
    intro r
    simp only [SyncRingBuffer.DequeueLoop, SPSCRingBuffer.DequeueLoop, Locker.ctor, Locker.dtor,
      RWSpinLock.lock, RWSpinLock.unlock, SyncRingBuffer.toSPSC, SyncRingBuffer.mask,
      SPSCRingBuffer.mask]
    by_cases hc : r.tail < r.head
    · simp only [hc, if_true, ih, Option.map_map, SyncRingBuffer.toSPSC]
      rfl
    · simp only [hc, if_false, Option.map_some']

theorem CircularArray.Circ_DequeueLoop_toSPSC {T : Type} {N : Int} :
    ∀ (fuel : Nat) (r : CircularArray T N),
      CircularArray.DequeueLoop fuel r =
        (SPSCRingBuffer.DequeueLoop fuel r.toSPSC).map
          fun res => ({ r with tail := res.1.tail }, res.2) := by
  intro fuel
  induction fuel with
  | zero => intro r; rfl
  | succ f ih =>
    intro r
    simp only [CircularArray.DequeueLoop, SPSCRingBuffer.DequeueLoop, Locker.ctor, Locker.dtor,
      RWSpinLock.lock, RWSpinLock.unlock, CircularArray.toSPSC, CircularArray.mask,
      SPSCRingBuffer.mask]
    by_cases hc : r.tail < r.head
    · simp only [hc, if_true, ih, Option.map_map, CircularArray.toSPSC]
      rfl
    · simp only [hc, if_false, Option.map_some']

theorem SyncRingBuffer.Sync_Enqueue_eq {T : Type} {N : Int} (r : SyncRingBuffer T N) (v : T) :
    r.Enqueue v = { r with buffer := Function.update r.buffer (Int.land r.head (N - 1)) v
                           head := r.head + 1 } := rfl

theorem CircularArray.Circ_Enqueue_eq {T : Type} {N : Int} (r : CircularArray T N) (v : T) :
    r.Enqueue v = { r with buffer := Function.update r.buffer (Int.land r.head (N - 1)) v
                           head := r.head + 1 } := rfl

theorem SyncRingBuffer.Sync_Hist_step {T : Type} {N : Int} (k : Nat) (hN : N = 2 ^ k)
    (r : SyncRingBuffer T N) (h : List T) (hinv : r.toSPSC.Hist h) :
    (∀ v, (r.Enqueue v).toSPSC.Hist (h ++ [v]) ∧ (r.Enqueue v).tail = r.tail) ∧
    (r.head - r.tail ≤ N →
      r.Dequeue = some ({ r with tail := r.head }, h.drop r.tail.toNat) ∧
      ({ r with tail := r.head } : SyncRingBuffer T N).toSPSC.Hist h) := by
  constructor
  · intro v
    exact SPSCRingBuffer.SPSC_Hist_enqueue k hN r.toSPSC h v hinv
  · intro hok
    obtain ⟨hd, hi⟩ := SPSCRingBuffer.SPSC_Hist_drain k hN r.toSPSC h hinv hok
    refine ⟨?_, hi⟩
    unfold SyncRingBuffer.Dequeue
    unfold SPSCRingBuffer.Dequeue at hd
    rw [SyncRingBuffer.Sync_DequeueLoop_toSPSC]
    have e : (r.head - r.tail).toNat = (r.toSPSC.head - r.toSPSC.tail).toNat := rfl
    rw [e, hd]
    rfl

theorem CircularArray.Circ_Hist_step {T : Type} {N : Int} (k : Nat) (hN : N = 2 ^ k)
    (r : CircularArray T N) (h : List T) (hinv : r.toSPSC.Hist h) :
    (∀ v, (r.Enqueue v).toSPSC.Hist (h ++ [v]) ∧ (r.Enqueue v).tail = r.tail) ∧
    (r.head - r.tail ≤ N →
      r.Dequeue = some ({ r with tail := r.head }, h.drop r.tail.toNat) ∧
      ({ r with tail := r.head } : CircularArray T N).toSPSC.Hist h) := by
  constructor
  · intro v
    exact SPSCRingBuffer.SPSC_Hist_enqueue k hN r.toSPSC h v hinv
  · intro hok
    obtain ⟨hd, hi⟩ := SPSCRingBuffer.SPSC_Hist_drain k hN r.toSPSC h hinv hok
    refine ⟨?_, hi⟩
    unfold CircularArray.Dequeue
    unfold SPSCRingBuffer.Dequeue at hd
    rw [CircularArray.Circ_DequeueLoop_toSPSC]
    have e : (r.head - r.tail).toNat = (r.toSPSC.head - r.toSPSC.tail).toNat := rfl
    rw [e, hd]
    rfl

end container
end trade

/-! ## The MPMC ring -/

namespace trade
namespace container

theorem foldl_max_ge_init (l : List Int) : ∀ a : Int, a ≤ l.foldl max a := by
  induction l with
  | nil => intro a; exact le_refl _
  | cons x l ih => intro a; exact le_trans (le_max_left a x) (ih (max a x))

theorem foldl_max_ge_mem (l : List Int) : ∀ (a x : Int), x ∈ l → x ≤ l.foldl max a := by
  induction l with
  | nil => intro a x hx; simp at hx
  | cons y l ih =>
    intro a x hx
    rcases List.mem_cons.mp hx with rfl | hx
    · exact le_trans (le_max_right a x) (foldl_max_ge_init l (max a x))
    · exact ih (max a y) x hx

theorem MPMCRingBuffer.le_maxSeq {T : Type} {N : Int} (r : MPMCRingBuffer T N) (j : Int)
    (h0 : 0 ≤ j) (h1 : j < N) : r.buffer_status j ≤ r.maxSeq := by
  unfold MPMCRingBuffer.maxSeq
  apply foldl_max_ge_mem
  rw [List.mem_map]
  refine ⟨j.toNat, ?_, ?_⟩
  · rw [List.mem_range]; omega
  · congr 1; omega

theorem MPMCRingBuffer.maxSeq_nonneg {T : Type} {N : Int} (r : MPMCRingBuffer T N) :
    0 ≤ r.maxSeq := by
  unfold MPMCRingBuffer.maxSeq
  exact foldl_max_ge_init _ 0

theorem MPMCRingBuffer.Dequeue0Loop_eq {T : Type} {N : Int} (r : MPMCRingBuffer T N) :
    ∀ (fuel : Nat) (t : Int),
      MPMCRingBuffer.Dequeue0Loop fuel ({ r with tail := t } : MPMCRingBuffer T N) =
        (r.DequeueFromLoop fuel t).map
          fun res => (({ r with tail := res.1 } : MPMCRingBuffer T N), res.2) := by
  intro fuel
  induction fuel with
  | zero => intro t; rfl
  | succ f ih =>
    intro t
    simp only [MPMCRingBuffer.Dequeue0Loop, MPMCRingBuffer.DequeueFromLoop,
      MPMCRingBuffer.mask]
    by_cases hc : t < r.buffer_status (Int.land t (N - 1))
    · simp only [hc, if_true, ih, Option.map_map]
      rfl
    · simp only [hc, if_false, Option.map_some']

theorem MPMCRingBuffer.seq_at_head {T : Type} {N : Int} (k : Nat) (hN : N = 2 ^ k)
    (r : MPMCRingBuffer T N) (h : List T) (hinv : r.Hist h) :
    r.buffer_status (r.head % N) = r.head := by
  obtain ⟨hh, _, _, hwin, hfree⟩ := hinv
  have hpos : (0 : Int) < N := pow_two_pos N k hN
  by_cases hge : N ≤ r.head
  · have hn := (hwin (r.head - N).toNat (by omega) (by omega)).2
    have e : ((r.head - N).toNat : Int) = r.head - N := by omega
    rw [e] at hn
    have e2 : (r.head - N) % N = r.head % N := by
      have : r.head - N = r.head + N * (-1) := by ring
      rw [this, Int.add_mul_emod_self_left]
    rw [e2] at hn
    rw [hn]; ring
  · have e : r.head % N = r.head := Int.emod_eq_of_lt (by omega) (by omega)
    rw [e]
    exact hfree r.head (le_refl _) (by omega)

theorem MPMCRingBuffer.MPMC_DequeueFromLoop_eq {T : Type} {N : Int} (k : Nat) (hN : N = 2 ^ k)
    (r : MPMCRingBuffer T N) (h : List T) (hinv : r.Hist h) :
    ∀ (m fuel : Nat) (c : Int), 0 ≤ c → r.head - c ≤ N → (r.head - c).toNat = m →
      c ≤ r.head → m < fuel →
      r.DequeueFromLoop fuel c = some (r.head,
        (List.range m).map fun i : Nat => r.buffer (Int.land (c + (i : Int)) (N - 1))) := by
  have hpos : (0 : Int) < N := pow_two_pos N k hN
  have hat := MPMCRingBuffer.seq_at_head k hN r h hinv
  obtain ⟨hh, _, _, hwin, hfree⟩ := hinv
  intro m
  induction m with
  | zero =>
    intro fuel c hc0 hcN hm hle hf
    obtain ⟨f, rfl⟩ : ∃ f, fuel = f + 1 := ⟨fuel - 1, by omega⟩
    have hce : c = r.head := by omega
    subst hce
    have hmask : Int.land r.head (N - 1) = r.head % N := int_land_mask N k hN r.head
    simp [MPMCRingBuffer.DequeueFromLoop, MPMCRingBuffer.mask, hmask, hat]
  | succ m ih =>
    intro fuel c hc0 hcN hm hle hf
    obtain ⟨f, rfl⟩ : ∃ f, fuel = f + 1 := ⟨fuel - 1, by omega⟩
    have hmask : Int.land c (N - 1) = c % N := int_land_mask N k hN c
    have hs := (hwin c.toNat (by omega) (by omega)).2
    have e : (c.toNat : Int) = c := by omega
    rw [e] at hs
    have hcond : c < r.buffer_status (c % N) := by omega
    have hrec := ih f (c + 1) (by omega) (by omega) (by omega) (by omega) (by omega)
    simp only [MPMCRingBuffer.DequeueFromLoop, MPMCRingBuffer.mask, hmask, hcond, if_true,
      hrec, Option.map_some', List.range_succ_eq_map, List.map_cons, List.map_map]
    congr 3
    · simp [hmask]
    · apply List.map_congr_left
      intro i _
      simp only [Function.comp, Nat.succ_eq_add_one, Nat.cast_add, Nat.cast_one]
      congr 2
      ring

theorem MPMCRingBuffer.fuel_enough {T : Type} {N : Int} (k : Nat) (hN : N = 2 ^ k)
    (r : MPMCRingBuffer T N) (h : List T) (hinv : r.Hist h) (c : Int) (hc0 : 0 ≤ c) :
    (r.head - c).toNat < (r.maxSeq - c).toNat + 1 := by
  have hpos : (0 : Int) < N := pow_two_pos N k hN
  obtain ⟨hh, _, _, hwin, hfree⟩ := hinv
  by_cases hz : r.head ≤ 0
  · omega
  · have hs := (hwin (r.head - 1).toNat (by omega) (by omega)).2
    have e : ((r.head - 1).toNat : Int) = r.head - 1 := by omega
    rw [e] at hs
    have hj0 : 0 ≤ (r.head - 1) % N := Int.emod_nonneg _ (by omega)
    have hj1 : (r.head - 1) % N < N := Int.emod_lt_of_pos _ hpos
    have hle := MPMCRingBuffer.le_maxSeq r ((r.head - 1) % N) hj0 hj1
    omega

theorem MPMCRingBuffer.MPMC_Hist_fresh {T : Type} {N : Int} (init : Int → T) :
    (MPMCRingBuffer.fresh init : MPMCRingBuffer T N).Hist [] := by
  refine ⟨rfl, le_refl _, le_refl _, ?_, ?_⟩
  · intro n hn
    simp at hn
  · intro j hj0 hj1
    show MPMCRingBuffer.resetSeq N (fun _ => 0) j = j
    rw [MPMCRingBuffer.resetSeq_apply]
    have : 0 ≤ j ∧ j < N := ⟨hj0, hj1⟩
    rw [if_pos this]

theorem MPMCRingBuffer.MPMC_Hist_enqueue {T : Type} {N : Int} (k : Nat) (hN : N = 2 ^ k)
    (r : MPMCRingBuffer T N) (h : List T) (v : T) (hinv : r.Hist h) :
    (r.Enqueue v).Hist (h ++ [v]) ∧ (r.Enqueue v).tail = r.tail := by
  have hpos : (0 : Int) < N := pow_two_pos N k hN
  obtain ⟨hh, ht0, ht1, hwin, hfree⟩ := hinv
  have hmask : Int.land r.head (N - 1) = r.head % N := int_land_mask N k hN r.head
  refine ⟨⟨?_, ht0, ?_, ?_, ?_⟩, rfl⟩
  · show r.head + 1 = ((h ++ [v]).length : Int)
    simp [hh]
  · show r.tail ≤ r.head + 1
    omega
  · intro n hn hw
    constructor
    · show (h ++ [v])[n]? =
        some (Function.update r.buffer (Int.land r.head (N - 1)) v ((n : Int) % N))
      rw [hh]
      exact hist_buffer_enqueue N k hN r.buffer h v (fun n a b => (hwin n a b).1) n hn hw
    · show Function.update r.buffer_status (Int.land r.head (N - 1)) (r.head + N)
        ((n : Int) % N) = (n : Int) + N
      simp only [List.length_append, List.length_singleton] at hn hw
      rw [hmask]
      by_cases hlast : n = h.length
      · subst hlast
        rw [hh, Function.update_same]
      · have hlt : n < h.length := by omega
        have hne : (n : Int) % N ≠ r.head % N := by
          intro heq
          have := int_emod_eq_imp_eq N r.head (n : Int) heq.symm (by omega)
            (by push_cast at hw; omega)
          omega
        rw [Function.update_noteq hne]
        exact (hwin n hlt (by push_cast at hw; omega)).2
  · intro j hj0 hj1
    show Function.update r.buffer_status (Int.land r.head (N - 1)) (r.head + N) j = j
    have hj0' : r.head + 1 ≤ j := hj0
    have e : r.head % N = r.head := Int.emod_eq_of_lt (by omega) (by omega)
    rw [hmask, e, Function.update_noteq (by omega)]
    exact hfree j (by omega) hj1

theorem MPMCRingBuffer.MPMC_Hist_drain {T : Type} {N : Int} (k : Nat) (hN : N = 2 ^ k)
    (r : MPMCRingBuffer T N) (h : List T) (hinv : r.Hist h) (hok : r.head - r.tail ≤ N) :
    r.Dequeue0 = some ({ r with tail := r.head }, h.drop r.tail.toNat) ∧
    ({ r with tail := r.head } : MPMCRingBuffer T N).Hist h := by
  have hfuel := MPMCRingBuffer.fuel_enough k hN r h hinv r.tail hinv.2.1
  have hloop := MPMCRingBuffer.MPMC_DequeueFromLoop_eq k hN r h hinv (r.head - r.tail).toNat
    ((r.maxSeq - r.tail).toNat + 1) r.tail hinv.2.1 hok rfl hinv.2.2.1 hfuel
  obtain ⟨hh, ht0, ht1, hwin, hfree⟩ := hinv
  constructor
  · unfold MPMCRingBuffer.Dequeue0
    have e : r = ({ r with tail := r.tail } : MPMCRingBuffer T N) := rfl
    conv_lhs => rw [e]
    rw [MPMCRingBuffer.Dequeue0Loop_eq, hloop, hh,
      window_eq_drop N k hN r.buffer h r.tail ht0 (by omega) (fun n a b => (hwin n a b).1)]
    simp [hh]
  · exact ⟨hh, by show 0 ≤ r.head; omega, le_refl _, hwin, hfree⟩

end container
end trade

/-! ## The stateful drain after a sequential run -/

namespace trade
namespace container

theorem RingCalls.run_reach {R T : Type} (I : RingCalls R T) (Inv : R → List T → Prop)
    (henq : ∀ r h v, Inv r h → Inv (I.Enqueue r v) (h ++ [v]))
    (hdrain : ∀ r h, Inv r h → ∃ r1 out, I.Drain r = some (r1, out) ∧ Inv r1 h) :
    ∀ (ops : List (RingOp T)) (r : R) (h : List T), Inv r h →
      ∃ r1 seen, I.run r ops = some (r1, seen) ∧ Inv r1 (h ++ enqueued ops) := by
  intro ops
  induction ops with
  | nil =>
    intro r h hinv
    exact ⟨r, [], rfl, by simpa [enqueued] using hinv⟩
  | cons op ops ih =>
    intro r h hinv
    cases op with
    | enqueue v =>
      obtain ⟨r1, seen, hrun, hinv1⟩ := ih (I.Enqueue r v) (h ++ [v]) (henq r h v hinv)
      exact ⟨r1, seen, by simpa [RingCalls.run] using hrun,
        by simpa [enqueued, List.append_assoc] using hinv1⟩
    | drain =>
      obtain ⟨r2, out, hd, hinv2⟩ := hdrain r h hinv
      obtain ⟨r1, seen, hrun, hinv1⟩ := ih r2 h hinv2
      exact ⟨r1, out ++ seen, by simp [RingCalls.run, hd, hrun], by simpa [enqueued] using hinv1⟩

theorem wrap32_zero : wrap32 0 = 0 := by decide

theorem drop_length_int {T : Type} (h : List T) (hd tl : Int) (hh : hd = (h.length : Int))
    (h0 : 0 ≤ tl) (h1 : tl ≤ hd) : (h.drop tl.toNat).length = (hd - tl).toNat := by
  rw [List.length_drop]
  omega

theorem SPSCRingBuffer.SPSC_drain_after_run {T : Type} {N : Int} (k : Nat) (hN : N = 2 ^ k)
    (init : Int → T) (ops : List (RingOp T))
    (hok : (SPSCRingBuffer.calls T N).alwaysWhen (fun r => decide (r.head - r.tail ≤ N))
      (SPSCRingBuffer.fresh init) ops = true) :
    ∃ r seen, (SPSCRingBuffer.calls T N).run (SPSCRingBuffer.fresh init) ops = some (r, seen) ∧
      r.Dequeue = some ({ r with tail := r.head }, (enqueued ops).drop r.tail.toNat) ∧
      ((enqueued ops).drop r.tail.toNat).length = (r.head - r.tail).toNat ∧
      r.head = ((enqueued ops).length : Int) ∧ 0 ≤ r.tail ∧ r.tail ≤ r.head ∧
      ({ r with tail := r.head } : SPSCRingBuffer T N).Size = 0 := by
  obtain ⟨r, seen, hrun, hinv, _⟩ := RingCalls.run_hist (SPSCRingBuffer.calls T N)
    (fun r h => r.Hist h) (fun r => decide (r.head - r.tail ≤ N)) (fun r => r.tail)
    (fun r h v hi => SPSCRingBuffer.SPSC_Hist_enqueue k hN r h v hi)
    (fun r h hi ho => ⟨{ r with tail := r.head },
      (SPSCRingBuffer.SPSC_Hist_drain k hN r h hi (by simpa using ho)).1,
      (SPSCRingBuffer.SPSC_Hist_drain k hN r h hi (by simpa using ho)).2, hi.1⟩)
    (fun r h hi => ⟨hi.2.1, by have h1 := hi.1; have h2 := hi.2.2.1; show r.tail ≤ _; omega⟩)
    ops (SPSCRingBuffer.fresh init) [] (SPSCRingBuffer.SPSC_Hist_fresh init)
    (RingCalls.alwaysWhen_drainsWhen _ _ ops _ hok)
  have hfin := RingCalls.alwaysWhen_final _ _ ops _ r seen hok hrun
  simp only [List.nil_append] at hinv
  have hd := (SPSCRingBuffer.SPSC_Hist_drain k hN r _ hinv (by simpa using hfin)).1
  refine ⟨r, seen, hrun, hd, drop_length_int _ _ _ hinv.1 hinv.2.1 hinv.2.2.1, hinv.1,
    hinv.2.1, hinv.2.2.1, ?_⟩
  simp [SPSCRingBuffer.Size, wrap32_zero]

theorem SyncRingBuffer.Sync_drain_after_run {T : Type} {N : Int} (k : Nat) (hN : N = 2 ^ k)
    (init : Int → T) (ops : List (RingOp T))
    (hok : (SyncRingBuffer.calls T N).alwaysWhen (fun r => decide (r.head - r.tail ≤ N))
      (SyncRingBuffer.fresh init) ops = true) :
    ∃ r seen, (SyncRingBuffer.calls T N).run (SyncRingBuffer.fresh init) ops = some (r, seen) ∧
      r.Dequeue = some ({ r with tail := r.head }, (enqueued ops).drop r.tail.toNat) ∧
      ((enqueued ops).drop r.tail.toNat).length = (r.head - r.tail).toNat ∧
      r.head = ((enqueued ops).length : Int) ∧ 0 ≤ r.tail ∧ r.tail ≤ r.head ∧
      ({ r with tail := r.head } : SyncRingBuffer T N).Size = 0 := by
  obtain ⟨r, seen, hrun, hinv, _⟩ := RingCalls.run_hist (SyncRingBuffer.calls T N)
    (fun r h => r.toSPSC.Hist h) (fun r => decide (r.head - r.tail ≤ N)) (fun r => r.tail)
    (fun r h v hi => (SyncRingBuffer.Sync_Hist_step k hN r h hi).1 v)
    (fun r h hi ho => ⟨{ r with tail := r.head },
      ((SyncRingBuffer.Sync_Hist_step k hN r h hi).2 (by simpa using ho)).1,
      ((SyncRingBuffer.Sync_Hist_step k hN r h hi).2 (by simpa using ho)).2, hi.1⟩)
    (fun r h hi => ⟨hi.2.1, by have := hi.1; have := hi.2.2.1; exact le_of_le_of_eq this ‹_›⟩)
    ops (SyncRingBuffer.fresh init) [] (SPSCRingBuffer.SPSC_Hist_fresh init)
    (RingCalls.alwaysWhen_drainsWhen _ _ ops _ hok)
  have hfin := RingCalls.alwaysWhen_final _ _ ops _ r seen hok hrun
  simp only [List.nil_append] at hinv
  have hd := ((SyncRingBuffer.Sync_Hist_step k hN r _ hinv).2 (by simpa using hfin)).1
  refine ⟨r, seen, hrun, hd, drop_length_int _ _ _ hinv.1 hinv.2.1 hinv.2.2.1, hinv.1,
    hinv.2.1, hinv.2.2.1, ?_⟩
  simp [SyncRingBuffer.Size, wrap32_zero]

theorem CircularArray.Circ_drain_after_run {T : Type} {N : Int} (k : Nat) (hN : N = 2 ^ k)
    (init : Int → T) (ops : List (RingOp T))
    (hok : (CircularArray.calls T N).alwaysWhen (fun r => decide (r.head - r.tail ≤ N))
      (CircularArray.fresh init) ops = true) :
    ∃ r seen, (CircularArray.calls T N).run (CircularArray.fresh init) ops = some (r, seen) ∧
      r.Dequeue = some ({ r with tail := r.head }, (enqueued ops).drop r.tail.toNat) ∧
      ((enqueued ops).drop r.tail.toNat).length = (r.head - r.tail).toNat ∧
      r.head = ((enqueued ops).length : Int) ∧ 0 ≤ r.tail ∧ r.tail ≤ r.head ∧
      ({ r with tail := r.head } : CircularArray T N).Size = 0 := by
  obtain ⟨r, seen, hrun, hinv, _⟩ := RingCalls.run_hist (CircularArray.calls T N)
    (fun r h => r.toSPSC.Hist h) (fun r => decide (r.head - r.tail ≤ N)) (fun r => r.tail)
    (fun r h v hi => (CircularArray.Circ_Hist_step k hN r h hi).1 v)
    (fun r h hi ho => ⟨{ r with tail := r.head },
      ((CircularArray.Circ_Hist_step k hN r h hi).2 (by simpa using ho)).1,
      ((CircularArray.Circ_Hist_step k hN r h hi).2 (by simpa using ho)).2, hi.1⟩)
    (fun r h hi => ⟨hi.2.1, by have := hi.1; have := hi.2.2.1; exact le_of_le_of_eq this ‹_›⟩)
    ops (CircularArray.fresh init) [] (SPSCRingBuffer.SPSC_Hist_fresh init)
    (RingCalls.alwaysWhen_drainsWhen _ _ ops _ hok)
  have hfin := RingCalls.alwaysWhen_final _ _ ops _ r seen hok hrun
  simp only [List.nil_append] at hinv
  have hd := ((CircularArray.Circ_Hist_step k hN r _ hinv).2 (by simpa using hfin)).1
  refine ⟨r, seen, hrun, hd, drop_length_int _ _ _ hinv.1 hinv.2.1 hinv.2.2.1, hinv.1,
    hinv.2.1, hinv.2.2.1, ?_⟩
  simp [CircularArray.Size, wrap32_zero]

theorem MPMCRingBuffer.MPMC_drain_after_run {T : Type} {N : Int} (k : Nat) (hN : N = 2 ^ k)
    (init : Int → T) (ops : List (RingOp T))
    (hok : (MPMCRingBuffer.calls T N).alwaysWhen (fun r => decide (r.head - r.tail ≤ N))
      (MPMCRingBuffer.fresh init) ops = true) :
    ∃ r seen, (MPMCRingBuffer.calls T N).run (MPMCRingBuffer.fresh init) ops = some (r, seen) ∧
      r.Dequeue0 = some ({ r with tail := r.head }, (enqueued ops).drop r.tail.toNat) ∧
      ((enqueued ops).drop r.tail.toNat).length = (r.head - r.tail).toNat ∧
      r.head = ((enqueued ops).length : Int) ∧ 0 ≤ r.tail ∧ r.tail ≤ r.head ∧
      ({ r with tail := r.head } : MPMCRingBuffer T N).Size = 0 := by
  obtain ⟨r, seen, hrun, hinv, _⟩ := RingCalls.run_hist (MPMCRingBuffer.calls T N)
    (fun r h => r.Hist h) (fun r => decide (r.head - r.tail ≤ N)) (fun r => r.tail)
    (fun r h v hi => MPMCRingBuffer.MPMC_Hist_enqueue k hN r h v hi)
    (fun r h hi ho => ⟨{ r with tail := r.head },
      (MPMCRingBuffer.MPMC_Hist_drain k hN r h hi (by simpa using ho)).1,
      (MPMCRingBuffer.MPMC_Hist_drain k hN r h hi (by simpa using ho)).2, hi.1⟩)
    (fun r h hi => ⟨hi.2.1, by have h1 := hi.1; have h2 := hi.2.2.1; show r.tail ≤ _; omega⟩)
    ops (MPMCRingBuffer.fresh init) [] (MPMCRingBuffer.MPMC_Hist_fresh init)
    (RingCalls.alwaysWhen_drainsWhen _ _ ops _ hok)
  have hfin := RingCalls.alwaysWhen_final _ _ ops _ r seen hok hrun
  simp only [List.nil_append] at hinv
  have hd := (MPMCRingBuffer.MPMC_Hist_drain k hN r _ hinv (by simpa using hfin)).1
  refine ⟨r, seen, hrun, hd, drop_length_int _ _ _ hinv.1 hinv.2.1 hinv.2.2.1, hinv.1,
    hinv.2.1, hinv.2.2.1, ?_⟩
  simp [MPMCRingBuffer.Size, wrap32_zero]

end container
end trade

namespace trade
namespace container

/-- C16: for the SPSC ring, `SyncRingBuffer` and `CircularArray` (stateful
`Dequeue`) and for the MPMC ring (`Dequeue0`), with `N` a power of two: after
any sequential run of `Enqueue` calls and stateful drains from a fresh ring in
which `head - tail` never exceeds `N`, the run has returned, `tail <= head`
holds, and a stateful drain returns after passing to the callback exactly the
`head - tail` outstanding records, those enqueued at the positions `tail`,
..., `head - 1`, in that order; it leaves `tail = head`, so `Size()` is 0, and
changes neither the head nor the storage (nor the locks or the sequence
numbers). -/
theorem stateful_drain_is_fifo (T : Type) (N : Int) (k : Nat) (hN : N = 2 ^ k)
    (init : Int → T) (ops : List (RingOp T)) :
    ((SPSCRingBuffer.calls T N).alwaysWhen (fun r => decide (r.head - r.tail ≤ N))
        (SPSCRingBuffer.fresh init) ops = true →
      ∃ r seen,
        (SPSCRingBuffer.calls T N).run (SPSCRingBuffer.fresh init) ops = some (r, seen) ∧
        r.Dequeue = some ({ r with tail := r.head }, (enqueued ops).drop r.tail.toNat) ∧
        ((enqueued ops).drop r.tail.toNat).length = (r.head - r.tail).toNat ∧
        r.head = ((enqueued ops).length : Int) ∧ 0 ≤ r.tail ∧ r.tail ≤ r.head ∧
        ({ r with tail := r.head } : SPSCRingBuffer T N).Size = 0) ∧
    ((SyncRingBuffer.calls T N).alwaysWhen (fun r => decide (r.head - r.tail ≤ N))
        (SyncRingBuffer.fresh init) ops = true →
      ∃ r seen,
        (SyncRingBuffer.calls T N).run (SyncRingBuffer.fresh init) ops = some (r, seen) ∧
        r.Dequeue = some ({ r with tail := r.head }, (enqueued ops).drop r.tail.toNat) ∧
        ((enqueued ops).drop r.tail.toNat).length = (r.head - r.tail).toNat ∧
        r.head = ((enqueued ops).length : Int) ∧ 0 ≤ r.tail ∧ r.tail ≤ r.head ∧
        ({ r with tail := r.head } : SyncRingBuffer T N).Size = 0) ∧
    ((CircularArray.calls T N).alwaysWhen (fun r => decide (r.head - r.tail ≤ N))
        (CircularArray.fresh init) ops = true →
      ∃ r seen,
        (CircularArray.calls T N).run (CircularArray.fresh init) ops = some (r, seen) ∧
        r.Dequeue = some ({ r with tail := r.head }, (enqueued ops).drop r.tail.toNat) ∧
        ((enqueued ops).drop r.tail.toNat).length = (r.head - r.tail).toNat ∧
        r.head = ((enqueued ops).length : Int) ∧ 0 ≤ r.tail ∧ r.tail ≤ r.head ∧
        ({ r with tail := r.head } : CircularArray T N).Size = 0) ∧
    ((MPMCRingBuffer.calls T N).alwaysWhen (fun r => decide (r.head - r.tail ≤ N))
        (MPMCRingBuffer.fresh init) ops = true →
      ∃ r seen,
        (MPMCRingBuffer.calls T N).run (MPMCRingBuffer.fresh init) ops = some (r, seen) ∧
        r.Dequeue0 = some ({ r with tail := r.head }, (enqueued ops).drop r.tail.toNat) ∧
        ((enqueued ops).drop r.tail.toNat).length = (r.head - r.tail).toNat ∧
        r.head = ((enqueued ops).length : Int) ∧ 0 ≤ r.tail ∧ r.tail ≤ r.head ∧
        ({ r with tail := r.head } : MPMCRingBuffer T N).Size = 0) :=
  ⟨SPSCRingBuffer.SPSC_drain_after_run k hN init ops, SyncRingBuffer.Sync_drain_after_run k hN init ops,
    CircularArray.Circ_drain_after_run k hN init ops, MPMCRingBuffer.MPMC_drain_after_run k hN init ops⟩

/-- Witness of C16: on the MPMC ring with `N = 4`, two records are enqueued
and drained and a third is enqueued; the run stays within the capacity and a
drain then returns as the theorem says. -/
theorem stateful_drain_is_fifo_witness :
    (4 : Int) = 2 ^ 2 ∧
    (MPMCRingBuffer.calls Nat 4).alwaysWhen (fun r => decide (r.head - r.tail ≤ 4))
      (MPMCRingBuffer.fresh (fun _ => 0))
      [RingOp.enqueue 1, RingOp.enqueue 2, RingOp.drain, RingOp.enqueue 3] = true ∧
    ∃ r seen,
      (MPMCRingBuffer.calls Nat 4).run (MPMCRingBuffer.fresh (fun _ => 0))
        [RingOp.enqueue 1, RingOp.enqueue 2, RingOp.drain, RingOp.enqueue 3] = some (r, seen) ∧
      r.Dequeue0 = some ({ r with tail := r.head },
        (enqueued [RingOp.enqueue 1, RingOp.enqueue 2, RingOp.drain,
          RingOp.enqueue 3]).drop r.tail.toNat) ∧
      ((enqueued [RingOp.enqueue 1, RingOp.enqueue 2, RingOp.drain,
          RingOp.enqueue 3]).drop r.tail.toNat).length = (r.head - r.tail).toNat ∧
      r.head = ((enqueued [RingOp.enqueue 1, RingOp.enqueue 2, RingOp.drain,
          RingOp.enqueue 3]).length : Int) ∧ 0 ≤ r.tail ∧ r.tail ≤ r.head ∧
      ({ r with tail := r.head } : MPMCRingBuffer Nat 4).Size = 0 :=
  ⟨by norm_num, by decide,
    (stateful_drain_is_fifo Nat 4 2 (by norm_num) (fun _ => 0)
      [RingOp.enqueue 1, RingOp.enqueue 2, RingOp.drain, RingOp.enqueue 3]).2.2.2 (by decide)⟩

end container
end trade

/-! ## The cursor form -/

namespace trade
namespace container

theorem window_spec {T : Type} (f : Nat → T) (m : Nat) :
    ((List.range m).map f).length = m ∧
    ∀ i : Nat, i < m → ((List.range m).map f)[i]? = some (f i) := by
  refine ⟨by simp, ?_⟩
  intro i hi
  rw [List.getElem?_map, List.getElem?_range hi]
  rfl

theorem SPSCRingBuffer.SPSC_DequeueFrom_eq {T : Type} {N : Int} (r : SPSCRingBuffer T N) (c : Int) :
    r.DequeueFrom c = some (max c r.head,
      (List.range (r.head - c).toNat).map
        fun i : Nat => r.buffer (Int.land (c + (i : Int)) (N - 1))) :=
  SPSCRingBuffer.SPSC_DequeueFromLoop_eq r _ _ c rfl (by omega)

theorem SyncRingBuffer.Sync_DequeueFrom_eq {T : Type} {N : Int} (r : SyncRingBuffer T N) (c : Int) :
    r.DequeueFrom c = some (max c r.head,
      (List.range (r.head - c).toNat).map
        fun i : Nat => r.buffer (Int.land (c + (i : Int)) (N - 1))) := by
  unfold SyncRingBuffer.DequeueFrom
  rw [SyncRingBuffer.Sync_DequeueFromLoop_toSPSC]
  exact SPSCRingBuffer.SPSC_DequeueFromLoop_eq r.toSPSC _ _ c rfl (by omega)

theorem CircularArray.Circ_DequeueFrom_eq {T : Type} {N : Int} (r : CircularArray T N) (c : Int) :
    r.DequeueFrom c = some (max c r.head,
      (List.range (r.head - c).toNat).map
        fun i : Nat => r.buffer (Int.land (c + (i : Int)) (N - 1))) := by
  unfold CircularArray.DequeueFrom
  rw [CircularArray.Circ_DequeueFromLoop_toSPSC]
  exact SPSCRingBuffer.SPSC_DequeueFromLoop_eq r.toSPSC _ _ c rfl (by omega)

theorem SPSCRingBuffer.SPSC_Hist_any_drain {T : Type} {N : Int} (r : SPSCRingBuffer T N)
    (h : List T) (hinv : r.Hist h) :
    ∃ r1 out, r.Dequeue = some (r1, out) ∧ r1.Hist h ∧ r1 = { r with tail := r.head } := by
  obtain ⟨hh, ht0, ht1, hbuf⟩ := hinv
  have hmax : max r.tail r.head = r.head := max_eq_right ht1
  have hd : r.Dequeue = some ({ r with tail := r.head },
      (List.range (r.head - r.tail).toNat).map
        fun i : Nat => r.buffer (Int.land (r.tail + (i : Int)) (N - 1))) := by
    unfold SPSCRingBuffer.Dequeue
    rw [SPSCRingBuffer.DequeueLoop_eq (r.head - r.tail).toNat _ r rfl (by omega), hmax]
  have h0 : (0 : Int) ≤ r.head := by omega
  exact ⟨_, _, hd, ⟨hh, h0, le_refl _, hbuf⟩, rfl⟩

theorem SyncRingBuffer.Sync_Hist_any_drain {T : Type} {N : Int} (r : SyncRingBuffer T N)
    (h : List T) (hinv : r.toSPSC.Hist h) :
    ∃ r1 out, r.Dequeue = some (r1, out) ∧ r1.toSPSC.Hist h := by
  obtain ⟨r1, out, hd, hi, he⟩ := SPSCRingBuffer.SPSC_Hist_any_drain r.toSPSC h hinv
  refine ⟨{ r with tail := r.head }, out, ?_, by rw [he] at hi; exact hi⟩
  unfold SyncRingBuffer.Dequeue
  unfold SPSCRingBuffer.Dequeue at hd
  rw [SyncRingBuffer.Sync_DequeueLoop_toSPSC]
  have e : (r.head - r.tail).toNat = (r.toSPSC.head - r.toSPSC.tail).toNat := rfl
  rw [e, hd, he]
  rfl

theorem CircularArray.Circ_Hist_any_drain {T : Type} {N : Int} (r : CircularArray T N)
    (h : List T) (hinv : r.toSPSC.Hist h) :
    ∃ r1 out, r.Dequeue = some (r1, out) ∧ r1.toSPSC.Hist h := by
  obtain ⟨r1, out, hd, hi, he⟩ := SPSCRingBuffer.SPSC_Hist_any_drain r.toSPSC h hinv
  refine ⟨{ r with tail := r.head }, out, ?_, by rw [he] at hi; exact hi⟩
  unfold CircularArray.Dequeue
  unfold SPSCRingBuffer.Dequeue at hd
  rw [CircularArray.Circ_DequeueLoop_toSPSC]
  have e : (r.head - r.tail).toNat = (r.toSPSC.head - r.toSPSC.tail).toNat := rfl
  rw [e, hd, he]
  rfl

theorem SPSCRingBuffer.SPSC_Hist_cursor {T : Type} {N : Int} (k : Nat) (hN : N = 2 ^ k)
    (r : SPSCRingBuffer T N) (h : List T) (hinv : r.Hist h) (c : Int) (hc : 0 ≤ c)
    (hw : r.head - c ≤ N) :
    r.DequeueFrom c = some (max c r.head, h.drop c.toNat) := by
  obtain ⟨hh, _, _, hbuf⟩ := hinv
  rw [SPSCRingBuffer.SPSC_DequeueFrom_eq, hh, window_eq_drop N k hN r.buffer h c hc (by omega) hbuf]

/-- C18: for the SPSC ring, `SyncRingBuffer` and `CircularArray`, every ring
state, every capacity parameter and every cursor `c`: the cursor form
`Dequeue(c, callback)` returns `max(c, head)` after `max(0, head - c)` calls of
the callback, the call number `i` (from 0) receiving the record in slot
`(c + i) & (N - 1)`.  With `N` a power of two, after any sequential run of
`Enqueue` calls and stateful drains from a fresh ring, and for `c >= 0` with
`head - c <= N`, the records passed are those enqueued at the positions `c`,
..., `head - 1`, in that order. -/
theorem cursor_drain_result (T : Type) (N : Int) :
    (∀ (r : SPSCRingBuffer T N) (c : Int), ∃ out,
      r.DequeueFrom c = some (max c r.head, out) ∧ out.length = (r.head - c).toNat ∧
      ∀ i : Nat, i < (r.head - c).toNat →
        out[i]? = some (r.buffer (Int.land (c + (i : Int)) (N - 1)))) ∧
    (∀ (r : SyncRingBuffer T N) (c : Int), ∃ out,
      r.DequeueFrom c = some (max c r.head, out) ∧ out.length = (r.head - c).toNat ∧
      ∀ i : Nat, i < (r.head - c).toNat →
        out[i]? = some (r.buffer (Int.land (c + (i : Int)) (N - 1)))) ∧
    (∀ (r : CircularArray T N) (c : Int), ∃ out,
      r.DequeueFrom c = some (max c r.head, out) ∧ out.length = (r.head - c).toNat ∧
      ∀ i : Nat, i < (r.head - c).toNat →
        out[i]? = some (r.buffer (Int.land (c + (i : Int)) (N - 1)))) ∧
    (∀ (k : Nat), N = 2 ^ k → ∀ (init : Int → T) (ops : List (RingOp T)),
      (∃ r seen,
        (SPSCRingBuffer.calls T N).run (SPSCRingBuffer.fresh init) ops = some (r, seen) ∧
        r.head = ((enqueued ops).length : Int) ∧
        ∀ c : Int, 0 ≤ c → r.head - c ≤ N →
          r.DequeueFrom c = some (max c r.head, (enqueued ops).drop c.toNat)) ∧
      (∃ r seen,
        (SyncRingBuffer.calls T N).run (SyncRingBuffer.fresh init) ops = some (r, seen) ∧
        r.head = ((enqueued ops).length : Int) ∧
        ∀ c : Int, 0 ≤ c → r.head - c ≤ N →
          r.DequeueFrom c = some (max c r.head, (enqueued ops).drop c.toNat)) ∧
      (∃ r seen,
        (CircularArray.calls T N).run (CircularArray.fresh init) ops = some (r, seen) ∧
        r.head = ((enqueued ops).length : Int) ∧
        ∀ c : Int, 0 ≤ c → r.head - c ≤ N →
          r.DequeueFrom c = some (max c r.head, (enqueued ops).drop c.toNat))) := by
  refine ⟨?_, ?_, ?_, ?_⟩
  · intro r c
    exact ⟨_, SPSCRingBuffer.SPSC_DequeueFrom_eq r c, (window_spec _ _).1, (window_spec _ _).2⟩
  · intro r c
    exact ⟨_, SyncRingBuffer.Sync_DequeueFrom_eq r c, (window_spec _ _).1, (window_spec _ _).2⟩
  · intro r c
    exact ⟨_, CircularArray.Circ_DequeueFrom_eq r c, (window_spec _ _).1, (window_spec _ _).2⟩
  · intro k hN init ops
    refine ⟨?_, ?_, ?_⟩
    · obtain ⟨r, seen, hrun, hinv⟩ := RingCalls.run_reach (SPSCRingBuffer.calls T N)
        (fun r h => r.Hist h)
        (fun r h v hi => (SPSCRingBuffer.SPSC_Hist_enqueue k hN r h v hi).1)
        (fun r h hi => by
          obtain ⟨r1, out, hd, hi1, _⟩ := SPSCRingBuffer.SPSC_Hist_any_drain r h hi
          exact ⟨r1, out, hd, hi1⟩)
        ops (SPSCRingBuffer.fresh init) [] (SPSCRingBuffer.SPSC_Hist_fresh init)
      simp only [List.nil_append] at hinv
      exact ⟨r, seen, hrun, hinv.1,
        fun c hc hw => SPSCRingBuffer.SPSC_Hist_cursor k hN r _ hinv c hc hw⟩
    · obtain ⟨r, seen, hrun, hinv⟩ := RingCalls.run_reach (SyncRingBuffer.calls T N)
        (fun r h => r.toSPSC.Hist h)
        (fun r h v hi => ((SyncRingBuffer.Sync_Hist_step k hN r h hi).1 v).1)
        (fun r h hi => SyncRingBuffer.Sync_Hist_any_drain r h hi)
        ops (SyncRingBuffer.fresh init) [] (SPSCRingBuffer.SPSC_Hist_fresh init)
      simp only [List.nil_append] at hinv
      refine ⟨r, seen, hrun, hinv.1, fun c hc hw => ?_⟩
      have := SPSCRingBuffer.SPSC_Hist_cursor k hN r.toSPSC _ hinv c hc hw
      unfold SyncRingBuffer.DequeueFrom
      rw [SyncRingBuffer.Sync_DequeueFromLoop_toSPSC]
      exact this
    · obtain ⟨r, seen, hrun, hinv⟩ := RingCalls.run_reach (CircularArray.calls T N)
        (fun r h => r.toSPSC.Hist h)
        (fun r h v hi => ((CircularArray.Circ_Hist_step k hN r h hi).1 v).1)
        (fun r h hi => CircularArray.Circ_Hist_any_drain r h hi)
        ops (CircularArray.fresh init) [] (SPSCRingBuffer.SPSC_Hist_fresh init)
      simp only [List.nil_append] at hinv
      refine ⟨r, seen, hrun, hinv.1, fun c hc hw => ?_⟩
      have := SPSCRingBuffer.SPSC_Hist_cursor k hN r.toSPSC _ hinv c hc hw
      unfold CircularArray.DequeueFrom
      rw [CircularArray.Circ_DequeueFromLoop_toSPSC]
      exact this

end container
end trade

namespace trade
namespace container

/-- Witness of C18: on the SPSC ring with `N = 4`, after five records and no
drain, a cursor within the last four positions reads the records of its
positions. -/
theorem cursor_drain_result_witness :
    (4 : Int) = 2 ^ 2 ∧
    ∃ r seen,
      (SPSCRingBuffer.calls Nat 4).run (SPSCRingBuffer.fresh (fun _ => 0))
        [RingOp.enqueue 10, RingOp.enqueue 11, RingOp.enqueue 12, RingOp.enqueue 13,
          RingOp.enqueue 14] = some (r, seen) ∧
      r.head = ((enqueued [RingOp.enqueue 10, RingOp.enqueue 11, RingOp.enqueue 12,
        RingOp.enqueue 13, RingOp.enqueue 14]).length : Int) ∧
      ∀ c : Int, 0 ≤ c → r.head - c ≤ 4 →
        r.DequeueFrom c = some (max c r.head,
          (enqueued [RingOp.enqueue 10, RingOp.enqueue 11, RingOp.enqueue 12,
            RingOp.enqueue 13, RingOp.enqueue 14]).drop c.toNat) :=
  ⟨by norm_num,
    ((cursor_drain_result Nat 4).2.2.2 2 (by norm_num) (fun _ => 0)
      [RingOp.enqueue 10, RingOp.enqueue 11, RingOp.enqueue 12, RingOp.enqueue 13,
        RingOp.enqueue 14]).1⟩

theorem MPMCRingBuffer.Hist_foldl {T : Type} {N : Int} (k : Nat) (hN : N = 2 ^ k)
    (vs : List T) : ∀ (r : MPMCRingBuffer T N) (h : List T), r.Hist h →
      (vs.foldl MPMCRingBuffer.Enqueue r).Hist (h ++ vs) := by
  induction vs with
  | nil => intro r h hi; simpa using hi
  | cons v vs ih =>
    intro r h hi
    have := ih (r.Enqueue v) (h ++ [v]) (MPMCRingBuffer.MPMC_Hist_enqueue k hN r h v hi).1
    simpa [List.append_assoc] using this

theorem MPMCRingBuffer.MPMC_Hist_cursor {T : Type} {N : Int} (k : Nat) (hN : N = 2 ^ k)
    (r : MPMCRingBuffer T N) (h : List T) (hinv : r.Hist h) (c : Int) (hc : 0 ≤ c)
    (hle : c ≤ r.head) (hw : r.head - c ≤ N) :
    r.DequeueFrom c = some (r.head, h.drop c.toNat) := by
  have hfuel := MPMCRingBuffer.fuel_enough k hN r h hinv c hc
  unfold MPMCRingBuffer.DequeueFrom
  rw [MPMCRingBuffer.MPMC_DequeueFromLoop_eq k hN r h hinv (r.head - c).toNat _ c hc hw rfl hle hfuel]
  obtain ⟨hh, _, _, hwin, _⟩ := hinv
  rw [hh, window_eq_drop N k hN r.buffer h c hc (by omega) (fun n a b => (hwin n a b).1)]

/-- C20: a freshly constructed MPMC ring has the index of the slot as sequence
number in each of its `N` slots; `Enqueue(v)` with `p = head` writes `v` to
slot `p & (N - 1)`, sets the sequence number of that slot to `p + N`, makes
the head `p + 1`, and leaves the tail, every other slot and every other
sequence number as they were; and with `N` a power of two, after the
sequential calls `Enqueue(v)` for the records `vs` on a fresh ring, for every
cursor `c` with `0 <= c <= k <= c + N`, where `k` is the number of records,
`Dequeue(c, callback)` returns `k` after passing to the callback exactly the
records enqueued at the positions `c`, ..., `k - 1`, in that order (none on a
fresh ring). -/
theorem MPMC_sequence_protocol (T : Type) (N : Int) (init : Int → T) :
    (∀ i : Int, 0 ≤ i → i < N →
      (MPMCRingBuffer.fresh init : MPMCRingBuffer T N).buffer_status i = i) ∧
    (∀ (r : MPMCRingBuffer T N) (v : T),
      (r.Enqueue v).buffer (Int.land r.head (N - 1)) = v ∧
      (r.Enqueue v).buffer_status (Int.land r.head (N - 1)) = r.head + N ∧
      (r.Enqueue v).head = r.head + 1 ∧ (r.Enqueue v).tail = r.tail ∧
      ∀ j : Int, j ≠ Int.land r.head (N - 1) →
        (r.Enqueue v).buffer j = r.buffer j ∧
        (r.Enqueue v).buffer_status j = r.buffer_status j) ∧
    (∀ (k : Nat), N = 2 ^ k → ∀ (vs : List T) (c : Int),
      0 ≤ c → c ≤ (vs.length : Int) → (vs.length : Int) ≤ c + N →
      (vs.foldl MPMCRingBuffer.Enqueue (MPMCRingBuffer.fresh init : MPMCRingBuffer T N)
        ).DequeueFrom c = some ((vs.length : Int), vs.drop c.toNat)) := by
  refine ⟨?_, ?_, ?_⟩
  · intro i h0 h1
    show MPMCRingBuffer.resetSeq N (fun _ => 0) i = i
    rw [MPMCRingBuffer.resetSeq_apply, if_pos ⟨h0, h1⟩]
  · intro r v
    refine ⟨?_, ?_, rfl, rfl, ?_⟩
    · simp [MPMCRingBuffer.Enqueue, MPMCRingBuffer.mask]
    · simp [MPMCRingBuffer.Enqueue, MPMCRingBuffer.mask]
    · intro j hj
      simp [MPMCRingBuffer.Enqueue, MPMCRingBuffer.mask, Function.update_noteq hj]
  · intro k hN vs c hc0 hc1 hc2
    have hinv := MPMCRingBuffer.Hist_foldl k hN vs (MPMCRingBuffer.fresh init) []
      (MPMCRingBuffer.MPMC_Hist_fresh init)
    simp only [List.nil_append] at hinv
    have hh := hinv.1
    have := MPMCRingBuffer.MPMC_Hist_cursor k hN _ vs hinv c hc0 (by omega) (by omega)
    rw [this, hh]

/-- Witness of C20: on the MPMC ring with `N = 4`, after five records the
cursor 1 reads the records of the positions 1 to 4 and returns 5. -/
theorem MPMC_sequence_protocol_witness :
    (4 : Int) = 2 ^ 2 ∧
    ([10, 11, 12, 13, 14].foldl MPMCRingBuffer.Enqueue
        (MPMCRingBuffer.fresh (fun _ => 0) : MPMCRingBuffer Nat 4)).DequeueFrom 1
      = some ((([10, 11, 12, 13, 14] : List Nat).length : Int),
          ([10, 11, 12, 13, 14] : List Nat).drop (1 : Int).toNat) :=
  ⟨by norm_num,
    (MPMC_sequence_protocol Nat 4 (fun _ => 0)).2.2 2 (by norm_num) [10, 11, 12, 13, 14] 1
      (by decide) (by decide) (by decide)⟩

end container
end trade

/-! ## The MPSC ring below capacity -/

namespace trade
namespace container

theorem MPSCRingBuffer.MPSC_Hist_fresh {T : Type} {N : Int} (init : Int → T) :
    (MPSCRingBuffer.fresh init : MPSCRingBuffer T N).Hist [] := by
  refine ⟨rfl, le_refl _, le_refl _, ?_, ?_⟩
  · intro n hn
    simp at hn
  · intro j _ _
    constructor
    · intro hf
      simp [MPSCRingBuffer.fresh] at hf
    · rintro ⟨p, hp0, hp1, _⟩
      simp only [MPSCRingBuffer.fresh] at hp0 hp1
      omega

theorem MPSCRingBuffer.MPSC_Hist_enqueue {T : Type} {N : Int} (k : Nat) (hN : N = 2 ^ k)
    (r : MPSCRingBuffer T N) (h : List T) (v : T) (hinv : r.Hist h) :
    (r.Enqueue v).Hist (h ++ [v]) ∧ (r.Enqueue v).tail = r.tail := by
  have hpos : (0 : Int) < N := pow_two_pos N k hN
  obtain ⟨hh, ht0, ht1, hbuf, hfl⟩ := hinv
  have hmask : Int.land r.head (N - 1) = r.head % N := int_land_mask N k hN r.head
  refine ⟨⟨?_, ht0, ?_, ?_, ?_⟩, rfl⟩
  · show r.head + 1 = ((h ++ [v]).length : Int)
    simp [hh]
  · show r.tail ≤ r.head + 1
    omega
  · show ∀ n : Nat, n < (h ++ [v]).length → ((h ++ [v]).length : Int) ≤ (n : Int) + N →
      (h ++ [v])[n]? = some (Function.update r.buffer (Int.land r.head (N - 1)) v ((n : Int) % N))
    rw [hh]
    exact hist_buffer_enqueue N k hN r.buffer h v hbuf
  · intro j hj0 hj1
    show Function.update r.buffer_status (Int.land r.head (N - 1)) true j = true ↔
      ∃ p : Int, r.tail ≤ p ∧ p < r.head + 1 ∧ p % N = j
    rw [hmask]
    by_cases hj : j = r.head % N
    · subst hj
      rw [Function.update_same]
      exact ⟨fun _ => ⟨r.head, ht1, by omega, rfl⟩, fun _ => rfl⟩
    · rw [Function.update_noteq hj, hfl j hj0 hj1]
      constructor
      · rintro ⟨p, hp0, hp1, hp2⟩
        exact ⟨p, hp0, by omega, hp2⟩
      · rintro ⟨p, hp0, hp1, hp2⟩
        have hne : p ≠ r.head := by
          intro he
          rw [he] at hp2
          exact hj hp2.symm
        exact ⟨p, hp0, by omega, hp2⟩

theorem MPSCRingBuffer.DequeueLoop_spec {T : Type} {N : Int} (k : Nat) (hN : N = 2 ^ k)
    (h : List T) :
    ∀ (m fuel : Nat) (r : MPSCRingBuffer T N), r.Hist h → r.head - r.tail < N →
      (r.head - r.tail).toNat = m → m < fuel →
      ∃ r1, MPSCRingBuffer.DequeueLoop fuel r = some (r1, h.drop r.tail.toNat) ∧ r1.Hist h ∧
        r1.tail = r.head ∧ r1.head = r.head ∧ r1.buffer = r.buffer := by
  have hpos : (0 : Int) < N := pow_two_pos N k hN
  intro m
  induction m with
  | zero =>
    intro fuel r hinv hcap hm hf
    obtain ⟨f, rfl⟩ : ∃ f, fuel = f + 1 := ⟨fuel - 1, by omega⟩
    have hinv0 := hinv
    obtain ⟨hh, ht0, ht1, hbuf, hfl⟩ := hinv
    have hte : r.tail = r.head := by omega
    have hmask : Int.land r.tail (N - 1) = r.tail % N := int_land_mask N k hN r.tail
    have hflag : r.buffer_status (r.tail % N) = false := by
      rw [← Bool.not_eq_true]
      intro hf1
      obtain ⟨p, hp0, hp1, _⟩ := (hfl (r.tail % N) (Int.emod_nonneg _ (by omega))
        (Int.emod_lt_of_pos _ hpos)).mp hf1
      omega
    have hdrop : h.drop r.tail.toNat = [] := by
      apply List.drop_eq_nil_of_le
      omega
    refine ⟨r, ?_, hinv0, hte, rfl, rfl⟩
    simp only [MPSCRingBuffer.DequeueLoop, MPSCRingBuffer.mask, hmask, hflag, Bool.false_eq_true,
      if_false, hdrop]
  | succ m ih =>
    intro fuel r hinv hcap hm hf
    obtain ⟨f, rfl⟩ : ∃ f, fuel = f + 1 := ⟨fuel - 1, by omega⟩
    obtain ⟨hh, ht0, ht1, hbuf, hfl⟩ := hinv
    have hlt : r.tail < r.head := by omega
    have hmask : Int.land r.tail (N - 1) = r.tail % N := int_land_mask N k hN r.tail
    have hj0 : 0 ≤ r.tail % N := Int.emod_nonneg _ (by omega)
    have hj1 : r.tail % N < N := Int.emod_lt_of_pos _ hpos
    have hflag : r.buffer_status (r.tail % N) = true :=
      (hfl (r.tail % N) hj0 hj1).mpr ⟨r.tail, le_refl _, hlt, rfl⟩
    have hinv1 : ({ r with tail := r.tail + 1
                           buffer_status := Function.update r.buffer_status (r.tail % N) false }
        : MPSCRingBuffer T N).Hist h := by
      refine ⟨hh, ?_, ?_, hbuf, ?_⟩
      · show 0 ≤ r.tail + 1; omega
      · show r.tail + 1 ≤ r.head; omega
      · intro j hj0' hj1'
        show Function.update r.buffer_status (r.tail % N) false j = true ↔
          ∃ p : Int, r.tail + 1 ≤ p ∧ p < r.head ∧ p % N = j
        by_cases hj : j = r.tail % N
        · subst hj
          rw [Function.update_same]
          constructor
          · intro hft; simp at hft
          · rintro ⟨p, hp0, hp1, hp2⟩
            have := int_emod_eq_imp_eq N p r.tail hp2 (by omega) (by omega)
            omega
        · rw [Function.update_noteq hj, hfl j hj0' hj1']
          constructor
          · rintro ⟨p, hp0, hp1, hp2⟩
            have hne : p ≠ r.tail := by
              intro he
              rw [he] at hp2
              exact hj hp2.symm
            exact ⟨p, by omega, hp1, hp2⟩
          · rintro ⟨p, hp0, hp1, hp2⟩
            exact ⟨p, by omega, hp1, hp2⟩
    obtain ⟨r2, hd2, hi2, ht2, hh2, hb2⟩ := ih f _ hinv1 (by show r.head - (r.tail + 1) < N; omega)
      (by show (r.head - (r.tail + 1)).toNat = m; omega) (by omega)
    refine ⟨r2, ?_, hi2, ht2, hh2, hb2⟩
    have hn : r.tail.toNat < h.length := by omega
    have hrec := hbuf r.tail.toNat hn (by omega)
    have e : (r.tail.toNat : Int) = r.tail := by omega
    rw [e] at hrec
    have hget : h[r.tail.toNat] = r.buffer (r.tail % N) := by
      rw [List.getElem?_eq_getElem hn] at hrec
      exact Option.some.inj hrec
    have hdrop : h.drop r.tail.toNat = r.buffer (r.tail % N) :: h.drop (r.tail + 1).toNat := by
      rw [List.drop_eq_getElem_cons hn, hget]
      congr 2
      omega
    simp only [MPSCRingBuffer.DequeueLoop, MPSCRingBuffer.mask, hmask, hflag, if_true, hcap]
    have hd2' : MPSCRingBuffer.DequeueLoop f
        ({ r with tail := r.tail + 1
                  buffer_status := Function.update r.buffer_status (r.tail % N) false }
          : MPSCRingBuffer T N) = some (r2, h.drop (r.tail + 1).toNat) := hd2
    rw [hd2', hdrop]
    rfl

theorem MPSCRingBuffer.MPSC_Hist_drain {T : Type} {N : Int} (k : Nat) (hN : N = 2 ^ k)
    (r : MPSCRingBuffer T N) (h : List T) (hinv : r.Hist h) (hok : r.head - r.tail < N) :
    ∃ r1, r.Dequeue = some (r1, h.drop r.tail.toNat) ∧ r1.Hist h ∧ r1.tail = r.head ∧
      r1.head = r.head ∧ r1.buffer = r.buffer ∧
      (∀ j : Int, 0 ≤ j → j < N → r1.buffer_status j = false) := by
  have hpos : (0 : Int) < N := pow_two_pos N k hN
  have ht1 := hinv.2.2.1
  obtain ⟨r1, hd, hi1, ht, hh1, hb1⟩ := MPSCRingBuffer.DequeueLoop_spec k hN h
    (r.head - r.tail).toNat ((r.head - r.tail - N + 1).toNat + N.toNat + 1) r hinv hok rfl
    (by omega)
  refine ⟨r1, hd, hi1, ht, hh1, hb1, ?_⟩
  intro j hj0 hj1
  have hfl := hi1.2.2.2.2 j hj0 hj1
  rw [← Bool.not_eq_true, hfl]
  rintro ⟨p, hp0, hp1, _⟩
  omega

end container
end trade

namespace trade
namespace container

/-- C17: on the MPSC ring with `N` a power of two, after any sequential run of
`Enqueue` calls and stateful `Dequeue` calls from a fresh ring in which
`head - tail < N` holds each time `Dequeue` is entered, every `Dequeue` of the
run has returned and the records passed to the callbacks so far are the first
`tail` records enqueued, each once, in enqueue order; and a `Dequeue` entered
then with `head - tail < N` returns after passing exactly the outstanding
records, in enqueue order, leaving `tail = head`, `Size() = 0`, every ready
flag false, and the head and the storage as they were, so that all the
records enqueued have been passed exactly once. -/
theorem MPSC_delivery_below_capacity (T : Type) (N : Int) (k : Nat) (hN : N = 2 ^ k)
    (init : Int → T) (ops : List (RingOp T))
    (hok : (MPSCRingBuffer.calls T N).drainsWhen (fun r => decide (r.head - r.tail < N))
      (MPSCRingBuffer.fresh init) ops = true) :
    ∃ r seen,
      (MPSCRingBuffer.calls T N).run (MPSCRingBuffer.fresh init) ops = some (r, seen) ∧
      seen = (enqueued ops).take r.tail.toNat ∧
      r.head = ((enqueued ops).length : Int) ∧ 0 ≤ r.tail ∧ r.tail ≤ r.head ∧
      (r.head - r.tail < N →
        ∃ r1, r.Dequeue = some (r1, (enqueued ops).drop r.tail.toNat) ∧
          ((enqueued ops).drop r.tail.toNat).length = (r.head - r.tail).toNat ∧
          r1.tail = r1.head ∧ r1.head = r.head ∧ r1.buffer = r.buffer ∧
          (∀ j : Int, 0 ≤ j → j < N → r1.buffer_status j = false) ∧
          r1.Size = 0 ∧
          seen ++ (enqueued ops).drop r.tail.toNat = enqueued ops) := by
  obtain ⟨r, seen, hrun, hinv, hseen⟩ := RingCalls.run_hist (MPSCRingBuffer.calls T N)
    (fun r h => r.Hist h) (fun r => decide (r.head - r.tail < N)) (fun r => r.tail)
    (fun r h v hi => MPSCRingBuffer.MPSC_Hist_enqueue k hN r h v hi)
    (fun r h hi ho => by
      obtain ⟨r1, hd, hi1, ht, hh1, _, _⟩ :=
        MPSCRingBuffer.MPSC_Hist_drain k hN r h hi (by simpa using ho)
      exact ⟨r1, hd, hi1, by show r1.tail = _; rw [ht]; exact hi.1⟩)
    (fun r h hi => ⟨hi.2.1, by have h1 := hi.1; have h2 := hi.2.2.1; show r.tail ≤ _; omega⟩)
    ops (MPSCRingBuffer.fresh init) [] (MPSCRingBuffer.MPSC_Hist_fresh init) hok
  simp only [List.nil_append, List.take_nil] at hinv hseen
  refine ⟨r, seen, hrun, hseen, hinv.1, hinv.2.1, hinv.2.2.1, ?_⟩
  intro hcap
  obtain ⟨r1, hd, hi1, ht, hh1, hb1, hfl⟩ := MPSCRingBuffer.MPSC_Hist_drain k hN r _ hinv hcap
  refine ⟨r1, hd, drop_length_int _ _ _ hinv.1 hinv.2.1 hinv.2.2.1, by rw [ht, hh1], hh1, hb1,
    hfl, ?_, ?_⟩
  · simp [MPSCRingBuffer.Size, ht, hh1, wrap32_zero]
  · rw [hseen, List.take_append_drop]

/-- Witness of C17: on the MPSC ring with `N = 4`, three records are enqueued
and drained, and a fourth is enqueued and drained; each drain is entered with
fewer than four records outstanding. -/
theorem MPSC_delivery_below_capacity_witness :
    (4 : Int) = 2 ^ 2 ∧
    (MPSCRingBuffer.calls Nat 4).drainsWhen (fun r => decide (r.head - r.tail < 4))
      (MPSCRingBuffer.fresh (fun _ => 0))
      [RingOp.enqueue 1, RingOp.enqueue 2, RingOp.enqueue 3, RingOp.drain, RingOp.enqueue 4,
        RingOp.drain] = true ∧
    ((MPSCRingBuffer.calls Nat 4).run (MPSCRingBuffer.fresh (fun _ => 0))
      [RingOp.enqueue 1, RingOp.enqueue 2, RingOp.enqueue 3, RingOp.drain, RingOp.enqueue 4,
        RingOp.drain]).map (fun res => (res.2, res.1.head, res.1.tail))
      = some ([1, 2, 3, 4], 4, 4) ∧
    ∃ r seen,
      (MPSCRingBuffer.calls Nat 4).run (MPSCRingBuffer.fresh (fun _ => 0))
        [RingOp.enqueue 1, RingOp.enqueue 2, RingOp.enqueue 3, RingOp.drain, RingOp.enqueue 4,
          RingOp.drain] = some (r, seen) ∧
      seen = (enqueued [RingOp.enqueue 1, RingOp.enqueue 2, RingOp.enqueue 3, RingOp.drain,
        RingOp.enqueue 4, RingOp.drain]).take r.tail.toNat :=
  ⟨by norm_num, by decide, by decide,
    (MPSC_delivery_below_capacity Nat 4 2 (by norm_num) (fun _ => 0)
      [RingOp.enqueue 1, RingOp.enqueue 2, RingOp.enqueue 3, RingOp.drain, RingOp.enqueue 4,
        RingOp.drain] (by decide)).imp fun _ hr => hr.imp fun _ hs => ⟨hs.1, hs.2.1⟩⟩

end container
end trade

/-! ## The cursor form with a callback that leaves the record as it is -/

namespace trade
namespace container

open folly trade.concurrent

theorem list_set_self {T : Type} (l : List T) (n : Nat) (t : T) (h : l[n]? = some t) :
    l.set n t = l := by
  apply List.ext_getElem?
  intro j
  rw [List.getElem?_set]
  by_cases hj : n = j
  · subst hj
    have hlt : n < l.length := by
      by_contra hge
      rw [List.getElem?_eq_none (by omega)] at h
      exact Option.noConfusion h
    simp [hlt, h]
  · simp [hj]

theorem SPSCRingBuffer.SPSC_DequeueFromWithLoop_eq {T : Type} {N : Int} (action : T → T)
    (hact : ∀ t, action t = t) (r : SPSCRingBuffer T N) :
    ∀ (fuel : Nat) (c : Int), SPSCRingBuffer.DequeueFromWithLoop action fuel r c =
      (r.DequeueFromLoop fuel c).map fun res => (r, res.1, res.2) := by
  intro fuel
  induction fuel with
  | zero => intro c; rfl
  | succ f ih =>
    intro c
    simp only [SPSCRingBuffer.DequeueFromWithLoop, SPSCRingBuffer.DequeueFromLoop, hact,
      Function.update_eq_self]
    by_cases hc : c < r.head
    · simp only [hc, if_true, Option.map_map]
      rw [ih]
      simp only [Option.map_map]
      rfl
    · simp only [hc, if_false, Option.map_some']

theorem SyncRingBuffer.Sync_DequeueFromWithLoop_eq {T : Type} {N : Int} (action : T → T)
    (hact : ∀ t, action t = t) (r : SyncRingBuffer T N) :
    ∀ (fuel : Nat) (c : Int), SyncRingBuffer.DequeueFromWithLoop action fuel r c =
      (r.DequeueFromLoop fuel c).map fun res => (r, res.1, res.2) := by
  intro fuel
  induction fuel with
  | zero => intro c; rfl
  | succ f ih =>
    intro c
    simp only [SyncRingBuffer.DequeueFromWithLoop, SyncRingBuffer.DequeueFromLoop, hact,
      Function.update_eq_self]
    by_cases hc : c < r.head
    · simp only [hc, if_true, Option.map_map]
      rw [ih]
      simp only [Option.map_map]
      rfl
    · simp only [hc, if_false, Option.map_some']

theorem CircularArray.Circ_DequeueFromWithLoop_eq {T : Type} {N : Int} (action : T → T)
    (hact : ∀ t, action t = t) (r : CircularArray T N) :
    ∀ (fuel : Nat) (c : Int), CircularArray.DequeueFromWithLoop action fuel r c =
      (r.DequeueFromLoop fuel c).map fun res => (r, res.1, res.2) := by
  intro fuel
  induction fuel with
  | zero => intro c; rfl
  | succ f ih =>
    intro c
    simp only [CircularArray.DequeueFromWithLoop, CircularArray.DequeueFromLoop, hact,
      Function.update_eq_self]
    by_cases hc : c < r.head
    · simp only [hc, if_true, Option.map_map]
      rw [ih]
      simp only [Option.map_map]
      rfl
    · simp only [hc, if_false, Option.map_some']

theorem MPMCRingBuffer.MPMC_DequeueFromWithLoop_eq {T : Type} {N : Int} (action : T → T)
    (hact : ∀ t, action t = t) (r : MPMCRingBuffer T N) :
    ∀ (fuel : Nat) (c : Int), MPMCRingBuffer.DequeueFromWithLoop action fuel r c =
      (r.DequeueFromLoop fuel c).map fun res => (r, res.1, res.2) := by
  intro fuel
  induction fuel with
  | zero => intro c; rfl
  | succ f ih =>
    intro c
    simp only [MPMCRingBuffer.DequeueFromWithLoop, MPMCRingBuffer.DequeueFromLoop, hact,
      Function.update_eq_self]
    by_cases hc : c < r.buffer_status (Int.land c r.mask)
    · simp only [hc, if_true, Option.map_map]
      rw [ih]
      simp only [Option.map_map]
      rfl
    · simp only [hc, if_false, Option.map_some']

theorem MPMCRingBuffer.DequeueFromLoop_total {T : Type} {N : Int} (k : Nat) (hN : N = 2 ^ k)
    (r : MPMCRingBuffer T N) :
    ∀ (m fuel : Nat) (c : Int), (r.maxSeq - c).toNat = m → m < fuel →
      ∃ res, r.DequeueFromLoop fuel c = some res := by
  have hpos : (0 : Int) < N := pow_two_pos N k hN
  intro m
  induction m with
  | zero =>
    intro fuel c hm hf
    obtain ⟨f, rfl⟩ : ∃ f, fuel = f + 1 := ⟨fuel - 1, by omega⟩
    have hmask : Int.land c (N - 1) = c % N := int_land_mask N k hN c
    have hle := MPMCRingBuffer.le_maxSeq r (c % N) (Int.emod_nonneg _ (by omega))
      (Int.emod_lt_of_pos _ hpos)
    have hc : ¬ c < r.buffer_status (c % N) := by omega
    exact ⟨(c, []), by simp [MPMCRingBuffer.DequeueFromLoop, MPMCRingBuffer.mask, hmask, hc]⟩
  | succ m ih =>
    intro fuel c hm hf
    obtain ⟨f, rfl⟩ : ∃ f, fuel = f + 1 := ⟨fuel - 1, by omega⟩
    by_cases hc : c < r.buffer_status (Int.land c r.mask)
    · obtain ⟨res, hres⟩ := ih f (c + 1) (by omega) (by omega)
      exact ⟨(res.1, r.buffer (Int.land c r.mask) :: res.2), by
        simp only [MPMCRingBuffer.DequeueFromLoop, hc, if_true, hres, Option.map_some']⟩
    · exact ⟨(c, []), by simp only [MPMCRingBuffer.DequeueFromLoop, hc, if_false]⟩

theorem SyncList.SList_DequeueFromWithLoop_eq {T : Type} {N : Int} (action : T → T)
    (hact : ∀ t, action t = t) (r : SyncList T N) :
    ∀ (m fuel : Nat) (c : Int), ((r.buffer.length : Int) - c).toNat = m → m < fuel →
      SyncList.DequeueFromWithLoop action fuel r c =
        some (r, if 0 ≤ c then max c (r.buffer.length : Int) else c,
          if 0 ≤ c then r.buffer.drop c.toNat else []) := by
  intro m
  induction m with
  | zero =>
    intro fuel c hm hf
    obtain ⟨f, rfl⟩ : ∃ f, fuel = f + 1 := ⟨fuel - 1, by omega⟩
    have hc : ¬ (0 ≤ c ∧ c < (r.buffer.length : Int)) := by omega
    simp only [SyncList.DequeueFromWithLoop, hc, if_false]
    by_cases h0 : 0 ≤ c
    · have hmax : max c (r.buffer.length : Int) = c := max_eq_left (by omega)
      have hdrop : r.buffer.drop c.toNat = [] := List.drop_eq_nil_of_le (by omega)
      simp only [h0, if_true, hmax, hdrop]
    · simp only [h0, if_false]
  | succ m ih =>
    intro fuel c hm hf
    obtain ⟨f, rfl⟩ : ∃ f, fuel = f + 1 := ⟨fuel - 1, by omega⟩
    by_cases hc : 0 ≤ c ∧ c < (r.buffer.length : Int)
    · have hn : c.toNat < r.buffer.length := by omega
      have hget : r.buffer[c.toNat]? = some r.buffer[c.toNat] := List.getElem?_eq_getElem hn
      have hset : r.buffer.set c.toNat r.buffer[c.toNat] = r.buffer :=
        list_set_self _ _ _ hget
      have hrec := ih f (c + 1) (by omega) (by omega)
      have h1 : (0 : Int) ≤ c + 1 := by omega
      have hmax : max c (r.buffer.length : Int) = (r.buffer.length : Int) :=
        max_eq_right (by omega)
      have hmax1 : max (c + 1) (r.buffer.length : Int) = (r.buffer.length : Int) :=
        max_eq_right (by omega)
      have hdrop : r.buffer.drop c.toNat = r.buffer[c.toNat] :: r.buffer.drop (c + 1).toNat := by
        rw [List.drop_eq_getElem_cons hn]
        congr 2
        omega
      simp only [h1, if_true, hmax1] at hrec
      simp only [SyncList.DequeueFromWithLoop, hc, and_self, if_true, hget, hact, hset, hrec,
        Option.map_some', hc.1, hmax, hdrop]
    · have h0 : ¬ (0 ≤ c) := by omega
      simp only [SyncList.DequeueFromWithLoop, h0, false_and, if_false]

/-- C19: for the SPSC ring, `SyncRingBuffer`, `CircularArray`, the MPMC ring
and `SyncList`, every state and every cursor: with a callback that leaves the
record as it is, the cursor form `Dequeue(cursor, callback)` returns with the
container exactly as it was before the call (head, tail, every record, every
sequence number, the locks), so `Size()` is the same and a second drain from
the same cursor passes the same records and returns the same cursor; the
records passed and the cursor returned are those of the drain with an
observing callback.  For the MPMC ring the call is shown to return for `N` a
power of two. -/
theorem cursor_drain_is_read_only (T : Type) (N : Int) (action : T → T)
    (hact : ∀ t, action t = t) :
    (∀ (r : SPSCRingBuffer T N) (c : Int), ∃ c1 out,
      r.DequeueFromWith action c = some (r, c1, out) ∧ r.DequeueFrom c = some (c1, out)) ∧
    (∀ (r : SyncRingBuffer T N) (c : Int), ∃ c1 out,
      r.DequeueFromWith action c = some (r, c1, out) ∧ r.DequeueFrom c = some (c1, out)) ∧
    (∀ (r : CircularArray T N) (c : Int), ∃ c1 out,
      r.DequeueFromWith action c = some (r, c1, out) ∧ r.DequeueFrom c = some (c1, out)) ∧
    (∀ (r : MPMCRingBuffer T N) (c : Int),
      r.DequeueFromWith action c = (r.DequeueFrom c).map fun res => (r, res.1, res.2)) ∧
    (∀ (k : Nat), N = 2 ^ k → ∀ (r : MPMCRingBuffer T N) (c : Int), ∃ c1 out,
      r.DequeueFromWith action c = some (r, c1, out) ∧ r.DequeueFrom c = some (c1, out)) ∧
    (∀ (r : SyncList T N) (c : Int), ∃ c1 out,
      r.DequeueFromWith action c = some (r, c1, out)) := by
  refine ⟨?_, ?_, ?_, ?_, ?_, ?_⟩
  · intro r c
    have h := SPSCRingBuffer.SPSC_DequeueFrom_eq r c
    refine ⟨_, _, ?_, h⟩
    unfold SPSCRingBuffer.DequeueFromWith
    unfold SPSCRingBuffer.DequeueFrom at h
    rw [SPSCRingBuffer.SPSC_DequeueFromWithLoop_eq action hact, h]
    rfl
  · intro r c
    have h := SyncRingBuffer.Sync_DequeueFrom_eq r c
    refine ⟨_, _, ?_, h⟩
    unfold SyncRingBuffer.DequeueFromWith
    unfold SyncRingBuffer.DequeueFrom at h
    rw [SyncRingBuffer.Sync_DequeueFromWithLoop_eq action hact, h]
    rfl
  · intro r c
    have h := CircularArray.Circ_DequeueFrom_eq r c
    refine ⟨_, _, ?_, h⟩
    unfold CircularArray.DequeueFromWith
    unfold CircularArray.DequeueFrom at h
    rw [CircularArray.Circ_DequeueFromWithLoop_eq action hact, h]
    rfl
  · intro r c
    unfold MPMCRingBuffer.DequeueFromWith MPMCRingBuffer.DequeueFrom
    exact MPMCRingBuffer.MPMC_DequeueFromWithLoop_eq action hact r _ c
  · intro k hN r c
    obtain ⟨res, hres⟩ := MPMCRingBuffer.DequeueFromLoop_total k hN r (r.maxSeq - c).toNat
      ((r.maxSeq - c).toNat + 1) c rfl (by omega)
    refine ⟨res.1, res.2, ?_, hres⟩
    unfold MPMCRingBuffer.DequeueFromWith
    rw [MPMCRingBuffer.MPMC_DequeueFromWithLoop_eq action hact, hres]
    rfl
  · intro r c
    exact ⟨_, _, SyncList.SList_DequeueFromWithLoop_eq action hact r _ _ c rfl (by omega)⟩

/-- Witness of C19: the identity callback on an SPSC ring with `N = 4` that
holds one record; the drain from cursor 0 passes that record and returns the
ring it was given. -/
theorem cursor_drain_is_read_only_witness :
    (∀ t : Nat, id t = t) ∧
    ((SPSCRingBuffer.fresh (fun _ => 0) : SPSCRingBuffer Nat 4).Enqueue 7).DequeueFrom 0
      = some (1, [7]) ∧
    ∃ c1 out,
      ((SPSCRingBuffer.fresh (fun _ => 0) : SPSCRingBuffer Nat 4).Enqueue 7).DequeueFromWith
          id 0
        = some ((SPSCRingBuffer.fresh (fun _ => 0) : SPSCRingBuffer Nat 4).Enqueue 7, c1, out) ∧
      ((SPSCRingBuffer.fresh (fun _ => 0) : SPSCRingBuffer Nat 4).Enqueue 7).DequeueFrom 0
        = some (c1, out) :=
  ⟨fun _ => rfl, by decide,
    (cursor_drain_is_read_only Nat 4 id (fun _ => rfl)).1
      ((SPSCRingBuffer.fresh (fun _ => 0) : SPSCRingBuffer Nat 4).Enqueue 7) 0⟩

end container
end trade

/-! ## The capacity check -/

theorem nat_ldiff_self (a : Nat) : Nat.ldiff a a = 0 := by
  apply Nat.eq_of_testBit_eq
  intro i
  rw [Nat.testBit_ldiff, Nat.zero_testBit]
  cases a.testBit i <;> rfl

theorem nat_ldiff_pred (m : Nat) :
    0 < m → (Nat.ldiff m (m - 1) = m ↔ ∃ k : Nat, m = 2 ^ k) := by
  induction m using Nat.strong_induction_on with
  | _ m ih =>
    intro hm
    rcases Nat.even_or_odd' m with ⟨q, hq | hq⟩
    · have hq0 : 0 < q := by omega
      have e1 : m = Nat.bit false q := by simp [Nat.bit]; exact hq
      have e2 : m - 1 = Nat.bit true (q - 1) := by simp [Nat.bit]; omega
      have e3 : Nat.ldiff m (m - 1) = 2 * Nat.ldiff q (q - 1) := by
        rw [e2]
        nth_rewrite 1 [e1]
        rw [Nat.ldiff_bit]
        simp [Nat.bit]
      rw [e3]
      have ihq := ih q (by omega) hq0
      constructor
      · intro h
        have h2 : Nat.ldiff q (q - 1) = q := by omega
        obtain ⟨k, hk⟩ := ihq.mp h2
        exact ⟨k + 1, by rw [hq, hk, pow_succ]; ring⟩
      · rintro ⟨k, hk⟩
        cases k with
        | zero => simp at hk; omega
        | succ k =>
          have hq2 : q = 2 ^ k := by rw [pow_succ] at hk; omega
          have := ihq.mpr ⟨k, hq2⟩
          omega
    · have e1 : m = Nat.bit true q := by simp [Nat.bit]; exact hq
      have e2 : m - 1 = Nat.bit false q := by simp [Nat.bit]; omega
      have e3 : Nat.ldiff m (m - 1) = 1 := by
        rw [e2]
        nth_rewrite 1 [e1]
        rw [Nat.ldiff_bit, nat_ldiff_self]
        simp [Nat.bit]
      rw [e3]
      constructor
      · intro h
        exact ⟨0, by simp; omega⟩
      · rintro ⟨k, hk⟩
        cases k with
        | zero => simp at hk; omega
        | succ k => rw [pow_succ] at hk; omega

theorem int_lnot_add_one (N : Int) : Int.lnot N + 1 = -N := by
  cases N with
  | ofNat n => show Int.negSucc n + 1 = -(n : Int); rw [Int.negSucc_eq]; omega
  | negSucc n => show (n : Int) + 1 = -Int.negSucc n; rw [Int.negSucc_eq]; omega

theorem int_land_neg (N : Int) (h : 0 < N) :
    Int.land N (-N) = N ↔ ∃ k : Nat, N = 2 ^ k := by
  obtain ⟨n, rfl⟩ : ∃ n : Nat, N = ((n + 1 : Nat) : Int) := ⟨(N - 1).toNat, by omega⟩
  have e : -(((n + 1 : Nat)) : Int) = Int.negSucc n := by rw [Int.negSucc_eq]; omega
  rw [e]
  show ((Nat.ldiff (n + 1) n : Nat) : Int) = ((n + 1 : Nat) : Int) ↔ _
  have hp := nat_ldiff_pred (n + 1) (by omega)
  simp only [Nat.add_sub_cancel] at hp
  constructor
  · intro h1
    obtain ⟨k, hk⟩ := hp.mp (by exact_mod_cast h1)
    exact ⟨k, by rw [hk]; push_cast; rfl⟩
  · rintro ⟨k, hk⟩
    have : n + 1 = 2 ^ k := by exact_mod_cast hk
    have := hp.mpr ⟨k, this⟩
    exact_mod_cast this

theorem pow_two_lt_imp (k : Nat) (h : (2 : Int) ^ k < 2147483648) : k ≤ 30 := by
  by_contra hk
  have h31 : 31 ≤ k := by omega
  have : (2 : Int) ^ 31 ≤ 2 ^ k := pow_le_pow_right₀ (by norm_num) h31
  norm_num at this
  omega

theorem pow_two_le_imp (k : Nat) (h : k ≤ 30) : (2 : Int) ^ k < 2147483648 := by
  have : (2 : Int) ^ k ≤ 2 ^ 30 := pow_le_pow_right₀ (by norm_num) h
  norm_num at this
  omega

namespace trade
namespace container

theorem static_assert_N_iff (N : Int) (hN : isInt32 N) :
    static_assert_N N = true ↔ ∃ k : Nat, k ≤ 30 ∧ N = 2 ^ k := by
  obtain ⟨hlo, hhi⟩ := hN
  unfold static_assert_N
  rw [int_lnot_add_one]
  by_cases hpos : 0 < N
  · have hw : wrap32 (-N) = -N := by unfold wrap32; omega
    rw [hw]
    simp only [Bool.and_eq_true, decide_eq_true_eq, gt_iff_lt]
    constructor
    · rintro ⟨_, h⟩
      obtain ⟨k, hk⟩ := (int_land_neg N hpos).mp h
      exact ⟨k, pow_two_lt_imp k (by rw [← hk]; exact hhi), hk⟩
    · rintro ⟨k, _, hk⟩
      exact ⟨hpos, (int_land_neg N hpos).mpr ⟨k, hk⟩⟩
  · simp only [Bool.and_eq_true, decide_eq_true_eq, gt_iff_lt]
    constructor
    · rintro ⟨h, _⟩; exact absurd h hpos
    · rintro ⟨k, _, hk⟩
      exact absurd (pow_two_pos N k hk) hpos

/-- C22: for every 32-bit signed integer `N`, the condition of the
`static_assert` of the five bounded rings, `(N > 0) && ((N & (~N + 1)) == N)`,
holds if and only if `N = 2^k` for some `0 ≤ k ≤ 30`; in particular it fails
for `0` and for every negative `N`. -/
theorem capacity_check_iff_power_of_two (N : Int) (hN : isInt32 N) :
    (static_assert_N N = true ↔ ∃ k : Nat, k ≤ 30 ∧ N = 2 ^ k) ∧
    (N ≤ 0 → static_assert_N N = false) := by
  refine ⟨static_assert_N_iff N hN, ?_⟩
  intro h
  unfold static_assert_N
  have : ¬ N > 0 := by omega
  simp [this]

theorem capacity_check_iff_power_of_two_witness :
    isInt32 8 ∧
    ((static_assert_N 8 = true ↔ ∃ k : Nat, k ≤ 30 ∧ (8 : Int) = 2 ^ k) ∧
     ((8 : Int) ≤ 0 → static_assert_N 8 = false)) :=
  ⟨by decide, capacity_check_iff_power_of_two 8 (by decide)⟩

end container
end trade

/-! ## The mask and the indexed reads -/

namespace trade
namespace container

/-- C23: for every `N` the capacity check accepts and every position
`pos ≥ 0`, the physical index `pos & (N - 1)` is `pos mod N`, both for the
remainder `%` and for the remainder of C++, `Int.tmod`; the positions `pos` and
`pos + N` have the same physical index, any two different positions among
`pos, ..., pos + N - 1` have different ones, and `operator[]` of the SPSC ring
reads the slot `pos mod N`. -/
theorem mask_replaces_modulo (N : Int) (hN : isInt32 N) (hacc : static_assert_N N = true)
    (pos : Int) (hpos : 0 ≤ pos) :
    Int.land pos (N - 1) = pos % N ∧
    Int.land pos (N - 1) = Int.tmod pos N ∧
    Int.land (pos + N) (N - 1) = Int.land pos (N - 1) ∧
    (∀ a b : Int, pos ≤ a → a < b → b < pos + N →
      Int.land a (N - 1) ≠ Int.land b (N - 1)) ∧
    (∀ (T : Type) (r : SPSCRingBuffer T N),
      r.get pos = r.buffer (pos % N) ∧ r.get (pos + N) = r.get pos) := by
  obtain ⟨k, _, hk⟩ := (static_assert_N_iff N hN).mp hacc
  have e1 : Int.land (pos + N) (N - 1) = Int.land pos (N - 1) := by
    rw [int_land_mask N k hk, int_land_mask N k hk, Int.add_emod_self]
  have hN0 : 0 < N := pow_two_pos N k hk
  refine ⟨int_land_mask N k hk pos, ?_, e1, ?_, ?_⟩
  · rw [int_land_mask N k hk, Int.tmod_eq_emod hpos (by omega)]
  · intro a b _ hab hb h
    rw [int_land_mask N k hk, int_land_mask N k hk] at h
    have := int_emod_eq_imp_eq N b a h.symm (by omega) (by omega)
    omega
  · intro T r
    constructor
    · show r.buffer (Int.land pos (N - 1)) = _
      rw [int_land_mask N k hk]
    · show r.buffer (Int.land (pos + N) (N - 1)) = r.buffer (Int.land pos (N - 1))
      rw [e1]

theorem mask_replaces_modulo_witness :
    isInt32 4 ∧ static_assert_N 4 = true ∧ (0 : Int) ≤ 6 ∧
    (Int.land 6 (4 - 1) = 6 % 4 ∧
     Int.land 6 (4 - 1) = Int.tmod 6 4 ∧
     Int.land (6 + 4) (4 - 1) = Int.land 6 (4 - 1) ∧
     (∀ a b : Int, 6 ≤ a → a < b → b < 6 + 4 →
       Int.land a (4 - 1) ≠ Int.land b (4 - 1)) ∧
     (∀ (T : Type) (r : SPSCRingBuffer T 4),
       r.get 6 = r.buffer (6 % 4) ∧ r.get (6 + 4) = r.get 6)) :=
  ⟨by decide, (static_assert_N_iff 4 (by decide)).mpr ⟨2, by decide, by norm_num⟩, by decide,
    mask_replaces_modulo 4 (by decide)
      ((static_assert_N_iff 4 (by decide)).mpr ⟨2, by decide, by norm_num⟩) 6 (by decide)⟩

theorem neg_one_emod (N : Int) (h : 0 < N) : (-1 : Int) % N = N - 1 := by
  have e : (-1 : Int) % N = (-1 + N) % N := (@Int.add_emod_self (-1) N).symm
  rw [e, Int.emod_eq_of_lt (show (0 : Int) ≤ -1 + N by omega) (show -1 + N < N by omega)]
  omega

/-- C27: for every `N` the capacity check accepts and every index `i`,
negative ones included, `i & (N - 1)` lies in `[0, N)`, and `operator[](i)` of
each of the five bounded rings reads the slot of that number.  On a ring that
holds no record since its construction or its last `Clear()` (`head = 0`),
`GetLatestEntryIndex()` is `-1` and `GetLatestEntryToRead()` reads the slot
`N - 1`.  On a `SyncList` with an empty vector `GetLatestEntryIndex()` is `-1`
and `GetLatestEntryToRead()` returns the member `t`, as `operator[]` does at
every negative index whatever the vector holds; in a freshly constructed
list that member is the default-constructed record. -/
theorem indexed_reads_are_total (N : Int) (hN : isInt32 N) (hacc : static_assert_N N = true)
    (T : Type) :
    (∀ i : Int, ∃ j : Int, 0 ≤ j ∧ j < N ∧ Int.land i (N - 1) = j ∧
      (∀ r : SPSCRingBuffer T N, r.get i = r.buffer j) ∧
      (∀ r : MPSCRingBuffer T N, r.get i = r.buffer j) ∧
      (∀ r : SyncRingBuffer T N, r.get i = r.buffer j) ∧
      (∀ r : CircularArray T N, r.get i = r.buffer j) ∧
      (∀ r : MPMCRingBuffer T N, r.get i = r.buffer j)) ∧
    (∀ r : SPSCRingBuffer T N, r.head = 0 →
      r.GetLatestEntryIndex = -1 ∧ r.GetLatestEntryToRead = r.buffer (N - 1)) ∧
    (∀ r : MPSCRingBuffer T N, r.head = 0 →
      r.GetLatestEntryIndex = -1 ∧ r.GetLatestEntryToRead = r.buffer (N - 1)) ∧
    (∀ r : SyncRingBuffer T N, r.head = 0 →
      r.GetLatestEntryIndex = -1 ∧ r.GetLatestEntryToRead = r.buffer (N - 1)) ∧
    (∀ r : CircularArray T N, r.head = 0 →
      r.GetLatestEntryIndex = -1 ∧ r.GetLatestEntryToRead = r.buffer (N - 1)) ∧
    (∀ r : MPMCRingBuffer T N, r.head = 0 →
      r.GetLatestEntryIndex = -1 ∧ r.GetLatestEntryToRead = r.buffer (N - 1)) ∧
    (∀ (M : Int) (r : SyncList T M), r.buffer = [] →
      r.GetLatestEntryIndex = -1 ∧ r.GetLatestEntryToRead = some r.t) ∧
    (∀ (M : Int) (r : SyncList T M) (i : Int), i < 0 →
      r.get i = some r.t ∧
      ∀ buf : List T, ({ r with buffer := buf } : SyncList T M).get i = some r.t) ∧
    (∀ (M : Int) (t0 : T),
      (SyncList.fresh t0 : SyncList T M).GetLatestEntryIndex = -1 ∧
      (SyncList.fresh t0 : SyncList T M).GetLatestEntryToRead = some t0) := by
  obtain ⟨k, _, hk⟩ := (static_assert_N_iff N hN).mp hacc
  have hpos : 0 < N := pow_two_pos N k hk
  have hlast : Int.land (-1) (N - 1) = N - 1 := by
    rw [int_land_mask N k hk, neg_one_emod N hpos]
  refine ⟨?_, ?_, ?_, ?_, ?_, ?_, ?_, ?_, ?_⟩
  · intro i
    refine ⟨i % N, Int.emod_nonneg _ (by omega), Int.emod_lt_of_pos _ hpos,
      int_land_mask N k hk i, ?_, ?_, ?_, ?_, ?_⟩
    · intro r
      show r.buffer (Int.land i (N - 1)) = _
      rw [int_land_mask N k hk]
    · intro r
      show r.buffer (Int.land i (N - 1)) = _
      rw [int_land_mask N k hk]
    · intro r
      show r.buffer (Int.land i (N - 1)) = _
      rw [int_land_mask N k hk]
    · intro r
      show r.buffer (Int.land i (N - 1)) = _
      rw [int_land_mask N k hk]
    · intro r
      show r.buffer (Int.land i (N - 1)) = _
      rw [int_land_mask N k hk]
  · intro r h
    have e : r.GetLatestEntryIndex = -1 := by
      show r.head - 1 = -1
      omega
    refine ⟨e, ?_⟩
    show r.buffer (Int.land r.GetLatestEntryIndex (N - 1)) = _
    rw [e, hlast]
  · intro r h
    have e : r.GetLatestEntryIndex = -1 := by
      show r.head - 1 = -1
      omega
    refine ⟨e, ?_⟩
    show r.buffer (Int.land r.GetLatestEntryIndex (N - 1)) = _
    rw [e, hlast]
  · intro r h
    have e : r.GetLatestEntryIndex = -1 := by
      show r.head - 1 = -1
      omega
    refine ⟨e, ?_⟩
    show r.buffer (Int.land r.GetLatestEntryIndex (N - 1)) = _
    rw [e, hlast]
  · intro r h
    have e : r.GetLatestEntryIndex = -1 := by
      show r.head - 1 = -1
      omega
    refine ⟨e, ?_⟩
    show r.buffer (Int.land r.GetLatestEntryIndex (N - 1)) = _
    rw [e, hlast]
  · intro r h
    have e : r.GetLatestEntryIndex = -1 := by
      show r.head - 1 = -1
      omega
    refine ⟨e, ?_⟩
    show r.buffer (Int.land r.GetLatestEntryIndex (N - 1)) = _
    rw [e, hlast]
  · intro M r h
    have e : r.GetLatestEntryIndex = -1 := by
      show (r.buffer.length : Int) - 1 = -1
      rw [h]
      rfl
    refine ⟨e, ?_⟩
    show r.get r.GetLatestEntryIndex = _
    rw [e]
    rfl
  · intro M r i hi
    constructor
    · unfold SyncList.get
      rw [if_pos hi]
    · intro buf
      unfold SyncList.get
      rw [if_pos hi]
  · intro M t0
    exact ⟨rfl, rfl⟩

theorem indexed_reads_are_total_witness :
    isInt32 4 ∧ static_assert_N 4 = true ∧
    (∃ j : Int, 0 ≤ j ∧ j < 4 ∧ Int.land (-1) (4 - 1) = j ∧
      (∀ r : SPSCRingBuffer Nat 4, r.get (-1) = r.buffer j) ∧
      (∀ r : MPSCRingBuffer Nat 4, r.get (-1) = r.buffer j) ∧
      (∀ r : SyncRingBuffer Nat 4, r.get (-1) = r.buffer j) ∧
      (∀ r : CircularArray Nat 4, r.get (-1) = r.buffer j) ∧
      (∀ r : MPMCRingBuffer Nat 4, r.get (-1) = r.buffer j)) :=
  ⟨by decide, (static_assert_N_iff 4 (by decide)).mpr ⟨2, by decide, by norm_num⟩,
    (indexed_reads_are_total 4 (by decide)
      ((static_assert_N_iff 4 (by decide)).mpr ⟨2, by decide, by norm_num⟩) Nat).1 (-1)⟩

end container
end trade

/-! ## The promotion of a write lock to an upgrade lock -/

namespace folly
namespace RWSpinLock

/-- C24: for every value of the 32-bit lock word with the writer bit set,
after the first step of `unlock_and_lock_upgrade()` (OR the upgraded bit in)
and after the second step (subtract `WRITER`) the word has the writer bit or
the upgraded bit set; the final word has the upgraded bit set, the writer bit
clear and the reader field of the word it started from; from exactly `WRITER`
the result is exactly `UPGRADED`. -/
theorem promote_write_to_upgrade (l : RWSpinLock) (h32 : isInt32 l.bits_)
    (hw : writerBit l = true) :
    (writerBit (unlock_and_lock_upgrade_step1 l) = true ∨
      upgradedBit (unlock_and_lock_upgrade_step1 l) = true) ∧
    (writerBit (unlock_and_lock_upgrade l) = true ∨
      upgradedBit (unlock_and_lock_upgrade l) = true) ∧
    upgradedBit (unlock_and_lock_upgrade l) = true ∧
    writerBit (unlock_and_lock_upgrade l) = false ∧
    readerCount (unlock_and_lock_upgrade l) = readerCount l ∧
    (l.bits_ = WRITER → (unlock_and_lock_upgrade l).bits_ = UPGRADED) := by
  have hw1 := (writerBit_iff l).mp hw
  obtain ⟨hlo, hhi⟩ := h32
  have e1 : (unlock_and_lock_upgrade_step1 l).bits_
      = l.bits_ + 2 - (l.bits_ % 4 - l.bits_ % 2) := by
    show Int.lor l.bits_ 2 = _
    exact int_lor_two _
  have e2 : (unlock_and_lock_upgrade l).bits_
      = l.bits_ + 2 - (l.bits_ % 4 - l.bits_ % 2) - 1 := by
    show wrap32 ((unlock_and_lock_upgrade_step1 l).bits_ + -1) = _
    rw [e1]
    unfold wrap32
    omega
  refine ⟨Or.inl ?_, Or.inr ?_, ?_, ?_, ?_, ?_⟩
  · rw [writerBit_iff, e1]; omega
  · rw [upgradedBit_iff, e2]; omega
  · rw [upgradedBit_iff, e2]; omega
  · rw [writerBit_false_iff, e2]; omega
  · unfold readerCount READER
    rw [e2]
    omega
  · intro h
    unfold WRITER at h
    unfold UPGRADED
    rw [e2]
    omega

theorem promote_write_to_upgrade_witness :
    isInt32 (⟨9⟩ : RWSpinLock).bits_ ∧ writerBit ⟨9⟩ = true ∧
    ((writerBit (unlock_and_lock_upgrade_step1 ⟨9⟩) = true ∨
        upgradedBit (unlock_and_lock_upgrade_step1 ⟨9⟩) = true) ∧
      (writerBit (unlock_and_lock_upgrade ⟨9⟩) = true ∨
        upgradedBit (unlock_and_lock_upgrade ⟨9⟩) = true) ∧
      upgradedBit (unlock_and_lock_upgrade ⟨9⟩) = true ∧
      writerBit (unlock_and_lock_upgrade ⟨9⟩) = false ∧
      readerCount (unlock_and_lock_upgrade ⟨9⟩) = readerCount ⟨9⟩ ∧
      ((⟨9⟩ : RWSpinLock).bits_ = WRITER → (unlock_and_lock_upgrade ⟨9⟩).bits_ = UPGRADED)) :=
  ⟨by decide, by decide, promote_write_to_upgrade ⟨9⟩ (by decide) (by decide)⟩

end RWSpinLock
end folly

/-! ## The append-only list -/

namespace trade
namespace container

theorem SyncList.SList_foldl_buffer {T : Type} {N : Int} (vs : List T) :
    ∀ r : SyncList T N, (vs.foldl SyncList.Enqueue r).buffer = r.buffer ++ vs := by
  induction vs with
  | nil => intro r; simp
  | cons v vs ih =>
    intro r
    rw [List.foldl_cons, ih]
    show (r.buffer ++ [v]) ++ vs = _
    simp

theorem SyncList.SList_Enqueue_buffer {T : Type} {N : Int} (r : SyncList T N) (v : T) :
    (r.Enqueue v).buffer = r.buffer ++ [v] := rfl

theorem SyncList.SList_DequeueFrom_eq {T : Type} {N : Int} (r : SyncList T N) (c : Int)
    (hc : 0 ≤ c) :
    r.DequeueFrom c = some (max c (r.buffer.length : Int), r.buffer.drop c.toNat) := by
  unfold SyncList.DequeueFrom SyncList.DequeueFromWith
  rw [SyncList.SList_DequeueFromWithLoop_eq (fun t => t) (fun _ => rfl) r
    (((r.buffer.length : Int) - c).toNat) _ c rfl (by omega)]
  simp only [Option.map_some', if_pos hc]

theorem SyncList.SList_size_at_int_max (buf : List Nat) (h : buf.length = 2147483647) :
    (⟨buf, 0, folly.RWSpinLock.fresh⟩ : SyncList Nat 4).Size = 2147483647 ∧
    ((⟨buf, 0, folly.RWSpinLock.fresh⟩ : SyncList Nat 4).Enqueue 0).Size = -2147483648 := by
  constructor
  · unfold SyncList.Size
    simp only [h]
    decide
  · unfold SyncList.Size
    rw [SyncList.SList_Enqueue_buffer]
    simp only [List.length_append, List.length_singleton, h]
    decide

/-- C26, counterexample: on a list of `2^31 - 1` records `Size()`, an `int`, is
`2147483647`, and after one more `Enqueue` it is `-2147483648`, not one
more. -/
theorem SyncList_size_wraps_negative :
    (⟨List.replicate 2147483647 0, 0, folly.RWSpinLock.fresh⟩ : SyncList Nat 4).Size
      = 2147483647 ∧
    ((⟨List.replicate 2147483647 0, 0, folly.RWSpinLock.fresh⟩ : SyncList Nat 4).Enqueue 0).Size
      = -2147483648 :=
  SyncList.SList_size_at_int_max _ (List.length_replicate _ _)

/-- C26, amended: for every list state and record `v`, `Enqueue(v)` increases
`GetEndIndex()` by exactly 1 and, when the list holds fewer than `2^31 - 1`
records, `Size()` as well; the record at every index that was valid before is
the same afterwards; `operator[](GetLatestEntryIndex())` returns `v`; and on
the list built by `Enqueue(v1), ..., Enqueue(vk)` from a new list,
`Dequeue(0, callback)` passes `v1, ..., vk` in that order and returns `k`. -/
theorem SyncList_is_append_only {T : Type} {N : Int} (r : SyncList T N) (v : T) :
    (r.buffer.length < 2147483647 → (r.Enqueue v).Size = r.Size + 1) ∧
    (r.Enqueue v).GetEndIndex = r.GetEndIndex + 1 ∧
    (∀ i : Int, 0 ≤ i → i < r.GetEndIndex →
      ∃ x : T, r.get i = some x ∧ (r.Enqueue v).get i = some x) ∧
    (r.Enqueue v).get (r.Enqueue v).GetLatestEntryIndex = some v ∧
    (∀ (t0 : T) (vs : List T),
      (vs.foldl SyncList.Enqueue (SyncList.fresh t0 : SyncList T N)).DequeueFrom 0
        = some ((vs.length : Int), vs)) := by
  have hb : (r.Enqueue v).buffer = r.buffer ++ [v] := rfl
  refine ⟨?_, ?_, ?_, ?_, ?_⟩
  · intro hlen
    unfold SyncList.Size
    rw [hb, List.length_append]
    simp only [List.length_singleton, Nat.cast_add, Nat.cast_one]
    unfold wrap32
    omega
  · unfold SyncList.GetEndIndex
    rw [hb, List.length_append]
    simp
  · intro i h0 h1
    unfold SyncList.GetEndIndex at h1
    have hi : i.toNat < r.buffer.length := by omega
    refine ⟨r.buffer[i.toNat], ?_, ?_⟩
    · unfold SyncList.get
      rw [if_neg (by omega), List.getElem?_eq_getElem hi]
    · unfold SyncList.get
      rw [if_neg (by omega), hb, List.getElem?_append_left hi, List.getElem?_eq_getElem hi]
  · unfold SyncList.get SyncList.GetLatestEntryIndex
    rw [hb, List.length_append]
    simp only [List.length_singleton, Nat.cast_add, Nat.cast_one]
    rw [if_neg (by omega)]
    have e : ((r.buffer.length : Int) + 1 - 1).toNat = r.buffer.length := by omega
    rw [e]
    simp
  · intro t0 vs
    rw [SyncList.SList_DequeueFrom_eq _ 0 (le_refl 0), SyncList.SList_foldl_buffer]
    show some (max 0 ((([] : List T) ++ vs).length : Int), (([] : List T) ++ vs).drop 0) = _
    simp

theorem SyncList_is_append_only_witness :
    ((SyncList.fresh 0 : SyncList Nat 4).Enqueue 7).buffer.length < 2147483647 ∧
    (((SyncList.fresh 0 : SyncList Nat 4).Enqueue 7).Enqueue 8).Size
      = ((SyncList.fresh 0 : SyncList Nat 4).Enqueue 7).Size + 1 :=
  ⟨by decide,
    (SyncList_is_append_only ((SyncList.fresh 0 : SyncList Nat 4).Enqueue 7) 8).1 (by decide)⟩

end container
end trade

/-! ## The guards -/

namespace folly
namespace RWSpinLock

/-- C25 (the code at the failing input): on a new lock at address `a`, an
`UpgradedHolder` is taken (word `UPGRADED`), a `WriteHolder` is constructed
from it (word `WRITER`, the source guard holds `nullptr`), and a `ReadHolder`
is constructed from the `WriteHolder`.  The source guard holds `nullptr`, but
`unlock_and_lock_shared()` ends with the empty `unlock()`, so the word is
`READER + WRITER = 5`, not `READER`: the writer bit is still set beside one
reader, a `try_lock_shared()` of another caller returns false, and after the
destructors of all three guards the word is `WRITER`, not all-clear, so that
no `try_lock()` and no `try_lock_shared()` succeeds any more.  The rest of the
claim holds: every converting constructor gives the pointer to the new guard
and leaves `nullptr` in the source, whose destructor then changes no lock;
`ReadHolder(UpgradedHolder&&)` adds `READER - UPGRADED` to the word of the one
lock, `UpgradedHolder(WriteHolder&&)` sets the upgraded bit and subtracts
`WRITER` (from `WRITER` to `UPGRADED`), `WriteHolder(UpgradedHolder&&)` takes
the word from `UPGRADED` to `WRITER` at its first attempt; and on a new lock
an `UpgradedHolder` converted to a `ReadHolder` gives the words `UPGRADED`,
`READER`, and after both destructors, in either order, the word of a new
lock. -/
theorem write_guard_to_read_guard_keeps_writer_bit (mem : Nat → RWSpinLock) (a : Nat)
    (fuel : Nat) :
    (UpgradedHolder.ctor (fuel + 1) (some a) (Function.update mem a fresh)
        = some (⟨some a⟩, Function.update mem a ⟨2⟩) ∧
      WriteHolder.ctorUpgraded (fuel + 1) ⟨some a⟩ (Function.update mem a ⟨2⟩)
        = some (⟨some a⟩, ⟨none⟩, Function.update mem a ⟨1⟩) ∧
      ReadHolder.ctorWriter ⟨some a⟩ (Function.update mem a ⟨1⟩)
        = (⟨some a⟩, ⟨none⟩, Function.update mem a ⟨5⟩) ∧
      writerBit ⟨5⟩ = true ∧ readerCount ⟨5⟩ = 1 ∧ (try_lock_shared ⟨5⟩).1 = false ∧
      UpgradedHolder.dtor ⟨none⟩
          (WriteHolder.dtor ⟨none⟩ (ReadHolder.dtor ⟨some a⟩ (Function.update mem a ⟨5⟩)))
        = Function.update mem a ⟨1⟩ ∧
      (try_lock ⟨1⟩).1 = false ∧ (try_lock_shared ⟨1⟩).1 = false) ∧
    (ReadHolder.ctorUpgraded ⟨some a⟩ mem
        = (⟨some a⟩, ⟨none⟩, Function.update mem a ⟨wrap32 ((mem a).bits_ + 2)⟩) ∧
      ReadHolder.ctorWriter ⟨some a⟩ mem
        = (⟨some a⟩, ⟨none⟩, Function.update mem a ⟨wrap32 ((mem a).bits_ + 4)⟩) ∧
      UpgradedHolder.ctorWriter ⟨some a⟩ mem
        = (⟨some a⟩, ⟨none⟩,
            Function.update mem a ⟨wrap32 (Int.lor (mem a).bits_ 2 + -1)⟩) ∧
      UpgradedHolder.ctorWriter ⟨some a⟩ (Function.update mem a ⟨1⟩)
        = (⟨some a⟩, ⟨none⟩, Function.update mem a ⟨2⟩) ∧
      WriteHolder.ctorUpgraded fuel ⟨some a⟩ mem
        = (unlock_upgrade_and_lock_loop fuel (mem a)).map
            (fun l => (⟨some a⟩, ⟨none⟩, Function.update mem a l))) ∧
    (ReadHolder.ctorUpgraded ⟨none⟩ mem = (⟨none⟩, ⟨none⟩, mem) ∧
      ReadHolder.ctorWriter ⟨none⟩ mem = (⟨none⟩, ⟨none⟩, mem) ∧
      UpgradedHolder.ctorWriter ⟨none⟩ mem = (⟨none⟩, ⟨none⟩, mem) ∧
      WriteHolder.ctorUpgraded fuel ⟨none⟩ mem = some (⟨none⟩, ⟨none⟩, mem) ∧
      ReadHolder.dtor ⟨none⟩ mem = mem ∧ UpgradedHolder.dtor ⟨none⟩ mem = mem ∧
      WriteHolder.dtor ⟨none⟩ mem = mem) ∧
    (UpgradedHolder.ctor (fuel + 1) (some a) (Function.update mem a fresh)
        = some (⟨some a⟩, Function.update mem a ⟨2⟩) ∧
      ReadHolder.ctorUpgraded ⟨some a⟩ (Function.update mem a ⟨2⟩)
        = (⟨some a⟩, ⟨none⟩, Function.update mem a ⟨4⟩) ∧
      UpgradedHolder.dtor ⟨none⟩ (ReadHolder.dtor ⟨some a⟩ (Function.update mem a ⟨4⟩))
        = Function.update mem a fresh ∧
      ReadHolder.dtor ⟨some a⟩ (UpgradedHolder.dtor ⟨none⟩ (Function.update mem a ⟨4⟩))
        = Function.update mem a fresh) := by
  have hup : try_lock_upgrade fresh = (true, ⟨2⟩) := by decide
  have hcas : try_unlock_upgrade_and_lock ⟨2⟩ = (true, ⟨1⟩) := by decide
  have hdown : unlock_and_lock_shared ⟨1⟩ = ⟨5⟩ := by decide
  have hrel5 : unlock_shared ⟨5⟩ = ⟨1⟩ := by decide
  have hrel4 : unlock_shared ⟨4⟩ = fresh := by decide
  have hur : unlock_upgrade_and_lock_shared ⟨2⟩ = ⟨4⟩ := by decide
  have hwu : unlock_and_lock_upgrade ⟨1⟩ = ⟨2⟩ := by decide
  have hU : UpgradedHolder.ctor (fuel + 1) (some a) (Function.update mem a fresh)
      = some (⟨some a⟩, Function.update mem a ⟨2⟩) := by
    simp [UpgradedHolder.ctor, callLoop, lock_upgrade_loop, hup]
  refine ⟨⟨hU, ?_, ?_, by decide, by decide, by decide, ?_, by decide, by decide⟩,
    ⟨?_, ?_, ?_, ?_, ?_⟩, ⟨rfl, rfl, rfl, rfl, rfl, rfl, rfl⟩, ⟨hU, ?_, ?_, ?_⟩⟩
  · simp [WriteHolder.ctorUpgraded, callLoop, unlock_upgrade_and_lock_loop, hcas]
  · simp [ReadHolder.ctorWriter, call, hdown]
  · simp [ReadHolder.dtor, UpgradedHolder.dtor, WriteHolder.dtor, call, hrel5]
  · simp [ReadHolder.ctorUpgraded, call, unlock_upgrade_and_lock_shared, fetch_add, READER,
      UPGRADED]
  · simp [ReadHolder.ctorWriter, call, unlock_and_lock_shared, unlock, fetch_add, READER]
  · simp [UpgradedHolder.ctorWriter, call, unlock_and_lock_upgrade,
      unlock_and_lock_upgrade_step1, fetch_or, fetch_add, UPGRADED, WRITER]
  · simp [UpgradedHolder.ctorWriter, call, hwu]
  · cases h : unlock_upgrade_and_lock_loop fuel (mem a) <;>
      simp [WriteHolder.ctorUpgraded, callLoop, h]
  · simp [ReadHolder.ctorUpgraded, call, hur]
  · simp [ReadHolder.dtor, UpgradedHolder.dtor, call, hrel4]
  · simp [ReadHolder.dtor, UpgradedHolder.dtor, call, hrel4]

end RWSpinLock
end folly

/-! ## Producers that complete out of order -/

theorem int_emod_le_self (c N : Int) (hc : 0 ≤ c) (hN : 0 < N) : c % N ≤ c := by
  by_cases h : c < N
  · rw [Int.emod_eq_of_lt hc h]
  · have := Int.emod_lt_of_pos c hN
    omega

theorem int_emod_window (N p q : Int) (h : p % N = q % N) (h1 : p < q + N) (h2 : q < p + N) :
    p = q := by
  by_cases hle : q ≤ p
  · exact int_emod_eq_imp_eq N p q h hle (by omega)
  · exact (int_emod_eq_imp_eq N q p h.symm (by omega) (by omega)).symm

namespace trade
namespace container

theorem Producers.committed_iff {T : Type} {N : Int} (s : Producers T N) (p : Int) :
    s.committed p = true ↔ 0 ≤ p ∧ p < s.ring.head ∧ ∀ e ∈ s.inflight, e.1 ≠ p := by
  unfold Producers.committed
  simp only [Bool.and_eq_true, decide_eq_true_eq, List.all_eq_true, and_assoc]

theorem Producers.Prod_Inv_init {T : Type} {N : Int} (init : Int → T) :
    (Producers.init init : Producers T N).Inv := by
  refine ⟨rfl, ?_, ?_⟩
  · intro e he
    simp [Producers.init] at he
  · intro j h0 h1
    left
    show MPMCRingBuffer.resetSeq N (fun _ => 0) j = j
    rw [MPMCRingBuffer.resetSeq_apply, if_pos ⟨h0, h1⟩]

theorem Producers.Prod_Window_init {T : Type} {N : Int} (init : Int → T) :
    (Producers.init init : Producers T N).Window := by
  refine ⟨?_, ?_⟩
  · intro e he
    simp [Producers.init] at he
  · intro p hp _
    rw [Producers.committed_iff] at hp
    have : (Producers.init init : Producers T N).ring.head = 0 := rfl
    omega

theorem Producers.Prod_Inv_claim {T : Type} {N : Int} (s : Producers T N) (t : T)
    (hinv : s.Inv) :
    (⟨s.ring.claim.2, s.inflight ++ [(s.ring.claim.1, t)], s.records ++ [t]⟩ :
      Producers T N).Inv := by
  obtain ⟨ha, hb, hc⟩ := hinv
  refine ⟨?_, ?_, ?_⟩
  · show s.ring.head + 1 = ((s.records ++ [t]).length : Int)
    rw [List.length_append, List.length_singleton]
    push_cast
    omega
  · intro e he
    show 0 ≤ e.1 ∧ e.1 < s.ring.head + 1 ∧ (s.records ++ [t])[e.1.toNat]? = some e.2
    rcases List.mem_append.mp he with h | h
    · obtain ⟨h0, h1, h2⟩ := hb e h
      refine ⟨h0, by omega, ?_⟩
      rw [List.getElem?_append_left (by omega)]
      exact h2
    · have he2 : e = (s.ring.head, t) := by simpa using h
      subst he2
      refine ⟨by show 0 ≤ s.ring.head; omega, by show s.ring.head < s.ring.head + 1; omega, ?_⟩
      show (s.records ++ [t])[s.ring.head.toNat]? = some t
      have e3 : s.ring.head.toNat = s.records.length := by omega
      rw [e3, List.getElem?_concat_length]
  · intro j h0 h1
    rcases hc j h0 h1 with h | ⟨p, hp, hcm, hseq, hrec⟩
    · exact Or.inl h
    · refine Or.inr ⟨p, hp, ?_, hseq, ?_⟩
      · rw [Producers.committed_iff] at hcm ⊢
        obtain ⟨c0, c1, c2⟩ := hcm
        refine ⟨c0, by show p < s.ring.head + 1; omega, ?_⟩
        intro e he
        rcases List.mem_append.mp he with h | h
        · exact c2 e h
        · have he2 : e = (s.ring.head, t) := by simpa using h
          subst he2
          show s.ring.head ≠ p
          omega
      · rw [Producers.committed_iff] at hcm
        show (s.records ++ [t])[p.toNat]? = some (s.ring.buffer j)
        rw [List.getElem?_append_left (by omega)]
        exact hrec

theorem Producers.Prod_Inv_commit {T : Type} {N : Int} (k : Nat) (hN : N = 2 ^ k)
    (s : Producers T N) (p : Int) (e : Int × T) (he : e ∈ s.inflight) (hep : e.1 = p)
    (hinv : s.Inv) :
    (⟨s.ring.commit e.1 e.2, s.inflight.filter (fun e => decide (e.1 ≠ p)), s.records⟩ :
      Producers T N).Inv := by
  have hpos : (0 : Int) < N := pow_two_pos N k hN
  obtain ⟨ha, hb, hc⟩ := hinv
  have hmask : Int.land e.1 (N - 1) = e.1 % N := int_land_mask N k hN e.1
  have hsub : ∀ e2, e2 ∈ s.inflight.filter (fun e => decide (e.1 ≠ p)) →
      e2 ∈ s.inflight ∧ e2.1 ≠ p := by
    intro e2 h2
    have := List.mem_filter.mp h2
    exact ⟨this.1, by simpa using this.2⟩
  refine ⟨ha, ?_, ?_⟩
  · intro e2 h2
    exact hb e2 (hsub e2 h2).1
  · intro j h0 h1
    by_cases hj : j = e.1 % N
    · refine Or.inr ⟨e.1, hj.symm, ?_, ?_, ?_⟩
      · rw [Producers.committed_iff]
        obtain ⟨b0, b1, _⟩ := hb e he
        refine ⟨b0, b1, ?_⟩
        intro e2 h2
        rw [hep]
        exact (hsub e2 h2).2
      · show Function.update s.ring.buffer_status (Int.land e.1 (N - 1)) (e.1 + N) j = e.1 + N
        rw [hmask, hj, Function.update_same]
      · show s.records[e.1.toNat]?
          = some (Function.update s.ring.buffer (Int.land e.1 (N - 1)) e.2 j)
        rw [hmask, hj, Function.update_same]
        exact (hb e he).2.2
    · have hseq : Function.update s.ring.buffer_status (Int.land e.1 (N - 1)) (e.1 + N) j
          = s.ring.buffer_status j := by
        rw [hmask, Function.update_noteq hj]
      have hbuf : Function.update s.ring.buffer (Int.land e.1 (N - 1)) e.2 j
          = s.ring.buffer j := by
        rw [hmask, Function.update_noteq hj]
      rcases hc j h0 h1 with h | ⟨q, hq, hcm, hs, hrec⟩
      · left
        show Function.update s.ring.buffer_status (Int.land e.1 (N - 1)) (e.1 + N) j = j
        rw [hseq]
        exact h
      · refine Or.inr ⟨q, hq, ?_, ?_, ?_⟩
        · rw [Producers.committed_iff] at hcm ⊢
          obtain ⟨c0, c1, c2⟩ := hcm
          exact ⟨c0, c1, fun e2 h2 => c2 e2 (hsub e2 h2).1⟩
        · show Function.update s.ring.buffer_status (Int.land e.1 (N - 1)) (e.1 + N) j = q + N
          rw [hseq]
          exact hs
        · show s.records[q.toNat]?
            = some (Function.update s.ring.buffer (Int.land e.1 (N - 1)) e.2 j)
          rw [hbuf]
          exact hrec

theorem Producers.Prod_Window_claim {T : Type} {N : Int} (hpos : 0 < N) (s : Producers T N)
    (t : T) (hw : s.Window) (hok : s.stepOk (.claim t) = true) :
    (⟨s.ring.claim.2, s.inflight ++ [(s.ring.claim.1, t)], s.records ++ [t]⟩ :
      Producers T N).Window := by
  obtain ⟨w1, w2⟩ := hw
  have hok2 : ∀ e ∈ s.inflight, s.ring.head < e.1 + N := by
    intro e he
    have := (List.all_eq_true.mp hok) e he
    simpa using this
  refine ⟨?_, ?_⟩
  · intro e he
    show s.ring.head + 1 ≤ e.1 + N
    rcases List.mem_append.mp he with h | h
    · have := hok2 e h
      omega
    · have he2 : e = (s.ring.head, t) := by simpa using h
      subst he2
      show s.ring.head + 1 ≤ s.ring.head + N
      omega
  · intro p hcm hle
    have hle2 : s.ring.head + 1 ≤ p + N := hle
    rw [Producers.committed_iff] at hcm
    obtain ⟨c0, c1, c2⟩ := hcm
    have c1b : p < s.ring.head + 1 := c1
    have hne : s.ring.head ≠ p :=
      c2 (s.ring.head, t) (List.mem_append.mpr (Or.inr (List.mem_singleton.mpr rfl)))
    have hcm2 : s.committed p = true := by
      rw [Producers.committed_iff]
      exact ⟨c0, by omega, fun e he => c2 e (List.mem_append.mpr (Or.inl he))⟩
    show s.ring.buffer_status (p % N) = p + N
    exact w2 p hcm2 (by omega)

theorem Producers.Prod_Window_commit {T : Type} {N : Int} (k : Nat) (hN : N = 2 ^ k)
    (s : Producers T N) (p : Int) (e : Int × T) (he : e ∈ s.inflight) (hep : e.1 = p)
    (hinv : s.Inv) (hw : s.Window) :
    (⟨s.ring.commit e.1 e.2, s.inflight.filter (fun e => decide (e.1 ≠ p)), s.records⟩ :
      Producers T N).Window := by
  have hpos : (0 : Int) < N := pow_two_pos N k hN
  obtain ⟨ha, hb, hc⟩ := hinv
  obtain ⟨w1, w2⟩ := hw
  have hmask : Int.land e.1 (N - 1) = e.1 % N := int_land_mask N k hN e.1
  refine ⟨?_, ?_⟩
  · intro e2 h2
    exact w1 e2 (List.mem_filter.mp h2).1
  · intro q hcm hle
    have hle2 : s.ring.head ≤ q + N := hle
    show Function.update s.ring.buffer_status (Int.land e.1 (N - 1)) (e.1 + N) (q % N) = q + N
    rw [hmask]
    by_cases hq : q = e.1
    · rw [hq, Function.update_same]
    · rw [Producers.committed_iff] at hcm
      obtain ⟨c0, c1, c2⟩ := hcm
      have c1b : q < s.ring.head := c1
      have hcm2 : s.committed q = true := by
        rw [Producers.committed_iff]
        refine ⟨c0, c1b, ?_⟩
        intro e2 h2 heq
        have hmem : e2 ∈ s.inflight.filter (fun e => decide (e.1 ≠ p)) := by
          rw [List.mem_filter]
          refine ⟨h2, ?_⟩
          have : e2.1 ≠ p := by
            rw [heq, ← hep]
            exact hq
          simpa using this
        exact c2 e2 hmem heq
      have hne : q % N ≠ e.1 % N := by
        intro hmod
        have b := hb e he
        have w := w1 e he
        exact hq (int_emod_window N q e.1 hmod (by omega) (by omega))
      rw [Function.update_noteq hne]
      exact w2 q hcm2 hle2

theorem Producers.Prod_step_cases {T : Type} {N : Int} (s s1 : Producers T N)
    (st : ProducerStep T) (h : s.step st = some s1) :
    (∃ t, st = .claim t ∧
      s1 = ⟨s.ring.claim.2, s.inflight ++ [(s.ring.claim.1, t)], s.records ++ [t]⟩) ∨
    (∃ p e, st = .commit p ∧ e ∈ s.inflight ∧ e.1 = p ∧
      s1 = ⟨s.ring.commit e.1 e.2, s.inflight.filter (fun e => decide (e.1 ≠ p)),
        s.records⟩) := by
  cases st with
  | claim t =>
    left
    refine ⟨t, rfl, ?_⟩
    simp only [Producers.step, Option.some.injEq] at h
    exact h.symm
  | commit p =>
    right
    cases hfind : s.inflight.find? (fun e => decide (e.1 = p)) with
    | none =>
      simp only [Producers.step, hfind] at h
      exact absurd h (by simp)
    | some e =>
      simp only [Producers.step, hfind, Option.some.injEq] at h
      have h1 := List.find?_some hfind
      exact ⟨p, e, rfl, List.mem_of_find?_eq_some hfind, by simpa using h1, h.symm⟩

theorem Producers.Prod_run_inv {T : Type} {N : Int} (k : Nat) (hN : N = 2 ^ k) :
    ∀ (steps : List (ProducerStep T)) (s s2 : Producers T N), s.Inv →
      s.run steps = some s2 →
      s2.Inv ∧ (s.Window → s.noLap steps = true → s2.Window) ∧ s.records <+: s2.records := by
  have hpos : (0 : Int) < N := pow_two_pos N k hN
  intro steps
  induction steps with
  | nil =>
    intro s s2 hinv hrun
    simp only [Producers.run, Option.some.injEq] at hrun
    subst hrun
    exact ⟨hinv, fun hw _ => hw, List.prefix_refl _⟩
  | cons st rest ih =>
    intro s s2 hinv hrun
    cases hst : s.step st with
    | none =>
      simp only [Producers.run, hst, Option.none_bind] at hrun
      exact absurd hrun (by simp)
    | some s1 =>
      simp only [Producers.run, hst, Option.some_bind] at hrun
      have hcase := Producers.Prod_step_cases s s1 st hst
      have hinv1 : s1.Inv := by
        rcases hcase with ⟨t, _, h1⟩ | ⟨p, e, _, he, hep, h1⟩
        · rw [h1]; exact Producers.Prod_Inv_claim s t hinv
        · rw [h1]; exact Producers.Prod_Inv_commit k hN s p e he hep hinv
      have hpre1 : s.records <+: s1.records := by
        rcases hcase with ⟨t, _, h1⟩ | ⟨p, e, _, he, hep, h1⟩
        · rw [h1]; exact List.prefix_append s.records [t]
        · rw [h1]
      obtain ⟨i1, i2, i3⟩ := ih s1 s2 hinv1 hrun
      refine ⟨i1, ?_, hpre1.trans i3⟩
      intro hw hno
      simp only [Producers.noLap, hst, Bool.and_eq_true] at hno
      obtain ⟨hok, hrest⟩ := hno
      apply i2 _ hrest
      rcases hcase with ⟨t, hst2, h1⟩ | ⟨p, e, _, he, hep, h1⟩
      · rw [h1]
        rw [hst2] at hok
        exact Producers.Prod_Window_claim hpos s t hw hok
      · rw [h1]
        exact Producers.Prod_Window_commit k hN s p e he hep hinv hw

theorem Producers.Prod_loop {T : Type} {N : Int} (k : Nat) (hN : N = 2 ^ k)
    (s : Producers T N) (hinv : s.Inv) (c0 : Int) (hc0 : 0 ≤ c0)
    (hh : s.ring.head ≤ c0 + N) :
    ∀ (fuel : Nat) (c r : Int) (out : List T), c0 ≤ c →
      s.ring.DequeueFromLoop fuel c = some (r, out) →
      c ≤ r ∧ (∀ p, c ≤ p → p < r → s.committed p = true) ∧
      out = (s.records.drop c.toNat).take (r - c).toNat ∧
      ¬ (r < s.ring.buffer_status (r % N)) := by
  have hpos : (0 : Int) < N := pow_two_pos N k hN
  obtain ⟨ha, hb, hc⟩ := hinv
  intro fuel
  induction fuel with
  | zero =>
    intro c r out _ h
    simp [MPMCRingBuffer.DequeueFromLoop] at h
  | succ f ih =>
    intro c r out hcc h
    have hmask : Int.land c s.ring.mask = c % N := int_land_mask N k hN c
    unfold MPMCRingBuffer.DequeueFromLoop at h
    simp only [hmask] at h
    by_cases hlt : c < s.ring.buffer_status (c % N)
    · rw [if_pos hlt] at h
      cases hrec : s.ring.DequeueFromLoop f (c + 1) with
      | none =>
        rw [hrec] at h
        exact absurd h (by simp)
      | some res =>
        rw [hrec] at h
        simp only [Option.map_some', Option.some.injEq, Prod.mk.injEq] at h
        obtain ⟨h1, h2⟩ := h
        obtain ⟨i1, i2, i3, i4⟩ := ih (c + 1) res.1 res.2 (by omega) hrec
        have hfact : s.committed c = true ∧ s.records[c.toNat]? = some (s.ring.buffer (c % N)) := by
          rcases hc (c % N) (Int.emod_nonneg _ (by omega)) (Int.emod_lt_of_pos _ hpos) with
            hl | ⟨p, hp, hcm, hseq, hr⟩
          · have := int_emod_le_self c N (by omega) hpos
            omega
          · have hcm2 := (Producers.committed_iff s p).mp hcm
            have hpc : p = c := int_emod_window N p c hp (by omega) (by omega)
            rw [hpc] at hcm hr
            exact ⟨hcm, hr⟩
        obtain ⟨hcmc, hrc⟩ := hfact
        obtain ⟨hlen, hget⟩ := List.getElem?_eq_some_iff.mp hrc
        subst h1
        refine ⟨by omega, ?_, ?_, i4⟩
        · intro p hp1 hp2
          by_cases hpc : p = c
          · rw [hpc]; exact hcmc
          · exact i2 p (by omega) hp2
        · rw [← h2, i3, List.drop_eq_getElem_cons hlen, hget]
          have e1 : (res.1 - c).toNat = (res.1 - (c + 1)).toNat + 1 := by omega
          have e2 : (c + 1).toNat = c.toNat + 1 := by omega
          rw [e1, e2, List.take_succ_cons]
    · rw [if_neg hlt] at h
      simp only [Option.some.injEq, Prod.mk.injEq] at h
      obtain ⟨h1, h2⟩ := h
      subst h1
      subst h2
      refine ⟨le_refl _, ?_, ?_, hlt⟩
      · intro p hp1 hp2
        omega
      · simp

end container
end trade

namespace trade
namespace container

/-- C21, counterexample: on a ring with `N = 2` three producers claim the
positions 0, 1 and 2, and the commits come in the order 1, 2, 0.  The commit
of position 2 writes slot 0 with the sequence number 4; the late commit of
position 0 writes slot 0 again, with the sequence number 2.  Now `head = 3`,
the positions 1 and 2 are committed and 3 is the smallest position from 1 on
that is not; with the cursor 1 (`head ≤ 1 + N`) the drain passes the record of
position 1 only and returns 2. -/
theorem MPMC_late_commit_stops_drain :
    ((Producers.init (fun _ => 0) : Producers Nat 2).run
        [.claim 10, .claim 11, .commit 1, .claim 12, .commit 2, .commit 0]).map
      (fun s => (s.ring.head, s.committed 1, s.committed 2, s.committed 3))
      = some (3, true, true, false) ∧
    ((Producers.init (fun _ => 0) : Producers Nat 2).run
        [.claim 10, .claim 11, .commit 1, .claim 12, .commit 2, .commit 0]).map
      (fun s => s.ring.DequeueFrom 1) = some (some (2, [11])) := by
  decide

/-- C21, amended: `Enqueue(t)` is the claim `current_head = head++` followed
by the commit of that position.  In every state reached from a new ring by
claims and commits in any order, for a capacity `N = 2^k` and a cursor
`c ≥ 0` with `head ≤ c + N`, `Dequeue(c, callback)` returns a cursor `r ≥ c`
and passes `r - c` records, those claimed for the positions `c, ..., r - 1` in
that order, and each of these positions is committed; the record of a
position is the same in every later state.  When every claim of the run was
taken within one lap of the positions in flight (`head < q + N` for every
position `q` claimed and not yet committed), the position `r` is not
committed, so `r` is the smallest position from `c` on that is not. -/
theorem MPMC_gap_free_prefix {T : Type} {N : Int} (k : Nat) (hN : N = 2 ^ k)
    (init : Int → T) (steps : List (ProducerStep T)) (s : Producers T N)
    (hrun : (Producers.init init).run steps = some s)
    (c : Int) (hc : 0 ≤ c) (hhead : s.ring.head ≤ c + N) :
    (∀ (r0 : MPMCRingBuffer T N) (t : T), r0.Enqueue t = r0.claim.2.commit r0.claim.1 t) ∧
    ∃ (r : Int) (out : List T),
      s.ring.DequeueFrom c = some (r, out) ∧ c ≤ r ∧
      (∀ p, c ≤ p → p < r → s.committed p = true) ∧
      out = (s.records.drop c.toNat).take (r - c).toNat ∧
      out.length = (r - c).toNat ∧
      ((Producers.init init : Producers T N).noLap steps = true → s.committed r = false) ∧
      (∀ (more : List (ProducerStep T)) (s2 : Producers T N),
        s.run more = some s2 → s.records <+: s2.records) := by
  refine ⟨fun _ _ => rfl, ?_⟩
  obtain ⟨hinv, hwin, _⟩ :=
    Producers.Prod_run_inv k hN steps (Producers.init init) s (Producers.Prod_Inv_init init) hrun
  obtain ⟨res, hres⟩ := MPMCRingBuffer.DequeueFromLoop_total k hN s.ring
    ((s.ring.maxSeq - c).toNat) ((s.ring.maxSeq - c).toNat + 1) c rfl (Nat.lt_succ_self _)
  obtain ⟨l1, l2, l3, l4⟩ :=
    Producers.Prod_loop k hN s hinv c hc hhead _ c res.1 res.2 (le_refl c) hres
  have hpos : (0 : Int) < N := pow_two_pos N k hN
  refine ⟨res.1, res.2, hres, l1, l2, l3, ?_, ?_, ?_⟩
  · rw [l3, List.length_take, List.length_drop]
    by_cases hrc : res.1 = c
    · rw [hrc]
      simp
    · have hcm := (Producers.committed_iff s (res.1 - 1)).mp (l2 (res.1 - 1) (by omega) (by omega))
      have ha := hinv.1
      omega
  · intro hno
    have hw := hwin (Producers.Prod_Window_init init) hno
    cases hcm : s.committed res.1 with
    | false => rfl
    | true =>
      have := hw.2 res.1 hcm (by omega)
      omega
  · intro more s2 h
    exact (Producers.Prod_run_inv k hN more s s2 hinv h).2.2

/-- Witness of C21: on a ring with `N = 4`, after the claims of the positions
0 and 1, their commits in the order 1, 0, and the claim of position 2, the
cursor 0 reads the records of the positions 0 and 1 and stops at the
position 2, which is not committed. -/
theorem MPMC_gap_free_prefix_witness :
    (4 : Int) = 2 ^ 2 ∧
    ∃ s : Producers Nat 4,
      (Producers.init (fun _ => 0)).run [.claim 10, .claim 11, .commit 1, .commit 0, .claim 12]
        = some s ∧
      (0 : Int) ≤ 0 ∧ s.ring.head ≤ 0 + 4 ∧
      s.ring.DequeueFrom 0 = some (2, [10, 11]) ∧ s.committed 2 = false := by
  refine ⟨by norm_num, ?_⟩
  have hsome : ((Producers.init (fun _ => 0) : Producers Nat 4).run
      [.claim 10, .claim 11, .commit 1, .commit 0, .claim 12]).isSome = true := by decide
  obtain ⟨s, hs⟩ := Option.isSome_iff_exists.mp hsome
  have hval : ((Producers.init (fun _ => 0) : Producers Nat 4).run
      [.claim 10, .claim 11, .commit 1, .commit 0, .claim 12]).map
      (fun s => (s.ring.head, s.ring.DequeueFrom 0)) = some (3, some (2, [10, 11])) := by decide
  have hno : (Producers.init (fun _ => 0) : Producers Nat 4).noLap
      [.claim 10, .claim 11, .commit 1, .commit 0, .claim 12] = true := by decide
  rw [hs] at hval
  simp only [Option.map_some', Option.some.injEq, Prod.mk.injEq] at hval
  have hh : s.ring.head ≤ 0 + 4 := by omega
  obtain ⟨_, r, out, h1, _, _, _, _, h6, _⟩ :=
    MPMC_gap_free_prefix 2 (by norm_num) (fun _ => 0)
      [.claim 10, .claim 11, .commit 1, .commit 0, .claim 12] s hs 0 (le_refl 0) hh
  rw [hval.2] at h1
  simp only [Option.some.injEq, Prod.mk.injEq] at h1
  have h7 := h6 hno
  rw [← h1.1] at h7
  exact ⟨s, hs, le_refl 0, hh, hval.2, h7⟩

end container
end trade
